import Mathlib

/-!
# Secret message encoder / decoder

A shallow embedding of `secret-message-encoder-decoder/src/encrypt_messages.cpp`
(the grid sizing, the boundary tracker, the spiral traversal `fill_grid`, the
codec `encode` / `decode` and the batch drivers), followed by theorems about it.

Modelling conventions

* `std::string` is a `List Char`; one `Char` stands for one byte.
* `int` values are `Int`. The sizing at the start of `encode` (lines 223-232) runs on
  32-bit `int` (`wrap_int`, `square_int`, `decoded_length_int`, `minimum_size_int`): a
  result that does not fit wraps around, as two's-complement builds compute it (the
  overflow itself is undefined behaviour in C++). `square`, `decoded_length` and
  `minimum_size` are the same functions over unbounded integers; they give the `int`
  values for every dimension up to 46340, that is for every message of at most
  1073651461 characters, and past the guards of `encode` and `decode` every dimension
  is at most 31.
* The grid `unique_ptr<unique_ptr<char[]>[]>` is a function `Int → Int → Char`
  together with its dimension; an access `grid_[row][col]` outside
  `0 ≤ row, col < grid_size_` is undefined behaviour in C++ and is reported as
  `Outcome.out_of_bounds`.
* `throw CustomException(..)` is `Outcome.raised`.
* `std::random_device` / `std::mt19937` is a stream of draws `Nat → Fin 26`; the
  `k`-th value the distribution returns is the letter `'A' + draws k`.
* Console input is passed in as data (`UserInput`).
-/

namespace SecretMessage

/-! ## Outcomes -/

/-- The four `CustomException` messages thrown by the codec. -/
inductive CustomException
  /-- `"\tMinimum grid size is 3x3."` -/
  | minimum_grid_size
  /-- `"\tGrid size must be an odd number."` -/
  | grid_size_odd
  /-- `"\tEncoded message length must be <1000."` -/
  | length_below_1000
  /-- `"\tEncoded message length must be an odd square number."` -/
  | odd_square_number
  deriving DecidableEq, Repr

/-- Text returned by `CustomException::what`. -/
def CustomException.what : CustomException → String
  | .minimum_grid_size => "\tMinimum grid size is 3x3."
  | .grid_size_odd => "\tGrid size must be an odd number."
  | .length_below_1000 => "\tEncoded message length must be <1000."
  | .odd_square_number => "\tEncoded message length must be an odd square number."

/-- Result of running a piece of the program: a value, a thrown
`CustomException`, an access outside the grid arrays (undefined behaviour), or
no result at all (a loop that does not come back). -/
inductive Outcome (α : Type)
  | ok (value : α)
  | raised (e : CustomException)
  | out_of_bounds
  | no_return
  deriving DecidableEq, Repr

/-! ## Free functions -/

/-- Largest `k ≤ bound` with `k * k ≤ x` (`0` when there is none). -/
def floor_sqrt_aux (x : Nat) : Nat → Nat
  | 0 => 0
  | k + 1 => if (k + 1) * (k + 1) ≤ x then k + 1 else floor_sqrt_aux x k

/-- The value of `static_cast<int>(std::sqrt(x))` for a length `x`: `std::sqrt` is
correctly rounded and exact on perfect squares, so for every length below `2^52`
the cast yields the integer square root. -/
def floor_sqrt (x : Nat) : Nat := floor_sqrt_aux x x

/-- The value of `static_cast<int>(std::ceil(std::sqrt(x)))`. -/
def ceil_sqrt (x : Nat) : Nat :=
  if floor_sqrt x * floor_sqrt x = x then floor_sqrt x else floor_sqrt x + 1

/-- Line 21: `constexpr int global_max_size{static_cast<int>(std::sqrt(1000))}`. -/
def global_max_size : Int := (floor_sqrt 1000 : Nat)

/-- Line 22: `square`, in exact arithmetic. The `int` product of the source is this
value for `|x| ≤ 46340`; `square_int` is the function on 32-bit `int`. -/
def square (x : Int) : Int := x * x

/-- Line 23: `decoded_length`, in exact arithmetic (the `int` value for `|x| ≤ 46340`;
`decoded_length_int` is the function on 32-bit `int`); the dividend is positive, so C++
truncating division and `Int` division agree. `fill_grid` reads the value in read mode
only, where the dimension is at most 31. -/
def decoded_length (x : Int) : Int := (square x + 1) / 2

/-- The value an `int` holds after an operation whose exact result is `x`: `x` itself when
it fits 32 bits. Signed overflow is undefined behaviour in C++; for a result that does not
fit, the model takes the two's-complement value that builds without overflow trapping
compute. -/
def wrap_int (x : Int) : Int := (x + 2147483648) % 4294967296 - 2147483648

/-- Line 22 on 32-bit `int`. -/
def square_int (x : Int) : Int := wrap_int (x * x)

/-- Line 23 on 32-bit `int`; the division truncates toward zero. -/
def decoded_length_int (x : Int) : Int := Int.tdiv (wrap_int (square_int x + 1)) 2

/-- The `int` operand of a comparison with a `size_t` (64 bits), converted to `size_t` as
the usual arithmetic conversions do: a negative value becomes a number just below
`2 ^ 64`. -/
def to_size_t (x : Int) : Nat := (x % 18446744073709551616).toNat

/-- Line 193: `is_even`; `x % 2 == 0` has the same truth value under truncating
and Euclidean remainder. -/
def is_even (x : Int) : Bool := x % 2 == 0

/-! ## GridBoundary -/

/-- Lines 71-94: the boundary tracker. -/
structure GridBoundary where
  top_ : Int
  bottom_ : Int
  right_ : Int
  deriving DecidableEq, Repr

/-- Lines 79-83. -/
def GridBoundary.manipulate_boundary (b : GridBoundary) : GridBoundary :=
  { top_ := b.top_ + 1, bottom_ := b.bottom_ - 1, right_ := b.right_ - 1 }

/-- Lines 85-87. -/
def GridBoundary.within_row_bounds (b : GridBoundary) (row : Int) : Bool :=
  decide (row > b.top_) && decide (row < b.bottom_)

/-- Line 89. -/
def GridBoundary.within_col_bounds (b : GridBoundary) (col : Int) : Bool :=
  decide (col < b.right_)

/-- Lines 91-93. -/
def GridBoundary.is_within_boundary (b : GridBoundary) (row col : Int) : Bool :=
  b.within_row_bounds row && b.within_col_bounds col

/-! ## GridOperations -/

/-- Contents of the character grid, indexed by row and column. -/
abbrev Grid := Int → Int → Char

/-- Assignment `grid_[row][col] = ch`. -/
def set_cell (g : Grid) (row col : Int) (ch : Char) : Grid :=
  fun r c => if r = row ∧ c = col then ch else g r c

/-- Whether `grid_[row][col]` lies inside a grid of dimension `n`. -/
def in_grid (n row col : Int) : Bool :=
  decide (0 ≤ row) && decide (row < n) && decide (0 ≤ col) && decide (col < n)

/-- Lines 96-99: the members of `GridOperations`. -/
structure GridOperations where
  grid_size_ : Int
  grid_ : Grid

/-- Line 151: the constructor (`grid_size_{0}`, `grid_{nullptr}`). -/
def GridOperations.new : GridOperations :=
  { grid_size_ := 0, grid_ := fun _ _ => Char.ofNat 0 }

/-- Lines 104-106: the inner loop of `initialise_grid` for row `i`; the state is the
grid and the running `index`. -/
def initialise_row (message : List Char) (n : Nat) (i : Nat) (st : Grid × Nat) : Grid × Nat :=
  (List.range n).foldl
    (fun (acc : Grid × Nat) (j : Nat) =>
      if message ≠ [] then (set_cell acc.1 i j (message.getD acc.2 (Char.ofNat 0)), acc.2 + 1)
      else (set_cell acc.1 i j ' ', acc.2))
    st

/-- Lines 101-108: `initialise_grid`. -/
def GridOperations.initialise_grid (self : GridOperations) (message : List Char) :
    GridOperations :=
  { self with
    grid_ := ((List.range self.grid_size_.toNat).foldl
      (fun (acc : Grid × Nat) (i : Nat) => initialise_row message self.grid_size_.toNat i acc)
      (self.grid_, 0)).1 }

/-- The local variables of `fill_grid` (lines 115-120) together with the grid and the
string behind `decoded_message`. -/
structure FillState where
  grid_ : Grid
  decoded_message : List Char
  boundary : GridBoundary
  index : Nat
  row : Int
  col : Int
  row_manip : Int
  col_manip : Int

/-- Line 112: `const int swap{-1}`. -/
def swap : Int := -1

/-- Lines 122-146: one pass through the body of the `while` loop of `fill_grid`, on the
path that does not `break`. -/
def fill_body (n : Int) (message : List Char) (encode_flag : Bool) (s : FillState) :
    Outcome FillState :=
  if !in_grid n s.row s.col then .out_of_bounds else
  let s1 : FillState :=
    if encode_flag then
      { s with grid_ := set_cell s.grid_ s.row s.col (message.getD s.index (Char.ofNat 0)),
               index := s.index + 1 }
    else
      { s with decoded_message := s.decoded_message ++ [s.grid_ s.row s.col],
               grid_ := set_cell s.grid_ s.row s.col '~',
               index := s.index + 1 }
  let row_manip := if !s.boundary.within_row_bounds s.row then s.row_manip * swap else s.row_manip
  let col_manip := if !s.boundary.within_col_bounds s.col then s.col_manip * swap else s.col_manip
  let row := s.row + row_manip
  let col := s.col + col_manip
  if !in_grid n row col then .out_of_bounds else
  if ((encode_flag && s1.grid_ row col != ' ') || (!encode_flag && s1.grid_ row col == '~'))
      && s.boundary.is_within_boundary row col then
    .ok { s1 with row := row, col := col + 1, row_manip := row_manip,
                  col_manip := col_manip * swap,
                  boundary := s.boundary.manipulate_boundary }
  else
    .ok { s1 with row := row, col := col, row_manip := row_manip, col_manip := col_manip }

/-- Lines 121-147: the `while` loop of `fill_grid`, run for at most `fuel` passes. -/
def fill_loop (n : Int) (message : List Char) (encode_flag : Bool) :
    Nat → FillState → Outcome FillState
  | 0, s =>
    if s.index < message.length ∧ (encode_flag ∨ ¬ ((s.index : Int) ≥ decoded_length n)) then
      .no_return
    else .ok s
  | fuel + 1, s =>
    if s.index < message.length then
      if !encode_flag && decide ((s.index : Int) ≥ decoded_length n) then .ok s
      else
        match fill_body n message encode_flag s with
        | .ok s1 => fill_loop n message encode_flag fuel s1
        | .raised e => .raised e
        | .out_of_bounds => .out_of_bounds
        | .no_return => .no_return
    else .ok s

/-- Lines 110-148: `fill_grid`; every pass of the loop increases `index`, so
`message.length` passes are enough. The result is the grid and the decoded string. -/
def GridOperations.fill_grid (self : GridOperations) (message : List Char) (encode_flag : Bool) :
    Outcome (GridOperations × List Char) :=
  match fill_loop self.grid_size_ message encode_flag message.length
      { grid_ := self.grid_, decoded_message := [],
        boundary := { top_ := 0, bottom_ := self.grid_size_ - 1, right_ := self.grid_size_ - 1 },
        index := 0, row := self.grid_size_ / 2, col := 0, row_manip := -1, col_manip := 1 } with
  | .ok s => .ok ({ self with grid_ := s.grid_ }, s.decoded_message)
  | .raised e => .raised e
  | .out_of_bounds => .out_of_bounds
  | .no_return => .no_return

/-- Lines 153-165: `set_grid_size`; the object is returned unchanged next to the
exception when the size is refused. -/
def GridOperations.set_grid_size (self : GridOperations) (size : Int) :
    GridOperations × Outcome Unit :=
  if size < 3 then (self, .raised .minimum_grid_size)
  else if size % 2 == 0 then (self, .raised .grid_size_odd)
  else ({ grid_size_ := size, grid_ := fun _ _ => Char.ofNat 0 }, .ok ())

/-- Lines 167-171: `process_grid`. -/
def GridOperations.process_grid (self : GridOperations) (message : List Char)
    (encode_flag : Bool) : Outcome (GridOperations × List Char) :=
  (if encode_flag then self.initialise_grid [] else self.initialise_grid message).fill_grid
    message encode_flag

/-- The letter for one value of `uniform_int_distribution<int>('A', 'Z')`. -/
def filler (d : Fin 26) : Char := Char.ofNat ('A'.toNat + d.val)

/-- Lines 180-183: the inner loop of `get_encoded_message` for row `i`; the state is the
string built so far and the number of draws taken from the generator. -/
def encoded_row (g : Grid) (draws : Nat → Fin 26) (n : Nat) (i : Nat) (st : List Char × Nat) :
    List Char × Nat :=
  (List.range n).foldl
    (fun (acc : List Char × Nat) (j : Nat) =>
      if g i j = ' ' then (acc.1 ++ [filler (draws acc.2)], acc.2 + 1)
      else (acc.1 ++ [g i j], acc.2))
    st

/-- Lines 173-186: `get_encoded_message`. -/
def GridOperations.get_encoded_message (self : GridOperations) (draws : Nat → Fin 26) :
    List Char :=
  ((List.range self.grid_size_.toNat).foldl
    (fun (acc : List Char × Nat) (i : Nat) =>
      encoded_row self.grid_ draws self.grid_size_.toNat i acc)
    ([], 0)).1

/-! ## EncoderDecoder -/

/-- What the user types at the prompts of `prompt_grid_size`: the answer to
"Declare custom grid size for encoding? (y/n)" and the successive entries at
"Enter desired grid size" (`none` for an entry that is not an integer). -/
structure UserInput where
  declare_custom : Bool
  entries : List (Option Int)

/-- Lines 204-214: the `while` loop of `prompt_grid_size` over the typed entries; there
is no result when no entry is accepted. -/
def prompt_entries (min_size : Int) : List (Option Int) → Option Int
  | [] => none
  | none :: rest => prompt_entries min_size rest
  | some new_size :: rest =>
    if decide (new_size < min_size) || decide (new_size > global_max_size) || is_even new_size then
      prompt_entries min_size rest
    else some new_size

/-- Lines 195-216: `prompt_grid_size`. -/
def prompt_grid_size (min_size : Int) (input : UserInput) : Option Int :=
  if !input.declare_custom then some min_size else prompt_entries min_size input.entries

/-- Lines 228-231 over unbounded integers: the `while` loop that grows `min_size`, run
for at most `fuel` passes. -/
def min_size_loop (length : Nat) : Nat → Int → Option Int
  | 0, _ => none
  | fuel + 1, min_size =>
    if (length : Int) > decoded_length min_size then min_size_loop length fuel (min_size + 2)
    else some min_size

/-- Lines 223-231 over unbounded integers: the minimum grid dimension for a message of the
given length. It is the value `encode` computes for every message of at most 1073651461
characters (`minimum_size_int_exact`). -/
def minimum_size (length : Nat) : Option Int :=
  let min_size : Int := (ceil_sqrt length : Nat)
  min_size_loop length (length + 1) (if is_even min_size then min_size + 1 else min_size)

/-- Lines 228-231 as the program runs them: `min_size` and `max_decoded_length` are
32-bit `int`, and the test `message.length() > max_decoded_length` compares a `size_t`
with an `int`. Run for at most `fuel` passes. -/
def min_size_loop_int (length : Nat) : Nat → Int → Option Int
  | 0, _ => none
  | fuel + 1, min_size =>
    if length > to_size_t (decoded_length_int min_size) then
      min_size_loop_int length fuel (wrap_int (min_size + 2))
    else some min_size

/-- Lines 223-231 as the program runs them: the minimum grid dimension `encode` computes
for a message of the given length. -/
def minimum_size_int (length : Nat) : Option Int :=
  let min_size : Int := (ceil_sqrt length : Nat)
  min_size_loop_int length (length + 1)
    (if is_even min_size then wrap_int (min_size + 1) else min_size)

/-- Line 191: the member of `EncoderDecoder`. -/
structure EncoderDecoder where
  grid_operations_ : GridOperations

/-- Line 219: the constructor. -/
def EncoderDecoder.new : EncoderDecoder := { grid_operations_ := GridOperations.new }

/-- Lines 235-244 of `encode`: size the grid, write the message, dump the grid. -/
def EncoderDecoder.encode_with_size (self : EncoderDecoder) (message : List Char) (size : Int)
    (draws : Nat → Fin 26) : EncoderDecoder × Outcome (List Char) :=
  match self.grid_operations_.set_grid_size size with
  | (ops, .ok _) =>
    match ops.process_grid message true with
    | .ok (ops1, _) => ({ grid_operations_ := ops1 }, .ok (ops1.get_encoded_message draws))
    | .raised e => ({ grid_operations_ := ops }, .raised e)
    | .out_of_bounds => ({ grid_operations_ := ops }, .out_of_bounds)
    | .no_return => ({ grid_operations_ := ops }, .no_return)
  | (ops, .raised e) => ({ grid_operations_ := ops }, .raised e)
  | (ops, .out_of_bounds) => ({ grid_operations_ := ops }, .out_of_bounds)
  | (ops, .no_return) => ({ grid_operations_ := ops }, .no_return)

/-- Lines 221-245: `encode`; the sizing and the guard of line 232 are in `int`
arithmetic. -/
def EncoderDecoder.encode (self : EncoderDecoder) (message : List Char)
    (is_auto_grid_size : Bool) (input : UserInput) (draws : Nat → Fin 26) :
    EncoderDecoder × Outcome (List Char) :=
  match minimum_size_int message.length with
  | none => (self, .no_return)
  | some min_size =>
    if square_int min_size > 999 then (self, .raised .length_below_1000)
    else if is_auto_grid_size then self.encode_with_size message min_size draws
    else
      match prompt_grid_size min_size input with
      | none => (self, .no_return)
      | some size => self.encode_with_size message size draws

/-- Lines 247-263: `decode`. -/
def EncoderDecoder.decode (self : EncoderDecoder) (encoded_message : List Char) :
    EncoderDecoder × Outcome (List Char) :=
  let grid_size : Int := (floor_sqrt encoded_message.length : Nat)
  if is_even grid_size then (self, .raised .odd_square_number)
  else if encoded_message.length > 999 then (self, .raised .length_below_1000)
  else
    match self.grid_operations_.set_grid_size grid_size with
    | (ops, .ok _) =>
      match ops.process_grid encoded_message false with
      | .ok (ops1, decoded_message) => ({ grid_operations_ := ops1 }, .ok decoded_message)
      | .raised e => ({ grid_operations_ := ops }, .raised e)
      | .out_of_bounds => ({ grid_operations_ := ops }, .out_of_bounds)
      | .no_return => ({ grid_operations_ := ops }, .no_return)
    | (ops, .raised e) => ({ grid_operations_ := ops }, .raised e)
    | (ops, .out_of_bounds) => ({ grid_operations_ := ops }, .out_of_bounds)
    | (ops, .no_return) => ({ grid_operations_ := ops }, .no_return)

/-! ## Driver: batch processing -/

/-- The marker `"FE::"` put in front of a line that could not be encoded. -/
def encode_failure_tag : List Char := ['F', 'E', ':', ':']

/-- The marker `"FD::"` put in front of a line that could not be decoded. -/
def decode_failure_tag : List Char := ['F', 'D', ':', ':']

/-- Lines 543-558: the `for` loop of `encode_all_messages` over the remaining lines;
`results` is `encoded_messages` so far and `draws k` is the generator of the call made for
line `k`. Only `CustomException` is caught. -/
def encode_all_loop (draws : Nat → Nat → Fin 26) :
    List (List Char) → Nat → EncoderDecoder → List (List Char) →
      EncoderDecoder × Outcome (List (List Char))
  | [], _, self, results => (self, .ok results)
  | message :: rest, k, self, results =>
    if message = [] then encode_all_loop draws rest (k + 1) self (results ++ [[]])
    else
      match self.encode message true { declare_custom := false, entries := [] } (draws k) with
      | (self1, .ok encoded) => encode_all_loop draws rest (k + 1) self1 (results ++ [encoded])
      | (self1, .raised _) =>
        encode_all_loop draws rest (k + 1) self1 (results ++ [encode_failure_tag ++ message])
      | (self1, .out_of_bounds) => (self1, .out_of_bounds)
      | (self1, .no_return) => (self1, .no_return)

/-- Lines 539-560: `encode_all_messages`, up to the call of `process_messages`: the
value is the vector `encoded_messages` handed to it. -/
def encode_all_messages (self : EncoderDecoder) (messages : List (List Char))
    (draws : Nat → Nat → Fin 26) : EncoderDecoder × Outcome (List (List Char)) :=
  encode_all_loop draws messages 0 self []

/-- Lines 565-575: the `for` loop of `decode_all_messages` over the remaining lines. -/
def decode_all_loop :
    List (List Char) → EncoderDecoder → List (List Char) →
      EncoderDecoder × Outcome (List (List Char))
  | [], self, results => (self, .ok results)
  | message :: rest, self, results =>
    if message = [] then decode_all_loop rest self (results ++ [[]])
    else
      match self.decode message with
      | (self1, .ok decoded) => decode_all_loop rest self1 (results ++ [decoded])
      | (self1, .raised _) =>
        decode_all_loop rest self1 (results ++ [decode_failure_tag ++ message])
      | (self1, .out_of_bounds) => (self1, .out_of_bounds)
      | (self1, .no_return) => (self1, .no_return)

/-- Lines 562-577: `decode_all_messages`, up to the call of `process_messages`. -/
def decode_all_messages (self : EncoderDecoder) (messages : List (List Char)) :
    EncoderDecoder × Outcome (List (List Char)) :=
  decode_all_loop messages self []

/-! ## The traversal without the characters

`fill_grid` looks at the grid only to ask whether the cell it has just stepped on was
written (encode: is not blank) or read (decode: holds the mark) before. `Walk` replays
lines 131-146 with that question answered from the set of cells visited so far, which is
kept twice: as the list of cells, most recent first, and as a bit set used for the test. -/

/-- The traversal registers of `fill_grid` and the cells visited so far. -/
structure Walk where
  visited : List (Int × Int)
  mask : Nat
  boundary : GridBoundary
  row : Int
  col : Int
  row_manip : Int
  col_manip : Int

/-- Bit number of a cell in `Walk.mask`. -/
def cell_code (row col : Int) : Nat := (row * 32 + col).toNat

/-- Lines 131-133: the row step after the row test. -/
def flip_row (b : GridBoundary) (row row_manip : Int) : Int :=
  if !b.within_row_bounds row then row_manip * swap else row_manip

/-- Lines 134-136: the column step after the column test. -/
def flip_col (b : GridBoundary) (col col_manip : Int) : Int :=
  if !b.within_col_bounds col then col_manip * swap else col_manip

/-- One pass of the loop body on a `Walk`; `none` when the pass touches a cell outside
the grid or stands on a cell that was visited before. -/
def walk_step (n : Int) (w : Walk) : Option Walk :=
  if !in_grid n w.row w.col then none else
  if Nat.testBit w.mask (cell_code w.row w.col) then none else
  if !in_grid n (w.row + flip_row w.boundary w.row w.row_manip)
      (w.col + flip_col w.boundary w.col w.col_manip) then none else
  if Nat.testBit (w.mask ||| (1 <<< cell_code w.row w.col))
        (cell_code (w.row + flip_row w.boundary w.row w.row_manip)
          (w.col + flip_col w.boundary w.col w.col_manip))
      && w.boundary.is_within_boundary (w.row + flip_row w.boundary w.row w.row_manip)
          (w.col + flip_col w.boundary w.col w.col_manip) then
    some { visited := (w.row, w.col) :: w.visited,
           mask := w.mask ||| (1 <<< cell_code w.row w.col),
           row := w.row + flip_row w.boundary w.row w.row_manip,
           col := w.col + flip_col w.boundary w.col w.col_manip + 1,
           row_manip := flip_row w.boundary w.row w.row_manip,
           col_manip := flip_col w.boundary w.col w.col_manip * swap,
           boundary := w.boundary.manipulate_boundary }
  else
    some { visited := (w.row, w.col) :: w.visited,
           mask := w.mask ||| (1 <<< cell_code w.row w.col),
           row := w.row + flip_row w.boundary w.row w.row_manip,
           col := w.col + flip_col w.boundary w.col w.col_manip,
           row_manip := flip_row w.boundary w.row w.row_manip,
           col_manip := flip_col w.boundary w.col w.col_manip,
           boundary := w.boundary }

/-- The first `k` passes of the loop on a `Walk`. -/
def walk (n : Int) : Nat → Walk → Option Walk
  | 0, w => some w
  | k + 1, w =>
    match walk_step n w with
    | none => none
    | some w1 => walk n k w1

/-- The registers as `fill_grid` initialises them (lines 115-120). -/
def walk_start (n : Int) : Walk :=
  { visited := [], mask := 0,
    boundary := { top_ := 0, bottom_ := n - 1, right_ := n - 1 },
    row := n / 2, col := 0, row_manip := -1, col_manip := 1 }

/-- Whether the traversal of an `n × n` grid makes `decoded_length n` passes inside the
grid without visiting a cell twice. -/
def spiral_ok (n : Int) : Bool :=
  (walk n (decoded_length n).toNat (walk_start n)).isSome

/-- The grid after the listed writes (most recent first) on top of `g0`. -/
def replay (g0 : Grid) : List ((Int × Int) × Char) → Grid
  | [] => g0
  | (p, ch) :: ws => set_cell (replay g0 ws) p.1 p.2 ch

/-- The cells `fill_grid` visits on an `n × n` grid in its first `k` passes, in order. -/
def spiral_path (n : Int) (k : Nat) : List (Int × Int) :=
  match walk n k (walk_start n) with
  | none => []
  | some w => w.visited.reverse

/-- Position of cell `(row, col)` in the row-major dump of an `n × n` grid. -/
def dump_index (n : Int) (p : Int × Int) : Nat := (p.1 * n + p.2).toNat

/-- The cells of an `n × n` grid that are not blank. -/
def non_blank_cells (n : Nat) (g : Grid) : Finset (Nat × Nat) :=
  (Finset.range n ×ˢ Finset.range n).filter fun p => g p.1 p.2 ≠ ' '

/-- Lines 235-238: the dimension `encode` hands to `set_grid_size`, if the prompt comes
back. -/
def chosen_size (min_size : Int) (is_auto_grid_size : Bool) (input : UserInput) : Option Int :=
  if is_auto_grid_size then some min_size else prompt_grid_size min_size input

/-- The character `initialise_grid` stores in the cell it reaches with running index
`idx` (line 105). -/
def initial_char (message : List Char) (idx : Nat) : Char :=
  if message ≠ [] then message.getD idx (Char.ofNat 0) else ' '

/-- What `get_encoded_message` emits for a cell: the cell itself unless it is blank, and
then one of the letters drawn from the generator. -/
def emitted (g : Grid) (draws : Nat → Fin 26) (i j : Int) (ch : Char) : Prop :=
  if g i j = ' ' then ∃ t, ch = filler (draws t) else ch = g i j

/-- The bit set and the list of a `Walk` describe the same cells, all of them inside the
grid and pairwise distinct. -/
def Walk.consistent (n : Int) (w : Walk) : Prop :=
  (∀ r c, in_grid n r c = true →
    (Nat.testBit w.mask (cell_code r c) = true ↔ (r, c) ∈ w.visited)) ∧
  (∀ p ∈ w.visited, in_grid n p.1 p.2 = true) ∧ w.visited.Nodup

/-- The state of `fill_grid` in write mode after some passes, against the `Walk` after the
same passes: same registers, and the grid is the start grid `g0` with the characters
consumed so far written on the visited cells. -/
def EncRel (g0 : Grid) (message : List Char) (s : FillState) (w : Walk) : Prop :=
  s.boundary = w.boundary ∧ s.row = w.row ∧ s.col = w.col ∧ s.row_manip = w.row_manip ∧
  s.col_manip = w.col_manip ∧ s.index = w.visited.length ∧ s.decoded_message = [] ∧
  ∃ ws : List ((Int × Int) × Char), s.grid_ = replay g0 ws ∧ ws.map Prod.fst = w.visited ∧
    ws.map Prod.snd = (message.take s.index).reverse

/-- The state of `fill_grid` in read mode after some passes, against the `Walk` after the
same passes: same registers, the visited cells hold the mark, and the decoded string is
the start grid `g0` read along the visited cells. -/
def DecRel (g0 : Grid) (s : FillState) (w : Walk) : Prop :=
  s.boundary = w.boundary ∧ s.row = w.row ∧ s.col = w.col ∧ s.row_manip = w.row_manip ∧
  s.col_manip = w.col_manip ∧ s.index = w.visited.length ∧
  s.decoded_message = w.visited.reverse.map (fun p => g0 p.1 p.2) ∧
  s.grid_ = replay g0 (w.visited.map fun p => (p, '~'))

/-! ## The traversal pass by pass -/

/-- Mapping a function over the value of an outcome. -/
def Outcome.map {α β : Type} (f : α → β) : Outcome α → Outcome β
  | .ok a => .ok (f a)
  | .raised e => .raised e
  | .out_of_bounds => .out_of_bounds
  | .no_return => .no_return

/-- The registers of `fill_grid`: boundary tracker, position and step vector. -/
def FillState.registers (s : FillState) : GridBoundary × Int × Int × Int × Int :=
  (s.boundary, s.row, s.col, s.row_manip, s.col_manip)

/-- Lines 115-120: the state `fill_grid` enters its loop with, on grid contents `g` of
dimension `n`. -/
def fill_start (g : Grid) (n : Int) : FillState :=
  { grid_ := g, decoded_message := [],
    boundary := { top_ := 0, bottom_ := n - 1, right_ := n - 1 },
    index := 0, row := n / 2, col := 0, row_manip := -1, col_manip := 1 }

/-- Lines 121-147: the state of the `while` loop of `fill_grid` after its first `k` passes
(the final state when the loop ends before that). -/
def fill_after (n : Int) (message : List Char) (encode_flag : Bool) :
    Nat → FillState → Outcome FillState
  | 0, s => .ok s
  | k + 1, s =>
    if s.index < message.length then
      if !encode_flag && decide ((s.index : Int) ≥ decoded_length n) then .ok s
      else
        match fill_body n message encode_flag s with
        | .ok s1 => fill_after n message encode_flag k s1
        | .raised e => .raised e
        | .out_of_bounds => .out_of_bounds
        | .no_return => .no_return
    else .ok s

/-- Whether a property of the pass number and the registers holds after each of the first
`k` passes of a `Walk` that has made `j` passes already, none of which leaves the grid. -/
def walk_all (n : Int) (P : Nat → Walk → Bool) : Nat → Nat → Walk → Bool
  | 0, j, w => P j w
  | k + 1, j, w =>
    P j w &&
      match walk_step n w with
      | none => false
      | some w1 => walk_all n P k (j + 1) w1

/-- The boundary tracker after `j` passes on an `n × n` grid: `top ≤ bottom`, the three
limits have moved inward together, and `top < bottom` exactly while fewer than
`decoded_length n - 1` passes are complete. -/
def boundary_ok (n : Int) (j : Nat) (w : Walk) : Bool :=
  decide (w.boundary.top_ ≤ w.boundary.bottom_) &&
  decide (w.boundary.top_ + w.boundary.bottom_ = n - 1) &&
  decide (w.boundary.right_ = w.boundary.bottom_) &&
  (decide (w.boundary.top_ < w.boundary.bottom_) == decide ((j : Int) + 1 < decoded_length n))

/-! ## The spiral in closed form -/

/-- The `4 * d` cells at Manhattan distance `d` from the centre `(c, c)`, from the leftmost
cell `(c, c - d)` up-right to `(c - d, c)`, down-right to `(c, c + d)`, down-left to
`(c + d, c)` and up-left to `(c + 1, c - d + 1)`. -/
def ring (c d : Nat) : List (Int × Int) :=
  (List.range d).map (fun (t : Nat) => ((c : Int) - (t : Int), (c : Int) - (d : Int) + (t : Int))) ++
  (List.range d).map (fun (t : Nat) => ((c : Int) - (d : Int) + (t : Int), (c : Int) + (t : Int))) ++
  (List.range d).map (fun (t : Nat) => ((c : Int) + (t : Int), (c : Int) + (d : Int) - (t : Int))) ++
  (List.range d).map (fun (t : Nat) => ((c : Int) + (d : Int) - (t : Int), (c : Int) - (t : Int)))

/-- The rings at distance `d`, `d - 1`, ..., `1` from the centre `(c, c)`, one after the
other. -/
def rings (c : Nat) : Nat → List (Int × Int)
  | 0 => []
  | d + 1 => ring c (d + 1) ++ rings c d

/-- The inscribed diamond of an `n × n` grid in spiral order: the rings from distance
`c = n / 2` down to `1`, then the centre `(c, c)`. -/
def diamond_path (n : Int) : List (Int × Int) :=
  rings (n / 2).toNat (n / 2).toNat ++ [(n / 2, n / 2)]

/-! # Theorems -/

/-! ## Square roots and grid sizing -/

theorem floor_sqrt_aux_spec (x : Nat) (b : Nat) :
    floor_sqrt_aux x b ≤ b ∧ floor_sqrt_aux x b * floor_sqrt_aux x b ≤ x ∧
      ∀ k, k ≤ b → k * k ≤ x → k ≤ floor_sqrt_aux x b := by
  induction b with
  | zero => simp [floor_sqrt_aux]
  | succ b ih =>
    unfold floor_sqrt_aux
    split_ifs with h
    · exact ⟨le_rfl, h, fun k hk _ => hk⟩
    · obtain ⟨h1, h2, h3⟩ := ih
      refine ⟨by omega, h2, fun k hk hkx => ?_⟩
      rcases Nat.lt_or_ge k (b + 1) with hlt | hge
      · exact h3 k (by omega) hkx
      · have : k = b + 1 := by omega
        subst this
        exact absurd hkx h

theorem floor_sqrt_eq_sqrt (x : Nat) : floor_sqrt x = Nat.sqrt x := by
  obtain ⟨_, h2, h3⟩ := floor_sqrt_aux_spec x x
  rw [Nat.eq_sqrt]
  refine ⟨h2, ?_⟩
  by_contra hcon
  push_neg at hcon
  unfold floor_sqrt at hcon
  have hle : floor_sqrt_aux x x + 1 ≤ x := by nlinarith
  have := h3 _ hle hcon
  omega

theorem floor_sqrt_iff (x r : Nat) : floor_sqrt x = r ↔ r * r ≤ x ∧ x < (r + 1) * (r + 1) := by
  rw [floor_sqrt_eq_sqrt, eq_comm, Nat.eq_sqrt]

theorem floor_sqrt_sq (n : Nat) : floor_sqrt (n * n) = n := by
  rw [floor_sqrt_iff]; constructor <;> nlinarith

theorem ceil_sqrt_spec (x : Nat) (hx : 1 ≤ x) :
    1 ≤ ceil_sqrt x ∧ (ceil_sqrt x - 1) * (ceil_sqrt x - 1) < x ∧ x ≤ ceil_sqrt x * ceil_sqrt x := by
  obtain ⟨h1, h2⟩ := (floor_sqrt_iff x (floor_sqrt x)).1 rfl
  have h0 : 1 ≤ floor_sqrt x := by
    by_contra h
    have : floor_sqrt x = 0 := by omega
    rw [this] at h2; omega
  unfold ceil_sqrt
  split_ifs with h
  · refine ⟨h0, ?_, by omega⟩
    obtain ⟨r, hr⟩ : ∃ r, floor_sqrt x = r + 1 := ⟨floor_sqrt x - 1, by omega⟩
    rw [hr] at h ⊢
    simp only [Nat.add_sub_cancel]
    nlinarith
  · refine ⟨by omega, ?_, by omega⟩
    simp only [Nat.add_sub_cancel]
    omega

theorem decoded_length_ge_self (m : Int) : m ≤ decoded_length m := by
  unfold decoded_length square
  have : 2 * m ≤ m * m + 1 := by nlinarith [sq_nonneg (m - 1)]
  omega

theorem decoded_length_mono (a b : Int) (ha : 0 ≤ a) (hab : a ≤ b) :
    decoded_length a ≤ decoded_length b := by
  unfold decoded_length square
  have : a * a ≤ b * b := by nlinarith
  omega

theorem min_size_loop_spec (len : Nat) : ∀ (fuel : Nat) (m : Int), 1 ≤ m → 1 ≤ fuel →
    (len : Int) + 2 ≤ m + 2 * fuel →
    ∃ r : Int, min_size_loop len fuel m = some r ∧ m ≤ r ∧ (r - m) % 2 = 0 ∧
      (len : Int) ≤ decoded_length r ∧
      ∀ k : Int, m ≤ k → k < r → (k - m) % 2 = 0 → decoded_length k < len := by
  intro fuel
  induction fuel with
  | zero => intro m _ h; omega
  | succ f ih =>
    intro m hm _ hf
    unfold min_size_loop
    split_ifs with h
    · have hlt : m < len := lt_of_le_of_lt (decoded_length_ge_self m) h
      obtain ⟨r, hr, h1, h2, h3, h4⟩ := ih (m + 2) (by omega) (by omega) (by push_cast at hf ⊢; omega)
      refine ⟨r, hr, by omega, by omega, h3, fun k hk1 hk2 hk3 => ?_⟩
      rcases eq_or_lt_of_le hk1 with heq | hlt2
      · subst heq; exact h
      · exact h4 k (by omega) hk2 (by omega)
    · exact ⟨m, rfl, le_rfl, by simp, by omega, fun k hk1 hk2 _ => by omega⟩

/-- What `minimum_size` returns: for a length of at least two, the least odd dimension of at
least three whose capacity holds the message. -/
theorem minimum_size_spec (len : Nat) (hlen : 2 ≤ len) :
    ∃ n : Int, minimum_size len = some n ∧ 3 ≤ n ∧ n % 2 = 1 ∧ (len : Int) ≤ decoded_length n ∧
      ∀ k : Int, 3 ≤ k → k % 2 = 1 → (len : Int) ≤ decoded_length k → n ≤ k := by
  obtain ⟨c1, c2, c3⟩ := ceil_sqrt_spec len (by omega)
  have c4 : 2 ≤ ceil_sqrt len := by
    by_contra h
    have : ceil_sqrt len = 1 := by omega
    rw [this] at c3; omega
  set m0 : Int := if is_even (ceil_sqrt len : Nat) then ((ceil_sqrt len : Nat) : Int) + 1
    else ((ceil_sqrt len : Nat) : Int) with hm0
  have hm0_odd : m0 % 2 = 1 := by
    rw [hm0]; unfold is_even
    split_ifs with h
    · simp only [beq_iff_eq] at h; omega
    · simp only [beq_iff_eq] at h; omega
  have hm0_ge : (ceil_sqrt len : Int) ≤ m0 := by
    rw [hm0]; split_ifs <;> omega
  have hm0_le : m0 ≤ (ceil_sqrt len : Int) + 1 := by
    rw [hm0]; split_ifs <;> omega
  obtain ⟨r, hr, h1, h2, h3, h4⟩ := min_size_loop_spec len (len + 1) m0 (by omega) (by omega)
    (by push_cast; omega)
  refine ⟨r, hr, by omega, by omega, h3, fun k hk3 hkodd hkcap => ?_⟩
  by_contra hlt
  push_neg at hlt
  rcases le_or_lt m0 k with hge | hlt0
  · have := h4 k hge hlt (by omega)
    omega
  · -- `k` is odd and below `m0`, hence below `ceil_sqrt len`
    have hk : k ≤ (ceil_sqrt len : Int) - 1 := by
      rcases eq_or_lt_of_le hm0_ge with heq | hl
      · omega
      · have : m0 = (ceil_sqrt len : Int) + 1 := by omega
        have hcs : (ceil_sqrt len : Int) % 2 = 0 := by omega
        omega
    have hsq : k * k < len := by
      have hc : (((ceil_sqrt len - 1) * (ceil_sqrt len - 1) : Nat) : Int) < len := by exact_mod_cast c2
      have hc' : ((ceil_sqrt len - 1 : Nat) : Int) = (ceil_sqrt len : Int) - 1 := by omega
      push_cast at hc
      rw [hc'] at hc
      nlinarith
    unfold decoded_length square at hkcap
    omega

/-! ## The sizing loop in `int` arithmetic -/

theorem wrap_int_of_fits (x : Int) (h1 : -2147483648 ≤ x) (h2 : x ≤ 2147483647) :
    wrap_int x = x := by
  unfold wrap_int; omega

/-- Up to 46340 the square fits `int`. -/
theorem square_int_eq (x : Int) (h0 : 0 ≤ x) (h : x ≤ 46340) : square_int x = square x := by
  unfold square_int square
  apply wrap_int_of_fits <;> nlinarith

theorem decoded_length_int_eq (x : Int) (h0 : 0 ≤ x) (h : x ≤ 46340) :
    decoded_length_int x = decoded_length x := by
  unfold decoded_length_int decoded_length
  rw [square_int_eq x h0 h]
  have hs : 0 ≤ square x ∧ square x ≤ 2147395600 := by
    unfold square; constructor <;> nlinarith
  rw [wrap_int_of_fits _ (by omega) (by omega)]
  exact Int.tdiv_eq_ediv (by omega) (by decide)

/-- The test of line 228 on a dimension up to 46340 compares the exact values. -/
theorem size_test_eq (len : Nat) (x : Int) (h0 : 0 ≤ x) (h : x ≤ 46340) :
    len > to_size_t (decoded_length_int x) ↔ (len : Int) > decoded_length x := by
  rw [decoded_length_int_eq x h0 h]
  have hd : 0 ≤ decoded_length x ∧ decoded_length x ≤ 1073697801 := by
    unfold decoded_length square
    have : 0 ≤ x * x ∧ x * x ≤ 2147395600 := by constructor <;> nlinarith
    omega
  unfold to_size_t
  omega

/-- At 46341 the square is `2147488281`, above the largest `int`; the wrapped value is
negative and so is the capacity computed from it, which the comparison with the unsigned
`message.length()` reads as a number just below `2 ^ 64`. -/
theorem square_int_46341 :
    (46341 : Int) * 46341 = 2147488281 ∧ (2147483647 : Int) < 2147488281 ∧
    square_int 46341 = -2147479015 ∧ decoded_length_int 46341 = -1073739507 ∧
    to_size_t (decoded_length_int 46341) = 18446744072635812109 := by
  refine ⟨by decide, by decide, by decide, by decide, by decide⟩

theorem min_size_loop_ge (len : Nat) : ∀ (fuel : Nat) (x n : Int),
    min_size_loop len fuel x = some n → x ≤ n := by
  intro fuel
  induction fuel with
  | zero => intro x n h; simp [min_size_loop] at h
  | succ f ih =>
    intro x n h
    unfold min_size_loop at h
    split_ifs at h with hc
    · have := ih (x + 2) n h
      omega
    · injection h with h; omega

/-- For a length that fits `int`, the loop in `int` arithmetic follows the loop in exact
arithmetic up to 46339 and stops at 46341 at the latest. -/
theorem min_size_loop_int_eq (len : Nat) (hlen : len ≤ 2147483647) : ∀ (fuel : Nat) (x n : Int),
    min_size_loop len fuel x = some n → 0 ≤ x → x % 2 = 1 → x ≤ 46341 →
    min_size_loop_int len fuel x = some (min n 46341) := by
  intro fuel
  induction fuel with
  | zero => intro x n h; simp [min_size_loop] at h
  | succ f ih =>
    intro x n h h0 hodd hx
    have hge := min_size_loop_ge len _ x n h
    unfold min_size_loop_int
    by_cases hlast : x = 46341
    · subst hlast
      rw [if_neg (by rw [square_int_46341.2.2.2.2]; omega)]
      rw [min_eq_right hge]
    · have hx2 : x ≤ 46339 := by omega
      unfold min_size_loop at h
      by_cases hc : (len : Int) > decoded_length x
      · rw [if_pos hc] at h
        rw [if_pos ((size_test_eq len x h0 (by omega)).2 hc),
          wrap_int_of_fits _ (by omega) (by omega)]
        exact ih (x + 2) n h (by omega) (by omega) (by omega)
      · rw [if_neg hc] at h
        injection h with h
        subst h
        rw [if_neg (fun hh => hc ((size_test_eq len x h0 (by omega)).1 hh))]
        rw [min_eq_left (by omega)]

theorem ceil_sqrt_le (len : Nat) (hlen : len ≤ 2147483647) : ceil_sqrt len ≤ 46341 := by
  rcases Nat.eq_zero_or_pos len with h | h
  · subst h; decide
  · obtain ⟨c1, c2, _⟩ := ceil_sqrt_spec len h
    by_contra hc
    have : 46341 ≤ ceil_sqrt len - 1 := by omega
    have : 46341 * 46341 ≤ (ceil_sqrt len - 1) * (ceil_sqrt len - 1) := Nat.mul_le_mul this this
    omega

/-- The dimension computed in exact arithmetic exists for every length. -/
theorem minimum_size_some (len : Nat) :
    ∃ n : Int, minimum_size len = some n ∧ 1 ≤ n ∧ n % 2 = 1 ∧ (len : Int) ≤ decoded_length n ∧
      ∀ k : Int, 3 ≤ k → k % 2 = 1 → (len : Int) ≤ decoded_length k → n ≤ k := by
  rcases Nat.lt_or_ge len 2 with h | h
  · have hc : len = 0 ∨ len = 1 := by omega
    rcases hc with h0 | h1
    · subst h0
      exact ⟨1, by decide, by decide, by decide, by decide, fun k hk _ _ => by omega⟩
    · subst h1
      exact ⟨1, by decide, by decide, by decide, by decide, fun k hk _ _ => by omega⟩
  · obtain ⟨n, hn, g3, godd, gcap, gleast⟩ := minimum_size_spec len h
    exact ⟨n, hn, by omega, godd, gcap, gleast⟩

/-- For every length that fits `int`, the dimension `encode` computes in `int` arithmetic
is the dimension of exact arithmetic capped at 46341. -/
theorem minimum_size_int_eq (len : Nat) (hlen : len ≤ 2147483647) :
    ∃ n : Int, minimum_size len = some n ∧ minimum_size_int len = some (min n 46341) := by
  obtain ⟨n, hn, _⟩ := minimum_size_some len
  refine ⟨n, hn, ?_⟩
  have hc := ceil_sqrt_le len hlen
  unfold minimum_size at hn
  unfold minimum_size_int
  simp only at hn ⊢
  by_cases he : is_even ((ceil_sqrt len : Nat) : Int) = true
  · rw [if_pos he] at hn ⊢
    have he2 : ((ceil_sqrt len : Nat) : Int) % 2 = 0 := by simpa [is_even] using he
    rw [wrap_int_of_fits _ (by omega) (by omega)]
    exact min_size_loop_int_eq len hlen _ _ n hn (by omega) (by omega) (by omega)
  · rw [if_neg he] at hn ⊢
    have he2 : ((ceil_sqrt len : Nat) : Int) % 2 ≠ 0 := by simpa [is_even] using he
    exact min_size_loop_int_eq len hlen _ _ n hn (by omega) (by omega) (by omega)

theorem decoded_length_46339 : decoded_length 46339 = 1073651461 := by decide

/-- Up to 1073651461 characters no `int` overflows in the sizing: the dimension is the one
of exact arithmetic, it is at most 46339 and its square is exact. -/
theorem minimum_size_int_exact (len : Nat) (hlen : len ≤ 1073651461) :
    minimum_size_int len = minimum_size len ∧
    ∀ n, minimum_size len = some n → 1 ≤ n ∧ n ≤ 46339 ∧ square_int n = square n := by
  obtain ⟨n, hn, hint⟩ := minimum_size_int_eq len (by omega)
  obtain ⟨n2, hn2, g1, _, _, gleast⟩ := minimum_size_some len
  rw [hn] at hn2
  injection hn2 with hn2
  subst hn2
  have hle : n ≤ 46339 := gleast 46339 (by decide) (by decide)
    (by rw [decoded_length_46339]; omega)
  rw [hint, hn, min_eq_left (by omega)]
  refine ⟨rfl, fun k hk => ?_⟩
  injection hk with hk
  subst hk
  exact ⟨g1, hle, square_int_eq n (by omega) (by omega)⟩

/-- From 1073651462 characters on (up to the largest `int`) the sizing multiplies 46341
by itself: the loop stops there, on a comparison with a wrapped value. -/
theorem minimum_size_int_overflow (len : Nat) (h1 : 1073651461 < len)
    (h2 : len ≤ 2147483647) : minimum_size_int len = some 46341 := by
  obtain ⟨n, hn, hint⟩ := minimum_size_int_eq len h2
  obtain ⟨n2, hn2, g1, godd, gcap, _⟩ := minimum_size_some len
  rw [hn] at hn2
  injection hn2 with hn2
  subst hn2
  have hge : 46341 ≤ n := by
    by_contra hc
    have := decoded_length_mono n 46339 (by omega) (by omega)
    rw [decoded_length_46339] at this
    omega
  rw [hint, min_eq_right hge]

/-! ## The nested loops of `initialise_grid` and `get_encoded_message` -/

theorem in_grid_iff (n row col : Int) :
    in_grid n row col = true ↔ 0 ≤ row ∧ row < n ∧ 0 ≤ col ∧ col < n := by
  simp [in_grid, and_assoc]

theorem initialise_row_spec (message : List Char) (i : Nat) (k : Nat) (g : Grid) (idx : Nat) :
    (List.range k).foldl
      (fun (acc : Grid × Nat) (j : Nat) =>
        if message ≠ [] then (set_cell acc.1 i j (message.getD acc.2 (Char.ofNat 0)), acc.2 + 1)
        else (set_cell acc.1 i j ' ', acc.2))
      (g, idx) =
    ((fun r c => if r = (i : Int) ∧ 0 ≤ c ∧ c < (k : Int) then initial_char message (idx + c.toNat)
        else g r c),
      if message ≠ [] then idx + k else idx) := by
  induction k with
  | zero =>
    simp only [List.range_zero, List.foldl_nil, Nat.cast_zero, Nat.add_zero, ite_self]
    congr 1
    funext r c
    rw [if_neg]; omega
  | succ k ih =>
    rw [List.range_succ, List.foldl_append, ih]
    simp only [List.foldl_cons, List.foldl_nil]
    by_cases hm : message ≠ []
    · simp only [hm, if_true, not_false_eq_true, ne_eq]
      congr 1
      funext r c
      simp only [set_cell, initial_char, hm, if_true, not_false_eq_true, ne_eq]
      by_cases h1 : r = (i : Int) ∧ c = (k : Int)
      · rw [if_pos h1, if_pos ⟨h1.1, by omega, by push_cast; omega⟩]
        rw [h1.2]; simp
      · rw [if_neg h1]
        by_cases h2 : r = (i : Int) ∧ 0 ≤ c ∧ c < (k : Int)
        · rw [if_pos h2, if_pos ⟨h2.1, h2.2.1, by push_cast; omega⟩]
        · rw [if_neg h2, if_neg]
          push_cast; omega
    · simp only [hm, if_false]
      congr 1
      funext r c
      simp only [set_cell, initial_char, hm, if_false]
      by_cases h1 : r = (i : Int) ∧ c = (k : Int)
      · rw [if_pos h1, if_pos ⟨h1.1, by omega, by push_cast; omega⟩]
      · rw [if_neg h1]
        by_cases h2 : r = (i : Int) ∧ 0 ≤ c ∧ c < (k : Int)
        · rw [if_pos h2, if_pos ⟨h2.1, h2.2.1, by push_cast; omega⟩]
        · rw [if_neg h2, if_neg]
          push_cast; omega

theorem initialise_rows_spec (message : List Char) (n : Nat) (k : Nat) (g : Grid) :
    (List.range k).foldl (fun (acc : Grid × Nat) (i : Nat) => initialise_row message n i acc)
      (g, 0) =
    ((fun r c => if 0 ≤ r ∧ r < (k : Int) ∧ 0 ≤ c ∧ c < (n : Int) then
          initial_char message (r.toNat * n + c.toNat)
        else g r c),
      if message ≠ [] then k * n else 0) := by
  induction k with
  | zero =>
    simp only [List.range_zero, List.foldl_nil, Nat.cast_zero, Nat.zero_mul, ite_self]
    congr 1
    funext r c
    rw [if_neg]; omega
  | succ k ih =>
    rw [List.range_succ, List.foldl_append, ih]
    simp only [List.foldl_cons, List.foldl_nil]
    unfold initialise_row
    rw [initialise_row_spec]
    have key : ∀ r c : Int, (r = (k : Int) ∧ 0 ≤ c ∧ c < (n : Int)) →
        initial_char message ((if message ≠ [] then k * n else 0) + c.toNat) =
          initial_char message (r.toNat * n + c.toNat) := by
      intro r c h1
      have : r.toNat = k := by omega
      rw [this]
      by_cases hm : message ≠ []
      · rw [if_pos hm]
      · unfold initial_char; rw [if_neg hm, if_neg hm]
    congr 1
    · funext r c
      by_cases h1 : r = (k : Int) ∧ 0 ≤ c ∧ c < (n : Int)
      · have h3 : 0 ≤ r ∧ r < ((k + 1 : Nat) : Int) ∧ 0 ≤ c ∧ c < (n : Int) :=
          ⟨by omega, by push_cast; omega, h1.2.1, h1.2.2⟩
        simp only [if_pos h1, if_pos h3]
        exact key r c h1
      · by_cases h2 : 0 ≤ r ∧ r < (k : Int) ∧ 0 ≤ c ∧ c < (n : Int)
        · have h3 : 0 ≤ r ∧ r < ((k + 1 : Nat) : Int) ∧ 0 ≤ c ∧ c < (n : Int) :=
            ⟨h2.1, by push_cast; omega, h2.2.2⟩
          simp only [if_neg h1, if_pos h2, if_pos h3]
        · have h3 : ¬ (0 ≤ r ∧ r < ((k + 1 : Nat) : Int) ∧ 0 ≤ c ∧ c < (n : Int)) := by
            push_cast; omega
          simp only [if_neg h1, if_neg h2, if_neg h3]
    · by_cases hm : message ≠ []
      · simp only [if_pos hm]; ring
      · simp only [if_neg hm]

/-- The grid `initialise_grid` leaves behind: inside the grid the characters of the message
in row-major order (blanks for the empty message), outside it the old contents. -/
theorem initialise_grid_cell (self : GridOperations) (message : List Char) (r c : Int) :
    (self.initialise_grid message).grid_ r c =
      if in_grid self.grid_size_ r c = true then
        initial_char message (dump_index self.grid_size_ (r, c))
      else self.grid_ r c := by
  unfold GridOperations.initialise_grid
  simp only
  rw [initialise_rows_spec]
  simp only
  by_cases h : in_grid self.grid_size_ r c = true
  · rw [if_pos h]
    rw [in_grid_iff] at h
    rw [if_pos ⟨h.1, by omega, h.2.2.1, by omega⟩]
    congr 1
    unfold dump_index
    simp only
    have h1 : ((r.toNat * self.grid_size_.toNat + c.toNat : Nat) : Int) = r * self.grid_size_ + c := by
      push_cast
      rw [Int.toNat_of_nonneg h.1, Int.toNat_of_nonneg h.2.2.1, Int.toNat_of_nonneg (by omega)]
    omega
  · rw [if_neg h]
    rw [in_grid_iff] at h
    rw [if_neg]
    omega

theorem initialise_grid_size (self : GridOperations) (message : List Char) :
    (self.initialise_grid message).grid_size_ = self.grid_size_ := rfl

theorem encoded_row_spec (g : Grid) (draws : Nat → Fin 26) (i : Nat) (k : Nat)
    (acc : List Char) (cnt : Nat) :
    ∃ (row : List Char) (cnt1 : Nat),
      (List.range k).foldl
        (fun (acc : List Char × Nat) (j : Nat) =>
          if g i j = ' ' then (acc.1 ++ [filler (draws acc.2)], acc.2 + 1)
          else (acc.1 ++ [g i j], acc.2))
        (acc, cnt) = (acc ++ row, cnt1) ∧
      row.length = k ∧
      ∀ j, j < k → ∃ ch, row[j]? = some ch ∧ emitted g draws i j ch := by
  induction k with
  | zero => exact ⟨[], cnt, by simp, rfl, fun j hj => by omega⟩
  | succ k ih =>
    obtain ⟨row, cnt1, h1, h2, h3⟩ := ih
    rw [List.range_succ, List.foldl_append, h1]
    simp only [List.foldl_cons, List.foldl_nil]
    by_cases hb : g i k = ' '
    · refine ⟨row ++ [filler (draws cnt1)], cnt1 + 1, by simp [hb], by simp [h2], fun j hj => ?_⟩
      rcases Nat.lt_or_ge j k with hlt | hge
      · obtain ⟨ch, hc1, hc2⟩ := h3 j hlt
        exact ⟨ch, by rw [List.getElem?_append_left (by omega)]; exact hc1, hc2⟩
      · have : j = k := by omega
        subst this
        refine ⟨filler (draws cnt1), ?_, ?_⟩
        · rw [List.getElem?_append_right (by omega)]; simp [h2]
        · unfold emitted; rw [if_pos hb]; exact ⟨cnt1, rfl⟩
    · refine ⟨row ++ [g i k], cnt1, by simp [hb], by simp [h2], fun j hj => ?_⟩
      rcases Nat.lt_or_ge j k with hlt | hge
      · obtain ⟨ch, hc1, hc2⟩ := h3 j hlt
        exact ⟨ch, by rw [List.getElem?_append_left (by omega)]; exact hc1, hc2⟩
      · have : j = k := by omega
        subst this
        refine ⟨g i j, ?_, ?_⟩
        · rw [List.getElem?_append_right (by omega)]; simp [h2]
        · unfold emitted; rw [if_neg hb]

theorem encoded_rows_spec (g : Grid) (draws : Nat → Fin 26) (n : Nat) (k : Nat) :
    ∃ (out : List Char) (cnt : Nat),
      (List.range k).foldl
        (fun (acc : List Char × Nat) (i : Nat) => encoded_row g draws n i acc) ([], 0) =
          (out, cnt) ∧
      out.length = k * n ∧
      ∀ i j, i < k → j < n → ∃ ch, out[i * n + j]? = some ch ∧ emitted g draws i j ch := by
  induction k with
  | zero => exact ⟨[], 0, by simp, by simp, fun i j hi => by omega⟩
  | succ k ih =>
    obtain ⟨out, cnt, h1, h2, h3⟩ := ih
    rw [List.range_succ, List.foldl_append, h1]
    simp only [List.foldl_cons, List.foldl_nil]
    obtain ⟨row, cnt1, r1, r2, r3⟩ := encoded_row_spec g draws k n out cnt
    unfold encoded_row
    rw [r1]
    refine ⟨out ++ row, cnt1, rfl, by simp [h2, r2]; ring, fun i j hi hj => ?_⟩
    rcases Nat.lt_or_ge i k with hlt | hge
    · obtain ⟨ch, hc1, hc2⟩ := h3 i j hlt hj
      have hlt2 : i * n + j < out.length := by
        rw [h2]
        calc i * n + j < i * n + n := by omega
          _ = (i + 1) * n := by ring
          _ ≤ k * n := Nat.mul_le_mul_right n hlt
      exact ⟨ch, by rw [List.getElem?_append_left hlt2]; exact hc1, hc2⟩
    · have : i = k := by omega
      subst this
      obtain ⟨ch, hc1, hc2⟩ := r3 j hj
      refine ⟨ch, ?_, hc2⟩
      rw [List.getElem?_append_right (by omega)]
      rw [h2]; simpa using hc1

/-- The string `get_encoded_message` returns: `n * n` characters, the one at position
`row * n + col` being what is emitted for cell `(row, col)`. -/
theorem get_encoded_message_spec (self : GridOperations) (draws : Nat → Fin 26)
    (hn : 0 ≤ self.grid_size_) :
    ((self.get_encoded_message draws).length : Int) = self.grid_size_ * self.grid_size_ ∧
    ∀ r c, in_grid self.grid_size_ r c = true →
      ∃ ch, (self.get_encoded_message draws)[dump_index self.grid_size_ (r, c)]? = some ch ∧
        emitted self.grid_ draws r c ch := by
  obtain ⟨out, cnt, h1, h2, h3⟩ :=
    encoded_rows_spec self.grid_ draws self.grid_size_.toNat self.grid_size_.toNat
  unfold GridOperations.get_encoded_message
  rw [h1]
  simp only
  constructor
  · rw [h2]; push_cast; rw [Int.toNat_of_nonneg hn]
  · intro r c hrc
    rw [in_grid_iff] at hrc
    obtain ⟨ch, hc1, hc2⟩ := h3 r.toNat c.toNat (by omega) (by omega)
    rw [Int.toNat_of_nonneg hrc.1, Int.toNat_of_nonneg hrc.2.2.1] at hc2
    refine ⟨ch, ?_, hc2⟩
    have : dump_index self.grid_size_ (r, c) = r.toNat * self.grid_size_.toNat + c.toNat := by
      unfold dump_index
      simp only
      have h1 : ((r.toNat * self.grid_size_.toNat + c.toNat : Nat) : Int)
          = r * self.grid_size_ + c := by
        push_cast
        rw [Int.toNat_of_nonneg hrc.1, Int.toNat_of_nonneg hrc.2.2.1, Int.toNat_of_nonneg hn]
      omega
    rw [this]; exact hc1

theorem filler_range (d : Fin 26) : 'A' ≤ filler d ∧ filler d ≤ 'Z' := by
  revert d; decide

theorem filler_ne_blank (d : Fin 26) : filler d ≠ ' ' := by
  revert d; decide

theorem filler_ne_mark (d : Fin 26) : filler d ≠ '~' := by
  revert d; decide

/-! ## Replaying writes -/

theorem replay_of_not_mem (g0 : Grid) (ws : List ((Int × Int) × Char)) (r c : Int)
    (h : (r, c) ∉ ws.map Prod.fst) : replay g0 ws r c = g0 r c := by
  induction ws with
  | nil => rfl
  | cons x ws ih =>
    obtain ⟨p, ch⟩ := x
    simp only [List.map_cons, List.mem_cons, not_or] at h
    unfold replay set_cell
    rw [if_neg, ih h.2]
    rintro ⟨h1, h2⟩
    exact h.1 (Prod.ext h1 h2)

theorem replay_mem_snd (g0 : Grid) (ws : List ((Int × Int) × Char)) (r c : Int)
    (h : (r, c) ∈ ws.map Prod.fst) : replay g0 ws r c ∈ ws.map Prod.snd := by
  induction ws with
  | nil => simp at h
  | cons x ws ih =>
    obtain ⟨p, ch⟩ := x
    unfold replay set_cell
    simp only [List.map_cons, List.mem_cons]
    by_cases hp : r = p.1 ∧ c = p.2
    · rw [if_pos hp]; exact Or.inl rfl
    · rw [if_neg hp]
      simp only [List.map_cons, List.mem_cons] at h
      rcases h with h | h
      · exact absurd ⟨congrArg Prod.fst h, congrArg Prod.snd h⟩ hp
      · exact Or.inr (ih h)

theorem replay_of_mem (g0 : Grid) (ws : List ((Int × Int) × Char))
    (hnd : (ws.map Prod.fst).Nodup) (p : Int × Int) (ch : Char) (h : (p, ch) ∈ ws) :
    replay g0 ws p.1 p.2 = ch := by
  induction ws with
  | nil => simp at h
  | cons x ws ih =>
    obtain ⟨q, d⟩ := x
    simp only [List.map_cons, List.nodup_cons] at hnd
    unfold replay set_cell
    rcases List.mem_cons.1 h with h | h
    · injection h with h1 h2
      rw [if_pos ⟨by rw [h1], by rw [h1]⟩, h2]
    · rw [if_neg]
      · exact ih hnd.2 h
      · rintro ⟨h1, h2⟩
        apply hnd.1
        have : p = q := Prod.ext h1 h2
        rw [← this]
        exact List.mem_map.2 ⟨(p, ch), h, rfl⟩

/-! ## The bit set of a walk -/

theorem testBit_set (m a b : Nat) :
    Nat.testBit (m ||| 1 <<< a) b = (Nat.testBit m b || decide (a = b)) := by
  rw [Nat.testBit_lor, Nat.one_shiftLeft, Nat.testBit_two_pow]

theorem cell_code_inj (n : Int) (hn : n ≤ 32) (r c r1 c1 : Int)
    (h : in_grid n r c = true) (h1 : in_grid n r1 c1 = true)
    (he : cell_code r c = cell_code r1 c1) : r = r1 ∧ c = c1 := by
  rw [in_grid_iff] at h h1
  unfold cell_code at he
  omega

theorem walk_start_consistent (n : Int) : (walk_start n).consistent n := by
  refine ⟨fun r c _ => ?_, fun p hp => ?_, ?_⟩
  · simp [walk_start]
  · simp [walk_start] at hp
  · simp [walk_start]

/-- What one pass does to a `Walk`: the cell stood on is in the grid and was not visited
before, the cell stepped to is in the grid, and the new registers are those of lines
131-146 with the occupancy test answered from the bit set. -/
theorem walk_step_some (n : Int) (w w1 : Walk) (h : walk_step n w = some w1) :
    in_grid n w.row w.col = true ∧ Nat.testBit w.mask (cell_code w.row w.col) = false ∧
    in_grid n (w.row + flip_row w.boundary w.row w.row_manip)
      (w.col + flip_col w.boundary w.col w.col_manip) = true ∧
    w1.visited = (w.row, w.col) :: w.visited ∧
    w1.mask = w.mask ||| (1 <<< cell_code w.row w.col) ∧
    w1.row = w.row + flip_row w.boundary w.row w.row_manip ∧
    w1.row_manip = flip_row w.boundary w.row w.row_manip ∧
    w1.col = (if (Nat.testBit w1.mask (cell_code w1.row
          (w.col + flip_col w.boundary w.col w.col_manip))
        && w.boundary.is_within_boundary w1.row
          (w.col + flip_col w.boundary w.col w.col_manip)) = true
      then w.col + flip_col w.boundary w.col w.col_manip + 1
      else w.col + flip_col w.boundary w.col w.col_manip) ∧
    w1.col_manip = (if (Nat.testBit w1.mask (cell_code w1.row
          (w.col + flip_col w.boundary w.col w.col_manip))
        && w.boundary.is_within_boundary w1.row
          (w.col + flip_col w.boundary w.col w.col_manip)) = true
      then flip_col w.boundary w.col w.col_manip * swap
      else flip_col w.boundary w.col w.col_manip) ∧
    w1.boundary = (if (Nat.testBit w1.mask (cell_code w1.row
          (w.col + flip_col w.boundary w.col w.col_manip))
        && w.boundary.is_within_boundary w1.row
          (w.col + flip_col w.boundary w.col w.col_manip)) = true
      then w.boundary.manipulate_boundary else w.boundary) := by
  unfold walk_step at h
  split_ifs at h with h1 h2 h3 h4
  · injection h with h; subst h
    simp only [Bool.not_eq_true', Bool.not_eq_false, Bool.not_eq_true] at h1 h2 h3
    exact ⟨h1, h2, h3, rfl, rfl, rfl, rfl, by rw [if_pos h4], by rw [if_pos h4],
      by rw [if_pos h4]⟩
  · injection h with h; subst h
    simp only [Bool.not_eq_true', Bool.not_eq_false, Bool.not_eq_true] at h1 h2 h3
    exact ⟨h1, h2, h3, rfl, rfl, rfl, rfl, by rw [if_neg h4], by rw [if_neg h4],
      by rw [if_neg h4]⟩

theorem walk_step_consistent (n : Int) (hn : n ≤ 32) (w w1 : Walk) (hc : w.consistent n)
    (h : walk_step n w = some w1) : w1.consistent n := by
  obtain ⟨h1, h2, _, h4, h5, _⟩ := walk_step_some n w w1 h
  obtain ⟨c1, c2, c3⟩ := hc
  refine ⟨fun r c hrc => ?_, fun p hp => ?_, ?_⟩
  · rw [h4, h5, testBit_set, List.mem_cons, Bool.or_eq_true, c1 r c hrc, decide_eq_true_iff]
    constructor
    · rintro (h | h)
      · exact Or.inr h
      · obtain ⟨e1, e2⟩ := cell_code_inj n hn _ _ _ _ h1 hrc h
        exact Or.inl (by rw [e1, e2])
    · rintro (h | h)
      · injection h with e1 e2
        exact Or.inr (by rw [e1, e2])
      · exact Or.inl h
  · rw [h4] at hp
    rcases List.mem_cons.1 hp with hp | hp
    · rw [hp]; exact h1
    · exact c2 p hp
  · rw [h4, List.nodup_cons]
    refine ⟨fun hmem => ?_, c3⟩
    have := (c1 _ _ h1).2 hmem
    rw [h2] at this
    exact absurd this (by decide)

theorem walk_consistent (n : Int) (hn : n ≤ 32) : ∀ (k : Nat) (w wf : Walk),
    w.consistent n → walk n k w = some wf → wf.consistent n := by
  intro k
  induction k with
  | zero =>
    intro w wf hc h
    simp only [walk] at h
    injection h with h; rw [← h]; exact hc
  | succ k ih =>
    intro w wf hc h
    unfold walk at h
    cases hs : walk_step n w with
    | none => rw [hs] at h; exact absurd h (by simp)
    | some w1 =>
      rw [hs] at h
      exact ih w1 wf (walk_step_consistent n hn w w1 hc hs) h

theorem walk_add (n : Int) : ∀ (a b : Nat) (w : Walk),
    walk n (a + b) w = (walk n a w).bind (walk n b) := by
  intro a
  induction a with
  | zero => intro b w; simp [walk]
  | succ a ih =>
    intro b w
    rw [Nat.succ_add]
    show (match walk_step n w with
      | none => none
      | some w1 => walk n (a + b) w1) =
      (match walk_step n w with
      | none => none
      | some w1 => walk n a w1).bind (walk n b)
    cases hs : walk_step n w with
    | none => rfl
    | some w1 => exact ih b w1

theorem walk_visited (n : Int) : ∀ (k : Nat) (w wf : Walk), walk n k w = some wf →
    ∃ l : List (Int × Int), l.length = k ∧ wf.visited = l ++ w.visited := by
  intro k
  induction k with
  | zero =>
    intro w wf h
    simp only [walk] at h
    injection h with h
    exact ⟨[], rfl, by rw [← h]; rfl⟩
  | succ k ih =>
    intro w wf h
    unfold walk at h
    cases hs : walk_step n w with
    | none => rw [hs] at h; exact absurd h (by simp)
    | some w1 =>
      rw [hs] at h
      obtain ⟨l, hl1, hl2⟩ := ih w1 wf h
      obtain ⟨_, _, _, h4, _⟩ := walk_step_some n w w1 hs
      exact ⟨l ++ [(w.row, w.col)], by simp [hl1], by rw [hl2, h4]; simp⟩

/-! ## `fill_grid` against the walk -/

theorem fill_body_encode_eq (n : Int) (m : List Char) (s : FillState) :
    fill_body n m true s =
      if !in_grid n s.row s.col then .out_of_bounds else
      if !in_grid n (s.row + flip_row s.boundary s.row s.row_manip)
          (s.col + flip_col s.boundary s.col s.col_manip) then .out_of_bounds else
      .ok { grid_ := set_cell s.grid_ s.row s.col (m.getD s.index (Char.ofNat 0)),
            decoded_message := s.decoded_message,
            index := s.index + 1,
            row := s.row + flip_row s.boundary s.row s.row_manip,
            row_manip := flip_row s.boundary s.row s.row_manip,
            col := if (set_cell s.grid_ s.row s.col (m.getD s.index (Char.ofNat 0))
                    (s.row + flip_row s.boundary s.row s.row_manip)
                    (s.col + flip_col s.boundary s.col s.col_manip) != ' '
                  && s.boundary.is_within_boundary
                    (s.row + flip_row s.boundary s.row s.row_manip)
                    (s.col + flip_col s.boundary s.col s.col_manip)) = true
                then s.col + flip_col s.boundary s.col s.col_manip + 1
                else s.col + flip_col s.boundary s.col s.col_manip,
            col_manip := if (set_cell s.grid_ s.row s.col (m.getD s.index (Char.ofNat 0))
                    (s.row + flip_row s.boundary s.row s.row_manip)
                    (s.col + flip_col s.boundary s.col s.col_manip) != ' '
                  && s.boundary.is_within_boundary
                    (s.row + flip_row s.boundary s.row s.row_manip)
                    (s.col + flip_col s.boundary s.col s.col_manip)) = true
                then flip_col s.boundary s.col s.col_manip * swap
                else flip_col s.boundary s.col s.col_manip,
            boundary := if (set_cell s.grid_ s.row s.col (m.getD s.index (Char.ofNat 0))
                    (s.row + flip_row s.boundary s.row s.row_manip)
                    (s.col + flip_col s.boundary s.col s.col_manip) != ' '
                  && s.boundary.is_within_boundary
                    (s.row + flip_row s.boundary s.row s.row_manip)
                    (s.col + flip_col s.boundary s.col s.col_manip)) = true
                then s.boundary.manipulate_boundary else s.boundary } := by
  unfold fill_body flip_row flip_col
  simp only [Bool.true_and, Bool.not_true, Bool.false_and, Bool.or_false, if_true]
  split_ifs <;> rfl

theorem fill_body_decode_eq (n : Int) (m : List Char) (s : FillState) :
    fill_body n m false s =
      if !in_grid n s.row s.col then .out_of_bounds else
      if !in_grid n (s.row + flip_row s.boundary s.row s.row_manip)
          (s.col + flip_col s.boundary s.col s.col_manip) then .out_of_bounds else
      .ok { grid_ := set_cell s.grid_ s.row s.col '~',
            decoded_message := s.decoded_message ++ [s.grid_ s.row s.col],
            index := s.index + 1,
            row := s.row + flip_row s.boundary s.row s.row_manip,
            row_manip := flip_row s.boundary s.row s.row_manip,
            col := if (set_cell s.grid_ s.row s.col '~'
                    (s.row + flip_row s.boundary s.row s.row_manip)
                    (s.col + flip_col s.boundary s.col s.col_manip) == '~'
                  && s.boundary.is_within_boundary
                    (s.row + flip_row s.boundary s.row s.row_manip)
                    (s.col + flip_col s.boundary s.col s.col_manip)) = true
                then s.col + flip_col s.boundary s.col s.col_manip + 1
                else s.col + flip_col s.boundary s.col s.col_manip,
            col_manip := if (set_cell s.grid_ s.row s.col '~'
                    (s.row + flip_row s.boundary s.row s.row_manip)
                    (s.col + flip_col s.boundary s.col s.col_manip) == '~'
                  && s.boundary.is_within_boundary
                    (s.row + flip_row s.boundary s.row s.row_manip)
                    (s.col + flip_col s.boundary s.col s.col_manip)) = true
                then flip_col s.boundary s.col s.col_manip * swap
                else flip_col s.boundary s.col s.col_manip,
            boundary := if (set_cell s.grid_ s.row s.col '~'
                    (s.row + flip_row s.boundary s.row s.row_manip)
                    (s.col + flip_col s.boundary s.col s.col_manip) == '~'
                  && s.boundary.is_within_boundary
                    (s.row + flip_row s.boundary s.row s.row_manip)
                    (s.col + flip_col s.boundary s.col s.col_manip)) = true
                then s.boundary.manipulate_boundary else s.boundary } := by
  unfold fill_body flip_row flip_col
  simp only [Bool.true_and, Bool.not_false, Bool.false_and, Bool.false_or, if_false,
    Bool.false_eq_true]
  split_ifs <;> rfl

/-- One pass of the write loop follows the walk: on a grid whose cells start blank and a
message without blanks, the pass succeeds and keeps the state related to the walk. -/
theorem fill_body_encode_sim (n : Int) (hn : n ≤ 32) (g0 : Grid)
    (hg0 : ∀ r c, in_grid n r c = true → g0 r c = ' ')
    (m : List Char) (hm : ∀ ch ∈ m, ch ≠ ' ') (s : FillState) (w w1 : Walk)
    (hrel : EncRel g0 m s w) (hc : w.consistent n) (hidx : s.index < m.length)
    (hstep : walk_step n w = some w1) :
    ∃ s1, fill_body n m true s = .ok s1 ∧ EncRel g0 m s1 w1 := by
  obtain ⟨e1, e2, e3, e4, e5, e6, e7, ws, hg, hfst, hsnd⟩ := hrel
  obtain ⟨h1, h2, h3, h4, h5, h6, h7, h8, h9, h10⟩ := walk_step_some n w w1 hstep
  obtain ⟨c1, _, _⟩ := walk_step_consistent n hn w w1 hc hstep
  have hch : m.getD s.index (Char.ofNat 0) = m[s.index] := by
    rw [List.getD_eq_getElem?_getD, List.getElem?_eq_getElem hidx]; rfl
  have htake : (m.take (s.index + 1)).reverse = m[s.index] :: (m.take s.index).reverse := by
    rw [List.take_succ, List.getElem?_eq_getElem hidx]; simp
  have hgrid : set_cell s.grid_ w.row w.col (m.getD s.index (Char.ofNat 0)) =
      replay g0 (((w.row, w.col), m[s.index]) :: ws) := by
    rw [hch, hg]; rfl
  have hocc : (set_cell s.grid_ w.row w.col (m.getD s.index (Char.ofNat 0))
      (w.row + flip_row w.boundary w.row w.row_manip)
      (w.col + flip_col w.boundary w.col w.col_manip) != ' ') =
      Nat.testBit w1.mask (cell_code w1.row (w.col + flip_col w.boundary w.col w.col_manip)) := by
    rw [hgrid, h6]
    by_cases hmem : (w.row + flip_row w.boundary w.row w.row_manip,
        w.col + flip_col w.boundary w.col w.col_manip) ∈ w1.visited
    · have hb := (c1 _ _ h3).2 hmem
      rw [hb]
      have hin := replay_mem_snd g0 (((w.row, w.col), m[s.index]) :: ws) _ _
        (by simp only [List.map_cons, hfst]; rw [← h4]; exact hmem)
      have hne : replay g0 (((w.row, w.col), m[s.index]) :: ws)
          (w.row + flip_row w.boundary w.row w.row_manip)
          (w.col + flip_col w.boundary w.col w.col_manip) ≠ ' ' := by
        apply hm
        simp only [List.map_cons, hsnd, List.mem_cons, List.mem_reverse] at hin
        rcases hin with hin | hin
        · rw [hin]; exact List.getElem_mem _
        · exact List.mem_of_mem_take hin
      simpa using hne
    · have hb : Nat.testBit w1.mask (cell_code (w.row + flip_row w.boundary w.row w.row_manip)
          (w.col + flip_col w.boundary w.col w.col_manip)) = false := by
        by_contra hcon
        exact hmem ((c1 _ _ h3).1 (by simpa using hcon))
      rw [hb, replay_of_not_mem g0 _ _ _
        (by simp only [List.map_cons, hfst]; rw [← h4]; exact hmem), hg0 _ _ h3]
      rfl
  rw [fill_body_encode_eq, e1, e2, e3, e4, e5]
  rw [if_neg (by rw [h1]; decide), if_neg (by rw [h3]; decide)]
  refine ⟨_, rfl, ?_⟩
  rw [hocc, ← h6]
  refine ⟨h10.symm, rfl, h8.symm, h7.symm, h9.symm, ?_, e7, ?_⟩
  · simp only [h4, List.length_cons, e6]
  · refine ⟨((w.row, w.col), m[s.index]) :: ws, ?_, ?_, ?_⟩
    · simp only; rw [hgrid]
    · simp only [List.map_cons, hfst, h4]
    · simp only [List.map_cons, hsnd, htake]

/-- One pass of the read loop follows the walk: on a grid whose cells do not hold the
mark at the start, the pass succeeds and keeps the state related to the walk. -/
theorem fill_body_decode_sim (n : Int) (hn : n ≤ 32) (g0 : Grid)
    (hg0 : ∀ r c, in_grid n r c = true → g0 r c ≠ '~')
    (m : List Char) (s : FillState) (w w1 : Walk)
    (hrel : DecRel g0 s w) (hc : w.consistent n)
    (hstep : walk_step n w = some w1) :
    ∃ s1, fill_body n m false s = .ok s1 ∧ DecRel g0 s1 w1 := by
  obtain ⟨e1, e2, e3, e4, e5, e6, e7, hg⟩ := hrel
  obtain ⟨h1, h2, h3, h4, h5, h6, h7, h8, h9, h10⟩ := walk_step_some n w w1 hstep
  obtain ⟨c1, _, _⟩ := walk_step_consistent n hn w w1 hc hstep
  have hfst : ∀ l : List (Int × Int), (l.map fun p => (p, '~')).map Prod.fst = l := by
    intro l; simp [List.map_map, Function.comp_def]
  have hgrid : set_cell s.grid_ w.row w.col '~' =
      replay g0 (w1.visited.map fun p => (p, '~')) := by
    rw [h4, hg]; rfl
  have hcur : s.grid_ w.row w.col = g0 w.row w.col := by
    rw [hg]
    apply replay_of_not_mem
    rw [hfst]
    intro hmem
    have := (hc.1 _ _ h1).2 hmem
    rw [h2] at this
    exact absurd this (by decide)
  have hocc : (set_cell s.grid_ w.row w.col '~'
      (w.row + flip_row w.boundary w.row w.row_manip)
      (w.col + flip_col w.boundary w.col w.col_manip) == '~') =
      Nat.testBit w1.mask (cell_code w1.row (w.col + flip_col w.boundary w.col w.col_manip)) := by
    rw [hgrid, h6]
    by_cases hmem : (w.row + flip_row w.boundary w.row w.row_manip,
        w.col + flip_col w.boundary w.col w.col_manip) ∈ w1.visited
    · have hb := (c1 _ _ h3).2 hmem
      rw [hb]
      have hin := replay_mem_snd g0 (w1.visited.map fun p => (p, '~')) _ _
        (by rw [hfst]; exact hmem)
      simp only [List.map_map, List.mem_map, Function.comp_apply] at hin
      obtain ⟨_, _, hin⟩ := hin
      rw [← hin]; rfl
    · have hb : Nat.testBit w1.mask (cell_code (w.row + flip_row w.boundary w.row w.row_manip)
          (w.col + flip_col w.boundary w.col w.col_manip)) = false := by
        by_contra hcon
        exact hmem ((c1 _ _ h3).1 (by simpa using hcon))
      rw [hb, replay_of_not_mem g0 _ _ _ (by rw [hfst]; exact hmem)]
      simpa using hg0 _ _ h3
  rw [fill_body_decode_eq, e1, e2, e3, e4, e5]
  rw [if_neg (by rw [h1]; decide), if_neg (by rw [h3]; decide)]
  refine ⟨_, rfl, ?_⟩
  rw [hocc, ← h6]
  refine ⟨h10.symm, rfl, h8.symm, h7.symm, h9.symm, ?_, ?_, ?_⟩
  · simp only [h4, List.length_cons, e6]
  · simp only [h4, List.reverse_cons, List.map_append, List.map_cons, List.map_nil, e7, hcur]
  · simp only; rw [hgrid]

/-- The write loop follows the walk to the end of the message. -/
theorem fill_loop_encode_sim (n : Int) (hn : n ≤ 32) (g0 : Grid)
    (hg0 : ∀ r c, in_grid n r c = true → g0 r c = ' ')
    (m : List Char) (hm : ∀ ch ∈ m, ch ≠ ' ') :
    ∀ (j : Nat) (s : FillState) (w wf : Walk) (fuel : Nat),
      EncRel g0 m s w → w.consistent n → s.index + j = m.length → j ≤ fuel →
      walk n j w = some wf →
      ∃ sf, fill_loop n m true fuel s = .ok sf ∧ EncRel g0 m sf wf ∧ sf.index = m.length := by
  intro j
  induction j with
  | zero =>
    intro s w wf fuel hrel _ hidx _ hw
    simp only [walk] at hw
    injection hw with hw; subst hw
    refine ⟨s, ?_, hrel, by omega⟩
    cases fuel with
    | zero => unfold fill_loop; rw [if_neg (by omega)]
    | succ f => unfold fill_loop; rw [if_neg (by omega)]
  | succ j ih =>
    intro s w wf fuel hrel hc hidx hfuel hw
    obtain ⟨f, rfl⟩ : ∃ f, fuel = f + 1 := ⟨fuel - 1, by omega⟩
    unfold walk at hw
    cases hs : walk_step n w with
    | none => rw [hs] at hw; exact absurd hw (by simp)
    | some w1 =>
      rw [hs] at hw
      obtain ⟨s1, hb, hrel1⟩ := fill_body_encode_sim n hn g0 hg0 m hm s w w1 hrel hc (by omega) hs
      have hi1 : s1.index = s.index + 1 := by
        obtain ⟨_, _, _, h4, _⟩ := walk_step_some n w w1 hs
        rw [hrel1.2.2.2.2.2.1, h4, hrel.2.2.2.2.2.1]; rfl
      obtain ⟨sf, hl, hr, hi⟩ := ih s1 w1 wf f hrel1 (walk_step_consistent n hn w w1 hc hs)
        (by omega) (by omega) hw
      refine ⟨sf, ?_, hr, hi⟩
      unfold fill_loop
      rw [if_pos (by omega), hb]
      simpa using hl

/-- The read loop follows the walk until `decoded_length n` cells are read. -/
theorem fill_loop_decode_sim (n : Int) (hn : n ≤ 32) (g0 : Grid)
    (hg0 : ∀ r c, in_grid n r c = true → g0 r c ≠ '~') (m : List Char) :
    ∀ (j : Nat) (s : FillState) (w wf : Walk) (fuel : Nat),
      DecRel g0 s w → w.consistent n → (s.index : Int) + j = decoded_length n →
      s.index + j ≤ m.length → j ≤ fuel → walk n j w = some wf →
      ∃ sf, fill_loop n m false fuel s = .ok sf ∧ DecRel g0 sf wf := by
  intro j
  induction j with
  | zero =>
    intro s w wf fuel hrel _ hidx _ _ hw
    simp only [walk] at hw
    injection hw with hw; subst hw
    refine ⟨s, ?_, hrel⟩
    have hge : (s.index : Int) ≥ decoded_length n := by
      simp only [Nat.cast_zero, add_zero] at hidx; omega
    cases fuel with
    | zero =>
      unfold fill_loop
      rw [if_neg]
      rintro ⟨_, h | h⟩
      · exact absurd h (by decide)
      · exact h hge
    | succ f =>
      unfold fill_loop
      by_cases hlt : s.index < m.length
      · rw [if_pos hlt, if_pos (by simpa using hge)]
      · rw [if_neg hlt]
  | succ j ih =>
    intro s w wf fuel hrel hc hidx hlen hfuel hw
    obtain ⟨f, rfl⟩ : ∃ f, fuel = f + 1 := ⟨fuel - 1, by omega⟩
    unfold walk at hw
    cases hs : walk_step n w with
    | none => rw [hs] at hw; exact absurd hw (by simp)
    | some w1 =>
      rw [hs] at hw
      obtain ⟨s1, hb, hrel1⟩ := fill_body_decode_sim n hn g0 hg0 m s w w1 hrel hc hs
      have hi1 : s1.index = s.index + 1 := by
        obtain ⟨_, _, _, h4, _⟩ := walk_step_some n w w1 hs
        rw [hrel1.2.2.2.2.2.1, h4, hrel.2.2.2.2.2.1]; rfl
      obtain ⟨sf, hl, hr⟩ := ih s1 w1 wf f hrel1 (walk_step_consistent n hn w w1 hc hs)
        (by rw [hi1]; push_cast at hidx ⊢; omega) (by omega) (by omega) hw
      refine ⟨sf, ?_, hr⟩
      unfold fill_loop
      have hlt : ¬ ((s.index : Int) ≥ decoded_length n) := by push_cast at hidx; omega
      rw [if_pos (by omega), if_neg (by simpa using hlt), hb]
      simpa using hl

/-! ## The walk on every grid the codec can build -/

set_option maxRecDepth 100000 in
theorem spiral_ok_3 : spiral_ok 3 = true := by decide!

set_option maxRecDepth 100000 in
theorem spiral_ok_5 : spiral_ok 5 = true := by decide!

set_option maxRecDepth 100000 in
theorem spiral_ok_7 : spiral_ok 7 = true := by decide!

set_option maxRecDepth 100000 in
theorem spiral_ok_9 : spiral_ok 9 = true := by decide!

set_option maxRecDepth 100000 in
theorem spiral_ok_11 : spiral_ok 11 = true := by decide!

set_option maxRecDepth 100000 in
theorem spiral_ok_13 : spiral_ok 13 = true := by decide!

set_option maxRecDepth 100000 in
theorem spiral_ok_15 : spiral_ok 15 = true := by decide!

set_option maxRecDepth 100000 in
theorem spiral_ok_17 : spiral_ok 17 = true := by decide!

set_option maxRecDepth 100000 in
theorem spiral_ok_19 : spiral_ok 19 = true := by decide!

set_option maxRecDepth 100000 in
theorem spiral_ok_21 : spiral_ok 21 = true := by decide!

set_option maxRecDepth 100000 in
theorem spiral_ok_23 : spiral_ok 23 = true := by decide!

set_option maxRecDepth 100000 in
theorem spiral_ok_25 : spiral_ok 25 = true := by decide!

set_option maxRecDepth 100000 in
theorem spiral_ok_27 : spiral_ok 27 = true := by decide!

set_option maxRecDepth 100000 in
theorem spiral_ok_29 : spiral_ok 29 = true := by decide!

set_option maxRecDepth 100000 in
theorem spiral_ok_31 : spiral_ok 31 = true := by decide!

/-- On every grid the codec can build the traversal makes `decoded_length n` passes inside
the grid without standing on a cell twice. -/
theorem spiral_ok_of_odd (n : Int) (h3 : 3 ≤ n) (h31 : n ≤ 31) (hodd : n % 2 = 1) :
    spiral_ok n = true := by
  interval_cases n
  · exact spiral_ok_3
  · omega
  · exact spiral_ok_5
  · omega
  · exact spiral_ok_7
  · omega
  · exact spiral_ok_9
  · omega
  · exact spiral_ok_11
  · omega
  · exact spiral_ok_13
  · omega
  · exact spiral_ok_15
  · omega
  · exact spiral_ok_17
  · omega
  · exact spiral_ok_19
  · omega
  · exact spiral_ok_21
  · omega
  · exact spiral_ok_23
  · omega
  · exact spiral_ok_25
  · omega
  · exact spiral_ok_27
  · omega
  · exact spiral_ok_29
  · omega
  · exact spiral_ok_31

theorem walk_split (n : Int) (a b : Nat) (w wf : Walk) (h : walk n (a + b) w = some wf) :
    ∃ wa, walk n a w = some wa ∧ walk n b wa = some wf := by
  rw [walk_add] at h
  cases ha : walk n a w with
  | none => rw [ha] at h; exact absurd h (by simp)
  | some wa => rw [ha] at h; exact ⟨wa, rfl, h⟩

theorem decoded_length_nonneg (n : Int) : 0 ≤ decoded_length n := by
  unfold decoded_length square
  have : 0 ≤ n * n := mul_self_nonneg n
  omega

/-- The first `k` passes of the traversal, for `k` up to the capacity: they succeed, and
the cells visited are distinct cells of the grid, the first `k` of the full path. -/
theorem spiral_path_spec (n : Int) (h3 : 3 ≤ n) (h31 : n ≤ 31) (hodd : n % 2 = 1)
    (k : Nat) (hk : (k : Int) ≤ decoded_length n) :
    ∃ wk, walk n k (walk_start n) = some wk ∧ wk.consistent n ∧
      wk.visited = (spiral_path n k).reverse ∧ (spiral_path n k).length = k ∧
      (spiral_path n k).Nodup ∧ (∀ p ∈ spiral_path n k, in_grid n p.1 p.2 = true) ∧
      spiral_path n k = (spiral_path n (decoded_length n).toNat).take k := by
  have hok := spiral_ok_of_odd n h3 h31 hodd
  unfold spiral_ok at hok
  obtain ⟨wf, hwf⟩ := Option.isSome_iff_exists.1 hok
  have hsum : (decoded_length n).toNat = k + ((decoded_length n).toNat - k) := by omega
  rw [hsum] at hwf
  obtain ⟨wk, h1, h2⟩ := walk_split n _ _ _ _ hwf
  have hc := walk_consistent n (by omega) k _ wk (walk_start_consistent n) h1
  obtain ⟨l, hl1, hl2⟩ := walk_visited n k _ wk h1
  obtain ⟨l2, hl3, hl4⟩ := walk_visited n _ _ wf h2
  have hv : wk.visited = l := by rw [hl2]; simp [walk_start]
  have hp : spiral_path n k = wk.visited.reverse := by unfold spiral_path; rw [h1]
  have hpf : spiral_path n (decoded_length n).toNat = wf.visited.reverse := by
    unfold spiral_path; rw [hsum, hwf]
  refine ⟨wk, h1, hc, by rw [hp, List.reverse_reverse], by rw [hp, List.length_reverse, hv, hl1],
    by rw [hp]; exact List.nodup_reverse.2 hc.2.2, fun p hp1 => ?_, ?_⟩
  · rw [hp, List.mem_reverse] at hp1
    exact hc.2.1 p hp1
  · rw [hpf, hp, hl4, List.reverse_append, List.take_left']
    rw [List.length_reverse, hv, hl1]

/-! ## The write traversal and the read traversal as a whole -/

/-- The state `fill_grid` starts from is related to the start of the walk (write mode). -/
theorem enc_rel_start (n : Int) (g0 : Grid) (m : List Char) :
    EncRel g0 m
      { grid_ := g0, decoded_message := [],
        boundary := { top_ := 0, bottom_ := n - 1, right_ := n - 1 },
        index := 0, row := n / 2, col := 0, row_manip := -1, col_manip := 1 }
      (walk_start n) :=
  ⟨rfl, rfl, rfl, rfl, rfl, rfl, rfl, [], rfl, rfl, rfl⟩

/-- The state `fill_grid` starts from is related to the start of the walk (read mode). -/
theorem dec_rel_start (n : Int) (g0 : Grid) :
    DecRel g0
      { grid_ := g0, decoded_message := [],
        boundary := { top_ := 0, bottom_ := n - 1, right_ := n - 1 },
        index := 0, row := n / 2, col := 0, row_manip := -1, col_manip := 1 }
      (walk_start n) :=
  ⟨rfl, rfl, rfl, rfl, rfl, rfl, rfl, rfl⟩

/-- The write traversal: on a sized grid and a message without blanks that fits the
capacity, `process_grid` returns, and the grid holds character `i` of the message on cell
`i` of the spiral path and blanks on every other cell. -/
theorem process_grid_encode (n : Int) (h3 : 3 ≤ n) (h31 : n ≤ 31) (hodd : n % 2 = 1)
    (m : List Char) (hm : ∀ ch ∈ m, ch ≠ ' ') (hlen : (m.length : Int) ≤ decoded_length n)
    (ops : GridOperations) (hsize : ops.grid_size_ = n) :
    ∃ ops1, ops.process_grid m true = .ok (ops1, []) ∧ ops1.grid_size_ = n ∧
      (∀ (i : Nat) (h1 : i < (spiral_path n m.length).length) (h2 : i < m.length),
        ops1.grid_ (spiral_path n m.length)[i].1 (spiral_path n m.length)[i].2 = m[i]) ∧
      (∀ r c, in_grid n r c = true → (r, c) ∉ spiral_path n m.length → ops1.grid_ r c = ' ') ∧
      (∀ r c, in_grid n r c = true → ops1.grid_ r c ≠ ' ' → ops1.grid_ r c ∈ m) := by
  obtain ⟨wk, hw, hc, hv, hl, hnd, _, _⟩ := spiral_path_spec n h3 h31 hodd m.length hlen
  have hg0 : ∀ r c, in_grid n r c = true → (ops.initialise_grid []).grid_ r c = ' ' := by
    intro r c hrc
    rw [initialise_grid_cell, hsize, if_pos hrc]
    simp [initial_char]
  obtain ⟨sf, hloop, hrel, _⟩ := fill_loop_encode_sim n (by omega) _ hg0 m hm m.length _ _ wk
    m.length (enc_rel_start n (ops.initialise_grid []).grid_ m) (walk_start_consistent n)
    (by simp) le_rfl hw
  obtain ⟨_, _, _, _, _, hidx, hdec, ws, hg, hfst, hsnd⟩ := hrel
  have hidx2 : sf.index = m.length := by rw [hidx, hv, List.length_reverse, hl]
  rw [hidx2, List.take_length] at hsnd
  refine ⟨{ (ops.initialise_grid []) with grid_ := sf.grid_ }, ?_, hsize, ?_, ?_, ?_⟩
  · unfold GridOperations.process_grid GridOperations.fill_grid
    simp only [if_true, initialise_grid_size, hsize]
    rw [hloop]
    simp only [hdec]
  · intro i h1 h2
    simp only
    rw [hg]
    have hlen_ws : ws.length = m.length := by
      have := congrArg List.length hsnd
      simpa using this
    have hi : i < ws.reverse.length := by rw [List.length_reverse, hlen_ws]; exact h2
    have hp : (spiral_path n m.length)[i] = (ws.reverse[i]).1 := by
      have : spiral_path n m.length = ws.reverse.map Prod.fst := by
        rw [List.map_reverse, hfst, hv, List.reverse_reverse]
      simp only [this, List.getElem_map]
    have hch : m[i] = (ws.reverse[i]).2 := by
      have : m = ws.reverse.map Prod.snd := by
        rw [List.map_reverse, hsnd, List.reverse_reverse]
      simp only [this, List.getElem_map]
    rw [hp, hch]
    apply replay_of_mem
    · rw [hfst]; exact hc.2.2
    · exact List.mem_reverse.1 (List.getElem_mem _)
  · intro r c hrc hnot
    simp only
    rw [hg, replay_of_not_mem, hg0 r c hrc]
    rw [hfst, hv, List.mem_reverse]
    exact hnot
  · intro r c hrc hne
    simp only at hne ⊢
    by_cases hmem : (r, c) ∈ ws.map Prod.fst
    · have := replay_mem_snd (ops.initialise_grid []).grid_ ws r c hmem
      rw [hsnd, List.mem_reverse] at this
      rw [hg]; exact this
    · rw [hg, replay_of_not_mem _ _ _ _ hmem, hg0 r c hrc] at hne
      exact absurd rfl hne

/-- The read traversal: on a sized grid and a string of at least `n * n` characters none of
which is the mark, `process_grid` returns the characters found along the whole spiral
path. -/
theorem process_grid_decode (n : Int) (h3 : 3 ≤ n) (h31 : n ≤ 31) (hodd : n % 2 = 1)
    (e : List Char) (he : ∀ ch ∈ e, ch ≠ '~') (hlen : n * n ≤ (e.length : Int))
    (ops : GridOperations) (hsize : ops.grid_size_ = n) :
    ∃ ops1, ops.process_grid e false =
      .ok (ops1, (spiral_path n (decoded_length n).toNat).map
        fun p => e.getD (dump_index n p) (Char.ofNat 0)) := by
  have hcap0 := decoded_length_nonneg n
  obtain ⟨wk, hw, hc, hv, hl, hnd, hin, _⟩ :=
    spiral_path_spec n h3 h31 hodd (decoded_length n).toNat (by omega)
  have hne : e ≠ [] := by
    intro h
    rw [h] at hlen
    simp only [List.length_nil, Nat.cast_zero] at hlen
    nlinarith
  have hcell : ∀ r c, in_grid n r c = true →
      (ops.initialise_grid e).grid_ r c = e.getD (dump_index n (r, c)) (Char.ofNat 0) := by
    intro r c hrc
    rw [initialise_grid_cell, hsize, if_pos hrc]
    simp [initial_char, hne]
  have hidx : ∀ r c, in_grid n r c = true → dump_index n (r, c) < e.length := by
    intro r c hrc
    rw [in_grid_iff] at hrc
    unfold dump_index
    simp only
    have : r * n + c < n * n := by nlinarith
    have : 0 ≤ r * n + c := by nlinarith
    omega
  have hg0 : ∀ r c, in_grid n r c = true → (ops.initialise_grid e).grid_ r c ≠ '~' := by
    intro r c hrc
    rw [hcell r c hrc]
    apply he
    rw [List.getD_eq_getElem?_getD, List.getElem?_eq_getElem (hidx r c hrc)]
    exact List.getElem_mem _
  have hcaple : decoded_length n ≤ n * n := by
    unfold decoded_length square
    have : 1 ≤ n * n := by nlinarith
    omega
  obtain ⟨sf, hloop, hrel⟩ := fill_loop_decode_sim n (by omega) _ hg0 e (decoded_length n).toNat
    _ _ wk e.length (dec_rel_start n (ops.initialise_grid e).grid_) (walk_start_consistent n)
    (by simp only [Nat.cast_zero, zero_add]; omega) (by simp only [zero_add]; omega)
    (by omega) hw
  obtain ⟨_, _, _, _, _, _, hdec, _⟩ := hrel
  refine ⟨{ (ops.initialise_grid e) with grid_ := sf.grid_ }, ?_⟩
  unfold GridOperations.process_grid GridOperations.fill_grid
  simp only [Bool.false_eq_true, if_false, initialise_grid_size, hsize]
  rw [hloop]
  simp only [hdec, hv, List.reverse_reverse]
  simp only [Outcome.ok.injEq, Prod.mk.injEq, true_and]
  apply List.map_congr_left
  intro p hp
  exact hcell p.1 p.2 (hin p hp)

/-! ## The codec -/

theorem set_grid_size_ok (self : GridOperations) (n : Int) (h3 : 3 ≤ n) (hodd : n % 2 = 1) :
    self.set_grid_size n = ({ grid_size_ := n, grid_ := fun _ _ => Char.ofNat 0 }, .ok ()) := by
  unfold GridOperations.set_grid_size
  rw [if_neg (by omega), if_neg (by simp [hodd])]

theorem global_max_size_eq : global_max_size = 31 := by
  unfold global_max_size
  rw [(floor_sqrt_iff 1000 31).2 (by decide)]
  rfl

theorem prompt_entries_valid (min_size : Int) (entries : List (Option Int)) (n : Int)
    (h : prompt_entries min_size entries = some n) :
    n % 2 = 1 ∧ min_size ≤ n ∧ n ≤ 31 := by
  induction entries with
  | nil => simp [prompt_entries] at h
  | cons x rest ih =>
    cases x with
    | none => exact ih (by simpa [prompt_entries] using h)
    | some new_size =>
      unfold prompt_entries at h
      split_ifs at h with hc
      · exact ih h
      · injection h with h
        subst h
        simp only [Bool.or_eq_true, decide_eq_true_eq, not_or, not_lt, global_max_size_eq,
          is_even, beq_iff_eq] at hc
        omega

/-- The dimension `encode` settles on is odd, at least the minimum and at most 31. -/
theorem chosen_size_valid (min_size : Int) (hodd : min_size % 2 = 1) (h31 : min_size ≤ 31)
    (is_auto : Bool) (input : UserInput) (n : Int)
    (h : chosen_size min_size is_auto input = some n) :
    n % 2 = 1 ∧ min_size ≤ n ∧ n ≤ 31 := by
  unfold chosen_size at h
  split_ifs at h with h1
  · injection h with h; subst h; exact ⟨hodd, le_rfl, h31⟩
  · unfold prompt_grid_size at h
    split_ifs at h with h2
    · injection h with h; subst h; exact ⟨hodd, le_rfl, h31⟩
    · exact prompt_entries_valid min_size _ n h

theorem decoded_length_31 : decoded_length 31 = 481 := by decide

/-- For a length between 2 and 481 the minimum dimension is odd and between 3 and 31. -/
theorem minimum_size_bounds (len : Nat) (h2 : 2 ≤ len) (h481 : len ≤ 481) (nmin : Int)
    (hmin : minimum_size len = some nmin) :
    3 ≤ nmin ∧ nmin ≤ 31 ∧ nmin % 2 = 1 ∧ (len : Int) ≤ decoded_length nmin := by
  obtain ⟨n, hn, g3, godd, gcap, gleast⟩ := minimum_size_spec len h2
  rw [hn] at hmin
  injection hmin with hmin
  subst hmin
  exact ⟨g3, gleast 31 (by omega) (by omega) (by rw [decoded_length_31]; omega), godd, gcap⟩

/-- On a message of at most 1073651461 characters `encode` computes in `int` what exact
arithmetic gives. -/
theorem encode_exact (self : EncoderDecoder) (m : List Char) (is_auto : Bool)
    (input : UserInput) (draws : Nat → Fin 26) (hlen : m.length ≤ 1073651461) :
    self.encode m is_auto input draws =
      match minimum_size m.length with
      | none => (self, .no_return)
      | some min_size =>
        if square min_size > 999 then (self, .raised .length_below_1000)
        else if is_auto then self.encode_with_size m min_size draws
        else
          match prompt_grid_size min_size input with
          | none => (self, .no_return)
          | some size => self.encode_with_size m size draws := by
  obtain ⟨h1, h2⟩ := minimum_size_int_exact m.length hlen
  unfold EncoderDecoder.encode
  rw [h1]
  cases hmin : minimum_size m.length with
  | none => rfl
  | some n =>
    simp only
    rw [(h2 n hmin).2.2]

/-- A length whose minimum dimension passes the guard of line 232 is at most 500. -/
theorem length_le_of_guard (len : Nat) (nmin : Int) (hmin : minimum_size len = some nmin)
    (hsq : ¬ square nmin > 999) : len ≤ 500 := by
  obtain ⟨n, hn, _, _, gcap, _⟩ := minimum_size_some len
  rw [hmin] at hn
  injection hn with hn
  subst hn
  unfold decoded_length at gcap
  omega

theorem encode_eq (self : EncoderDecoder) (m : List Char) (nmin n : Int)
    (hmin : minimum_size m.length = some nmin) (hsq : ¬ square nmin > 999)
    (is_auto : Bool) (input : UserInput) (hsel : chosen_size nmin is_auto input = some n)
    (draws : Nat → Fin 26) :
    self.encode m is_auto input draws = self.encode_with_size m n draws := by
  rw [encode_exact self m is_auto input draws
    (le_trans (length_le_of_guard m.length nmin hmin hsq) (by decide))]
  rw [hmin]
  simp only
  rw [if_neg hsq]
  unfold chosen_size at hsel
  cases is_auto with
  | true =>
    simp only [if_true] at hsel ⊢
    injection hsel with hsel
    rw [hsel]
  | false =>
    simp only [Bool.false_eq_true, if_false] at hsel ⊢
    rw [hsel]

/-- With an odd dimension between 3 and 31 whose capacity holds a message without blanks,
`encode` sizes the grid, writes the message along the spiral path and returns the dump of
the grid. -/
theorem encode_with_size_ok (self : EncoderDecoder) (n : Int) (h3 : 3 ≤ n) (h31 : n ≤ 31)
    (hodd : n % 2 = 1) (m : List Char) (hm : ∀ ch ∈ m, ch ≠ ' ')
    (hlen : (m.length : Int) ≤ decoded_length n) (draws : Nat → Fin 26) :
    ∃ ops1, self.encode_with_size m n draws =
        ({ grid_operations_ := ops1 }, .ok (ops1.get_encoded_message draws)) ∧
      ops1.grid_size_ = n ∧
      ({ grid_size_ := n, grid_ := fun _ _ => Char.ofNat 0 } : GridOperations).process_grid m true
        = .ok (ops1, []) := by
  obtain ⟨ops1, hp, hs, _⟩ := process_grid_encode n h3 h31 hodd m hm hlen
    { grid_size_ := n, grid_ := fun _ _ => Char.ofNat 0 } rfl
  refine ⟨ops1, ?_, hs, hp⟩
  unfold EncoderDecoder.encode_with_size
  rw [set_grid_size_ok _ n h3 hodd]
  simp only
  rw [hp]

theorem square_le_of_le_31 (n : Int) (h3 : 3 ≤ n) (h31 : n ≤ 31) : ¬ square n > 999 := by
  unfold square
  nlinarith

/-! ## Claims about grid sizing and the error guards of `encode` -/

/-- C2: for every message length of at least two, the dimension computed at the start of
`encode` is the smallest odd `n ≥ 3` with `(n * n + 1) / 2 ≥ length`; length 5 gives 3,
length 6 gives 5, and length `(k * k + 1) / 2 + 1` gives `k + 2` for every odd `k ≥ 3`. -/
theorem C2_minimum_size_is_least_odd_dimension (len : Nat) (hlen : 2 ≤ len) :
    ∃ n : Int, minimum_size len = some n ∧ 3 ≤ n ∧ n % 2 = 1 ∧
      (len : Int) ≤ decoded_length n ∧
      (∀ k : Int, 3 ≤ k → k % 2 = 1 → (len : Int) ≤ decoded_length k → n ≤ k) ∧
      (len = 5 → n = 3) ∧ (len = 6 → n = 5) ∧
      (∀ k : Int, 3 ≤ k → k % 2 = 1 → (len : Int) = decoded_length k + 1 → n = k + 2) := by
  obtain ⟨n, hn, g3, godd, gcap, gleast⟩ := minimum_size_spec len hlen
  refine ⟨n, hn, g3, godd, gcap, gleast, fun h5 => ?_, fun h6 => ?_, fun k hk3 hkodd hk => ?_⟩
  · have := gleast 3 (by omega) (by omega) (by subst h5; decide)
    omega
  · have h5 := gleast 5 (by omega) (by omega) (by subst h6; decide)
    have hne : n ≠ 3 := by
      intro h
      rw [h, h6] at gcap
      exact absurd gcap (by decide)
    omega
  · have hle : n ≤ k + 2 := by
      apply gleast (k + 2) (by omega) (by omega)
      rw [hk]
      unfold decoded_length square
      have : k * k + 4 ≤ (k + 2) * (k + 2) := by nlinarith
      omega
    have hgt : k < n := by
      by_contra hcon
      push_neg at hcon
      have := decoded_length_mono n k (by omega) hcon
      omega
    omega

/-- C2 at length 6, where the 3 × 3 grid is one cell short. -/
theorem C2_minimum_size_witness :
    2 ≤ 6 ∧ ∃ n : Int, minimum_size 6 = some n ∧ 3 ≤ n ∧ n % 2 = 1 ∧
      ((6 : Nat) : Int) ≤ decoded_length n ∧
      (∀ k : Int, 3 ≤ k → k % 2 = 1 → ((6 : Nat) : Int) ≤ decoded_length k → n ≤ k) ∧
      (6 = 5 → n = 3) ∧ (6 = 6 → n = 5) ∧
      (∀ k : Int, 3 ≤ k → k % 2 = 1 → ((6 : Nat) : Int) = decoded_length k + 1 → n = k + 2) :=
  ⟨by decide, C2_minimum_size_is_least_odd_dimension 6 (by decide)⟩

theorem minimum_size_zero : minimum_size 0 = some 1 := by decide

theorem minimum_size_one : minimum_size 1 = some 1 := by decide

/-- Beyond 481 characters the minimum dimension is at least 33. -/
theorem minimum_size_large (len : Nat) (h : 481 < len) :
    ∃ n : Int, minimum_size len = some n ∧ 33 ≤ n := by
  obtain ⟨n, hn, g3, godd, gcap, _⟩ := minimum_size_spec len (by omega)
  refine ⟨n, hn, ?_⟩
  by_contra hcon
  have hle : n ≤ 31 := by omega
  have := decoded_length_mono n 31 (by omega) hle
  rw [decoded_length_31] at this
  omega

/-- The three ways an auto-sized `encode` of a message without blanks ends when the sizing
does not overflow `int` (at most 1073651461 characters): the dimension is 1 and
`set_grid_size` throws, the dimension is at least 33 and the length guard throws, or the
dimension is between 3 and 31 and a string is returned. -/
theorem encode_auto_cases (self : EncoderDecoder) (m : List Char)
    (hm : ∀ ch ∈ m, ch ≠ ' ') (hlen : m.length ≤ 1073651461) (input : UserInput)
    (draws : Nat → Fin 26) :
    (m.length < 2 ∧ minimum_size m.length = some 1 ∧
      (self.encode m true input draws).2 = .raised .minimum_grid_size) ∨
    (481 < m.length ∧ (∃ n : Int, minimum_size m.length = some n ∧ 999 < square n) ∧
      (self.encode m true input draws).2 = .raised .length_below_1000) ∨
    (2 ≤ m.length ∧ m.length ≤ 481 ∧
      (∃ n : Int, minimum_size m.length = some n ∧ 3 ≤ n ∧ ¬ 999 < square n) ∧
      ∃ e, (self.encode m true input draws).2 = .ok e) := by
  rcases Nat.lt_or_ge m.length 2 with hsmall | h2
  · -- lengths 0 and 1: the minimum dimension is 1
    have hmin : minimum_size m.length = some 1 := by
      have : m.length = 0 ∨ m.length = 1 := by omega
      rcases this with h | h
      · rw [h]; exact minimum_size_zero
      · rw [h]; exact minimum_size_one
    refine Or.inl ⟨hsmall, hmin, ?_⟩
    rw [encode_exact self m true input draws hlen]
    rw [hmin]
    simp only
    rw [if_neg (by decide)]
    simp only [if_true]
    unfold EncoderDecoder.encode_with_size GridOperations.set_grid_size
    rw [if_pos (by decide)]
  · rcases Nat.lt_or_ge 481 m.length with hbig | h481
    · obtain ⟨n, hn, h33⟩ := minimum_size_large m.length hbig
      have hsq : square n > 999 := by unfold square; nlinarith
      refine Or.inr (Or.inl ⟨hbig, ⟨n, hn, hsq⟩, ?_⟩)
      rw [encode_exact self m true input draws hlen]
      rw [hn]
      simp only
      rw [if_pos hsq]
    · obtain ⟨n, hn, _⟩ := minimum_size_spec m.length h2
      obtain ⟨g3, g31, godd, gcap⟩ := minimum_size_bounds m.length h2 h481 n hn
      have hsq := square_le_of_le_31 n g3 g31
      obtain ⟨ops1, hok, _⟩ := encode_with_size_ok self n g3 g31 godd m hm gcap draws
      refine Or.inr (Or.inr ⟨h2, h481, ⟨n, hn, g3, hsq⟩, ops1.get_encoded_message draws, ?_⟩)
      rw [encode_eq self m n n hn hsq true input (by simp [chosen_size]) draws, hok]

/-! ## The length guard of `encode` and the range of `int` -/

/-- A pass of the loop never throws. -/
theorem fill_body_not_raised (n : Int) (m : List Char) (flag : Bool) (s : FillState)
    (x : CustomException) : fill_body n m flag s ≠ .raised x := by
  unfold fill_body
  simp only
  split_ifs <;> simp

/-- The loop of `fill_grid` never throws. -/
theorem fill_loop_not_raised (n : Int) (m : List Char) (flag : Bool) (x : CustomException) :
    ∀ (fuel : Nat) (s : FillState), fill_loop n m flag fuel s ≠ .raised x := by
  intro fuel
  induction fuel with
  | zero =>
    intro s
    unfold fill_loop
    split_ifs <;> simp
  | succ f ih =>
    intro s
    unfold fill_loop
    split_ifs
    · simp
    · cases hb : fill_body n m flag s with
      | ok s1 => exact ih s1
      | raised e => exact absurd hb (fill_body_not_raised n m flag s e)
      | out_of_bounds => simp
      | no_return => simp
    · simp

theorem fill_grid_not_raised (ops : GridOperations) (m : List Char) (flag : Bool)
    (x : CustomException) : ops.fill_grid m flag ≠ .raised x := by
  unfold GridOperations.fill_grid
  split
  · simp
  · rename_i e h
    exact absurd h (fill_loop_not_raised _ _ _ e _ _)
  · simp
  · simp

/-- Once `set_grid_size` has accepted the dimension, nothing in `encode` throws. -/
theorem encode_with_size_not_raised (self : EncoderDecoder) (m : List Char) (n : Int)
    (h3 : 3 ≤ n) (hodd : n % 2 = 1) (draws : Nat → Fin 26) (x : CustomException) :
    (self.encode_with_size m n draws).2 ≠ .raised x := by
  unfold EncoderDecoder.encode_with_size
  rw [set_grid_size_ok _ n h3 hodd]
  simp only
  split
  · simp
  · rename_i e h
    exact absurd h (fill_grid_not_raised _ _ _ e)
  · simp
  · simp

/-- C3: for a message without blanks, auto-sized `encode` raises an error exactly when the
length is below 2 or above 481 (exactly when the minimum dimension is below 3 or its square
exceeds 999) and returns a string for every other length, as long as the message has at
most 1073651461 characters. From 1073651462 characters on (up to the largest `int`) the
sizing reaches 46341, whose square 2147488281 does not fit `int`; the guard of line 232
sees the wrapped value -2147479015, does not throw, `set_grid_size` accepts 46341, and
`encode` raises no error although the length is above 481. -/
theorem C3_encode_length_guard_overflows (self : EncoderDecoder) (m : List Char)
    (hm : ∀ ch ∈ m, ch ≠ ' ') (input : UserInput) (draws : Nat → Fin 26) :
    (m.length ≤ 1073651461 →
      ((∃ x, (self.encode m true input draws).2 = .raised x) ↔
          (m.length < 2 ∨ 481 < m.length)) ∧
      ((m.length < 2 ∨ 481 < m.length) ↔
          ∃ n : Int, minimum_size_int m.length = some n ∧ (n < 3 ∨ 999 < square_int n)) ∧
      (¬ (m.length < 2 ∨ 481 < m.length) →
          ∃ e, (self.encode m true input draws).2 = .ok e)) ∧
    (1073651461 < m.length → m.length ≤ 2147483647 →
      481 < m.length ∧ minimum_size_int m.length = some 46341 ∧
      (46341 : Int) * 46341 = 2147488281 ∧ square_int 46341 = -2147479015 ∧
      ¬ square_int 46341 > 999 ∧
      (GridOperations.new.set_grid_size 46341).2 = .ok () ∧
      ¬ ∃ x, (self.encode m true input draws).2 = .raised x) := by
  constructor
  · intro hlen
    obtain ⟨hex, hsq⟩ := minimum_size_int_exact m.length hlen
    rcases encode_auto_cases self m hm hlen input draws with
      ⟨hsmall, hmin, henc⟩ | ⟨hbig, ⟨n, hn, hsq2⟩, henc⟩ | ⟨h2, h481, ⟨n, hn, g3, hsq2⟩, e, henc⟩
    · exact ⟨⟨fun _ => Or.inl hsmall, fun _ => ⟨_, henc⟩⟩,
        ⟨fun _ => ⟨1, by rw [hex, hmin], Or.inl (by decide)⟩, fun _ => Or.inl hsmall⟩,
        fun h => absurd (Or.inl hsmall) h⟩
    · exact ⟨⟨fun _ => Or.inr hbig, fun _ => ⟨_, henc⟩⟩,
        ⟨fun _ => ⟨n, by rw [hex, hn], Or.inr (by rw [(hsq n hn).2.2]; exact hsq2)⟩,
          fun _ => Or.inr hbig⟩,
        fun h => absurd (Or.inr hbig) h⟩
    · refine ⟨⟨fun ⟨x, hx⟩ => ?_, fun h => ?_⟩, ⟨fun h => ?_, fun ⟨k, hk, hk2⟩ => ?_⟩,
        fun _ => ⟨e, henc⟩⟩
      · rw [henc] at hx; exact absurd hx (by simp)
      · omega
      · omega
      · rw [hex, hn] at hk
        injection hk with hk
        subst hk
        rcases hk2 with hk2 | hk2
        · omega
        · rw [(hsq n hn).2.2] at hk2
          exact absurd hk2 hsq2
  · intro h1 h2
    have hmin := minimum_size_int_overflow m.length h1 h2
    obtain ⟨p1, _, p3, _, _⟩ := square_int_46341
    have hg : ¬ square_int 46341 > 999 := by rw [p3]; decide
    refine ⟨by omega, hmin, p1, p3, hg, ?_, fun ⟨x, hx⟩ => ?_⟩
    · rw [set_grid_size_ok _ 46341 (by decide) (by decide)]
    · have henc : self.encode m true input draws = self.encode_with_size m 46341 draws := by
        unfold EncoderDecoder.encode
        rw [hmin]
        simp only
        rw [if_neg hg]
        simp only [if_true]
      rw [henc] at hx
      exact encode_with_size_not_raised self m 46341 (by decide) (by decide) draws x hx

/-- C3 on the message of 1073651462 letters `A`, the shortest one whose sizing overflows:
`encode` raises no error. -/
theorem C3_encode_length_guard_witness :
    (∀ ch ∈ List.replicate 1073651462 'A', ch ≠ ' ') ∧
    1073651461 < (List.replicate 1073651462 'A').length ∧
    (List.replicate 1073651462 'A').length ≤ 2147483647 ∧
    481 < (List.replicate 1073651462 'A').length ∧
    minimum_size_int (List.replicate 1073651462 'A').length = some 46341 ∧
    (46341 : Int) * 46341 = 2147488281 ∧ square_int 46341 = -2147479015 ∧
    ¬ square_int 46341 > 999 ∧
    (GridOperations.new.set_grid_size 46341).2 = .ok () ∧
    ¬ ∃ x, (EncoderDecoder.new.encode (List.replicate 1073651462 'A') true
        { declare_custom := false, entries := [] } (fun _ => 0)).2 = .raised x :=
  have hm : ∀ ch ∈ List.replicate 1073651462 'A', ch ≠ ' ' := fun ch h => by
    rw [List.eq_of_mem_replicate h]; decide
  have h1 : 1073651461 < (List.replicate 1073651462 'A').length := by
    rw [List.length_replicate]; decide
  have h2 : (List.replicate 1073651462 'A').length ≤ 2147483647 := by
    rw [List.length_replicate]; decide
  ⟨hm, h1, h2, (C3_encode_length_guard_overflows EncoderDecoder.new (List.replicate 1073651462 'A') hm
    { declare_custom := false, entries := [] } (fun _ => 0)).2 h1 h2⟩

/-! ## What `encode` returns -/

theorem dump_index_inj (n : Int) (p q : Int × Int)
    (hp : in_grid n p.1 p.2 = true) (hq : in_grid n q.1 q.2 = true)
    (h : dump_index n p = dump_index n q) : p = q := by
  rw [in_grid_iff] at hp hq
  unfold dump_index at h
  have h1 : 0 ≤ p.1 * n + p.2 := by nlinarith
  have h2 : 0 ≤ q.1 * n + q.2 := by nlinarith
  have h3 : p.1 * n + p.2 = q.1 * n + q.2 := by omega
  have h4 : p.1 = q.1 := by
    rcases lt_trichotomy p.1 q.1 with hlt | heq | hgt
    · exfalso
      have : (p.1 + 1) * n ≤ q.1 * n := by nlinarith
      nlinarith
    · exact heq
    · exfalso
      have : (q.1 + 1) * n ≤ p.1 * n := by nlinarith
      nlinarith
  have h5 : p.2 = q.2 := by rw [h4] at h3; omega
  exact Prod.ext h4 h5

theorem dump_index_lt (n : Int) (r c : Int) (h : in_grid n r c = true) :
    ((dump_index n (r, c) : Nat) : Int) < n * n := by
  rw [in_grid_iff] at h
  unfold dump_index
  simp only
  have h1 : 0 ≤ r * n + c := by nlinarith
  have h2 : r * n + c < n * n := by nlinarith
  omega

/-- Every position of an `n × n` dump is the position of a cell of the grid. -/
theorem dump_index_surj (n : Int) (hn : 0 < n) (k : Nat) (hk : (k : Int) < n * n) :
    ∃ r c, in_grid n r c = true ∧ dump_index n (r, c) = k := by
  refine ⟨(k : Int) / n, (k : Int) % n, ?_, ?_⟩
  · rw [in_grid_iff]
    refine ⟨Int.ediv_nonneg (by omega) (by omega), ?_, Int.emod_nonneg _ (by omega),
      Int.emod_lt_of_pos _ hn⟩
    exact Int.ediv_lt_of_lt_mul hn hk
  · unfold dump_index
    simp only
    have : (k : Int) / n * n + (k : Int) % n = k := by
      rw [mul_comm]; exact Int.ediv_add_emod _ _
    omega

/-- Every character of the dump is what is emitted for some cell of the grid. -/
theorem get_encoded_message_mem (self : GridOperations) (draws : Nat → Fin 26)
    (hn : 0 < self.grid_size_) (ch : Char) (h : ch ∈ self.get_encoded_message draws) :
    ∃ r c, in_grid self.grid_size_ r c = true ∧ emitted self.grid_ draws r c ch := by
  obtain ⟨hlen, hcell⟩ := get_encoded_message_spec self draws (by omega)
  obtain ⟨k, hk, hget⟩ := List.getElem_of_mem h
  obtain ⟨r, c, hrc, hidx⟩ := dump_index_surj self.grid_size_ hn k (by rw [← hlen]; exact_mod_cast hk)
  obtain ⟨ch1, h1, h2⟩ := hcell r c hrc
  rw [hidx, List.getElem?_eq_getElem hk, hget] at h1
  injection h1 with h1
  rw [h1]
  exact ⟨r, c, hrc, h2⟩

/-- Everything the later theorems need about an `encode` call that goes through: the
dimension used, and a grid, the same for every generator and every prior state of the
object, whose dump is returned and which holds the message along the spiral path. -/
theorem encode_master (m : List Char) (hm : ∀ ch ∈ m, ch ≠ ' ') (h2 : 2 ≤ m.length)
    (h481 : m.length ≤ 481) (nmin n : Int) (hmin : minimum_size m.length = some nmin)
    (is_auto : Bool) (input : UserInput) (hsel : chosen_size nmin is_auto input = some n) :
    n % 2 = 1 ∧ nmin ≤ n ∧ n ≤ 31 ∧ 3 ≤ n ∧ (m.length : Int) ≤ decoded_length n ∧
    ∃ g : Grid,
      (∀ (self : EncoderDecoder) (draws : Nat → Fin 26),
        (self.encode m is_auto input draws).2 =
          .ok (({ grid_size_ := n, grid_ := g } : GridOperations).get_encoded_message draws)) ∧
      (∀ (i : Nat) (h1 : i < (spiral_path n m.length).length) (h2 : i < m.length),
        g (spiral_path n m.length)[i].1 (spiral_path n m.length)[i].2 = m[i]) ∧
      (∀ r c, in_grid n r c = true → (r, c) ∉ spiral_path n m.length → g r c = ' ') ∧
      (∀ r c, in_grid n r c = true → g r c ≠ ' ' → g r c ∈ m) := by
  obtain ⟨g3, g31, godd, gcap⟩ := minimum_size_bounds m.length h2 h481 nmin hmin
  obtain ⟨hodd, hle, h31⟩ := chosen_size_valid nmin godd g31 is_auto input n hsel
  have hcap : (m.length : Int) ≤ decoded_length n :=
    le_trans gcap (decoded_length_mono nmin n (by omega) hle)
  obtain ⟨ops1, hp, hs, f1, f2, f3⟩ := process_grid_encode n (by omega) h31 hodd m hm hcap
    { grid_size_ := n, grid_ := fun _ _ => Char.ofNat 0 } rfl
  refine ⟨hodd, hle, h31, by omega, hcap, ops1.grid_, fun self draws => ?_, f1, f2, f3⟩
  obtain ⟨ops2, hok, _, hp2⟩ := encode_with_size_ok self n (by omega) h31 hodd m hm hcap draws
  rw [hp] at hp2
  injection hp2 with hp2
  injection hp2 with hp2
  rw [encode_eq self m nmin n hmin (square_le_of_le_31 nmin g3 g31) is_auto input hsel draws,
    hok, ← hp2]
  have : ops1 = { grid_size_ := n, grid_ := ops1.grid_ } := by
    cases ops1; simp only at hs; rw [hs]
  rw [← this]

/-- C6: for a message without blanks of 2 to 481 characters and every grid size `encode` may
use (it is odd and lies between the minimum size and 31), the encoded string has exactly
`n * n` characters, each a letter `A`..`Z` or a character of the message, and none is a
blank. -/
theorem C6_encoded_length_and_alphabet (self : EncoderDecoder) (m : List Char)
    (hm : ∀ ch ∈ m, ch ≠ ' ') (h2 : 2 ≤ m.length) (h481 : m.length ≤ 481) (nmin n : Int)
    (hmin : minimum_size m.length = some nmin) (is_auto : Bool) (input : UserInput)
    (hsel : chosen_size nmin is_auto input = some n) (draws : Nat → Fin 26) :
    n % 2 = 1 ∧ nmin ≤ n ∧ n ≤ 31 ∧
    ∃ e, (self.encode m is_auto input draws).2 = .ok e ∧ (e.length : Int) = n * n ∧
      ∀ ch ∈ e, (('A' ≤ ch ∧ ch ≤ 'Z') ∨ ch ∈ m) ∧ ch ≠ ' ' := by
  obtain ⟨hodd, hle, h31, h3, _, g, henc, _, _, f3⟩ :=
    encode_master m hm h2 h481 nmin n hmin is_auto input hsel
  refine ⟨hodd, hle, h31, _, henc self draws, ?_, fun ch hch => ?_⟩
  · exact (get_encoded_message_spec { grid_size_ := n, grid_ := g } draws (by simp; omega)).1
  · obtain ⟨r, c, hrc, hem⟩ :=
      get_encoded_message_mem { grid_size_ := n, grid_ := g } draws (by simp; omega) ch hch
    unfold emitted at hem
    simp only at hrc hem
    split_ifs at hem with hb
    · obtain ⟨t, ht⟩ := hem
      rw [ht]
      exact ⟨Or.inl (filler_range _), filler_ne_blank _⟩
    · rw [hem]
      exact ⟨Or.inr (f3 r c hrc hb), hb⟩

set_option maxRecDepth 100000 in
/-- C6 on the message `HI` written into a 5 × 5 grid typed in by the user. -/
theorem C6_encoded_witness :
    (∀ ch ∈ ['H', 'I'], ch ≠ ' ') ∧ 2 ≤ (['H', 'I'] : List Char).length ∧
    (['H', 'I'] : List Char).length ≤ 481 ∧
    minimum_size (['H', 'I'] : List Char).length = some 3 ∧
    chosen_size 3 false { declare_custom := true, entries := [none, some 4, some 5] } = some 5 ∧
    ((5 : Int) % 2 = 1 ∧ (3 : Int) ≤ 5 ∧ (5 : Int) ≤ 31 ∧
    ∃ e, (EncoderDecoder.new.encode ['H', 'I'] false
        { declare_custom := true, entries := [none, some 4, some 5] } (fun _ => 0)).2 = .ok e ∧
      (e.length : Int) = 5 * 5 ∧
      ∀ ch ∈ e, (('A' ≤ ch ∧ ch ≤ 'Z') ∨ ch ∈ ['H', 'I']) ∧ ch ≠ ' ') :=
  ⟨by decide, by decide, by decide, by decide, by decide!,
    C6_encoded_length_and_alphabet EncoderDecoder.new ['H', 'I'] (by decide) (by decide)
      (by decide) 3 5 (by decide) false
      { declare_custom := true, entries := [none, some 4, some 5] } (by decide!) (fun _ => 0)⟩

/-! ## Counting the written cells -/

/-- When the cells that are not blank are exactly the cells of a duplicate-free list of
grid cells, there are as many of them as the list is long. -/
theorem non_blank_cells_card (n : Int) (g : Grid) (path : List (Int × Int))
    (hnd : path.Nodup) (hin : ∀ p ∈ path, in_grid n p.1 p.2 = true)
    (hiff : ∀ r c, in_grid n r c = true → (g r c ≠ ' ' ↔ (r, c) ∈ path)) :
    (non_blank_cells n.toNat g).card = path.length := by
  have himg : non_blank_cells n.toNat g =
      path.toFinset.image (fun p => (p.1.toNat, p.2.toNat)) := by
    ext ⟨i, j⟩
    simp only [non_blank_cells, Finset.mem_filter, Finset.mem_product, Finset.mem_range,
      Finset.mem_image, List.mem_toFinset, Prod.mk.injEq]
    constructor
    · rintro ⟨⟨hi, hj⟩, hne⟩
      have hg : in_grid n (i : Int) (j : Int) = true := by rw [in_grid_iff]; omega
      exact ⟨((i : Int), (j : Int)), (hiff _ _ hg).1 hne, by simp⟩
    · rintro ⟨p, hp, h1, h2⟩
      have hg := hin p hp
      rw [in_grid_iff] at hg
      have e1 : p.1 = (i : Int) := by omega
      have e2 : p.2 = (j : Int) := by omega
      refine ⟨⟨by omega, by omega⟩, ?_⟩
      have hg2 : in_grid n (i : Int) (j : Int) = true := by rw [in_grid_iff]; omega
      apply (hiff _ _ hg2).2
      rw [← e1, ← e2]
      exact hp
  rw [himg, Finset.card_image_of_injOn, List.toFinset_card_of_nodup hnd]
  intro p hp q hq hpq
  simp only [Finset.mem_coe, List.mem_toFinset] at hp hq
  have h1 := hin p hp
  have h2 := hin q hq
  rw [in_grid_iff] at h1 h2
  simp only [Prod.mk.injEq] at hpq
  exact Prod.ext (by omega) (by omega)

/-- C7 (no truncation up to capacity): for every odd `n` from 3 to 31 and every message
without blanks of at most `(n * n + 1) / 2` characters, the write traversal on an `n × n`
grid returns and stores character `i` in cell `i` of a list of pairwise distinct cells of
the grid, every other cell stays blank, and exactly `len(m)` cells are not blank. -/
theorem C7_write_traversal_stores_every_character (n : Int) (h3 : 3 ≤ n) (h31 : n ≤ 31)
    (hodd : n % 2 = 1) (m : List Char) (hm : ∀ ch ∈ m, ch ≠ ' ')
    (hlen : (m.length : Int) ≤ decoded_length n)
    (ops : GridOperations) (hsize : ops.grid_size_ = n) :
    ∃ (ops1 : GridOperations) (cells : List (Int × Int)),
      ops.process_grid m true = .ok (ops1, []) ∧
      cells.length = m.length ∧ cells.Nodup ∧ (∀ p ∈ cells, in_grid n p.1 p.2 = true) ∧
      (∀ (i : Nat) (h1 : i < cells.length) (h2 : i < m.length),
        ops1.grid_ cells[i].1 cells[i].2 = m[i]) ∧
      (∀ r c, in_grid n r c = true → (r, c) ∉ cells → ops1.grid_ r c = ' ') ∧
      (non_blank_cells n.toNat ops1.grid_).card = m.length := by
  obtain ⟨ops1, hp, _, f1, f2, _⟩ := process_grid_encode n h3 h31 hodd m hm hlen ops hsize
  obtain ⟨_, _, _, _, hl, hnd, hin, _⟩ := spiral_path_spec n h3 h31 hodd m.length hlen
  refine ⟨ops1, spiral_path n m.length, hp, hl, hnd, hin, f1, f2, ?_⟩
  rw [non_blank_cells_card n ops1.grid_ (spiral_path n m.length) hnd hin, hl]
  intro r c hrc
  constructor
  · intro hne
    by_contra hnot
    exact hne (f2 r c hrc hnot)
  · intro hmem
    obtain ⟨i, hi, hget⟩ := List.getElem_of_mem hmem
    have := f1 i hi (by rw [← hl]; exact hi)
    rw [hget] at this
    simp only at this
    rw [this]
    exact hm _ (List.getElem_mem _)

/-- C7 on the five-letter message `HELLO`, which fills the capacity of the 3 × 3 grid. -/
theorem C7_write_traversal_witness :
    (3 : Int) ≤ 3 ∧ (3 : Int) ≤ 31 ∧ (3 : Int) % 2 = 1 ∧
    (∀ ch ∈ ['H', 'E', 'L', 'L', 'O'], ch ≠ ' ') ∧
    ((['H', 'E', 'L', 'L', 'O'] : List Char).length : Int) ≤ decoded_length 3 ∧
    (GridOperations.set_grid_size GridOperations.new 3).1.grid_size_ = 3 ∧
    ∃ (ops1 : GridOperations) (cells : List (Int × Int)),
      (GridOperations.set_grid_size GridOperations.new 3).1.process_grid
        ['H', 'E', 'L', 'L', 'O'] true = .ok (ops1, []) ∧
      cells.length = (['H', 'E', 'L', 'L', 'O'] : List Char).length ∧ cells.Nodup ∧
      (∀ p ∈ cells, in_grid 3 p.1 p.2 = true) ∧
      (∀ (i : Nat) (h1 : i < cells.length)
          (h2 : i < (['H', 'E', 'L', 'L', 'O'] : List Char).length),
        ops1.grid_ cells[i].1 cells[i].2 = (['H', 'E', 'L', 'L', 'O'] : List Char)[i]) ∧
      (∀ r c, in_grid 3 r c = true → (r, c) ∉ cells → ops1.grid_ r c = ' ') ∧
      (non_blank_cells (3 : Int).toNat ops1.grid_).card =
        (['H', 'E', 'L', 'L', 'O'] : List Char).length :=
  ⟨by decide, by decide, by decide, by decide, by decide, by decide,
    C7_write_traversal_stores_every_character 3 (by decide) (by decide) (by decide)
      ['H', 'E', 'L', 'L', 'O'] (by decide) (by decide)
      (GridOperations.set_grid_size GridOperations.new 3).1 (by decide)⟩

/-- C9 (placement is independent of the filler draw): for a message without blanks of 2 to
481 characters, a grid size `encode` may use and two generators, the two encoded strings
hold character `i` of the message at the same position for every `i`, can differ only at
positions outside these, and those positions hold drawn letters in both. -/
theorem C9_placement_independent_of_filler (self1 self2 : EncoderDecoder) (m : List Char)
    (hm : ∀ ch ∈ m, ch ≠ ' ') (h2 : 2 ≤ m.length) (h481 : m.length ≤ 481) (nmin n : Int)
    (hmin : minimum_size m.length = some nmin) (is_auto : Bool) (input : UserInput)
    (hsel : chosen_size nmin is_auto input = some n) (draws1 draws2 : Nat → Fin 26) :
    ∃ (e1 e2 : List Char) (place : List Nat),
      (self1.encode m is_auto input draws1).2 = .ok e1 ∧
      (self2.encode m is_auto input draws2).2 = .ok e2 ∧
      place.length = m.length ∧ place.Nodup ∧
      (∀ (i : Nat) (h1 : i < place.length) (h2 : i < m.length),
        e1[place[i]]? = some m[i] ∧ e2[place[i]]? = some m[i]) ∧
      (∀ k, e1[k]? ≠ e2[k]? → k ∉ place) ∧
      (∀ k : Nat, (k : Int) < n * n → k ∉ place →
        ∃ t1 t2, e1[k]? = some (filler (draws1 t1)) ∧ e2[k]? = some (filler (draws2 t2))) := by
  obtain ⟨hodd, hle, h31, h3, hcap, g, henc, f1, f2, _⟩ :=
    encode_master m hm h2 h481 nmin n hmin is_auto input hsel
  obtain ⟨_, _, _, _, hl, hnd, hin, _⟩ := spiral_path_spec n h3 h31 hodd m.length hcap
  have hcell1 := (get_encoded_message_spec { grid_size_ := n, grid_ := g } draws1
    (by simp; omega)).2
  have hcell2 := (get_encoded_message_spec { grid_size_ := n, grid_ := g } draws2
    (by simp; omega)).2
  simp only at hcell1 hcell2
  have hplace : ∀ (i : Nat) (h1 : i < ((spiral_path n m.length).map (dump_index n)).length)
      (h2 : i < m.length),
      (({ grid_size_ := n, grid_ := g } : GridOperations).get_encoded_message draws1)[
          ((spiral_path n m.length).map (dump_index n))[i]]? = some m[i] ∧
      (({ grid_size_ := n, grid_ := g } : GridOperations).get_encoded_message draws2)[
          ((spiral_path n m.length).map (dump_index n))[i]]? = some m[i] := by
    intro i h1 h2
    have hi : i < (spiral_path n m.length).length := by simpa using h1
    have hg := f1 i hi h2
    have hgrid := hin _ (List.getElem_mem hi)
    have hne : g (spiral_path n m.length)[i].1 (spiral_path n m.length)[i].2 ≠ ' ' := by
      rw [hg]; exact hm _ (List.getElem_mem _)
    obtain ⟨c1, a1, b1⟩ := hcell1 _ _ hgrid
    obtain ⟨c2, a2, b2⟩ := hcell2 _ _ hgrid
    unfold emitted at b1 b2
    rw [if_neg hne] at b1 b2
    rw [List.getElem_map]
    exact ⟨by rw [a1, b1, hg], by rw [a2, b2, hg]⟩
  refine ⟨_, _, (spiral_path n m.length).map (dump_index n), henc self1 draws1,
    henc self2 draws2, by rw [List.length_map, hl], ?_, hplace, fun k hk hmem => ?_,
    fun k hk hnot => ?_⟩
  · rw [List.nodup_map_iff_inj_on hnd]
    intro p hp q hq hpq
    exact dump_index_inj n p q (hin p hp) (hin q hq) hpq
  · obtain ⟨i, hi, hget⟩ := List.getElem_of_mem hmem
    obtain ⟨a, b⟩ := hplace i hi (by rw [List.length_map, hl] at hi; exact hi)
    subst hget
    exact hk (by rw [a, b])
  · obtain ⟨r, c, hrc, hidx⟩ := dump_index_surj n (by omega) k hk
    have hblank : g r c = ' ' := by
      apply f2 r c hrc
      intro hmem
      apply hnot
      rw [← hidx]
      exact List.mem_map.2 ⟨(r, c), hmem, rfl⟩
    obtain ⟨c1, a1, b1⟩ := hcell1 r c hrc
    obtain ⟨c2, a2, b2⟩ := hcell2 r c hrc
    unfold emitted at b1 b2
    rw [if_pos hblank] at b1 b2
    obtain ⟨t1, ht1⟩ := b1
    obtain ⟨t2, ht2⟩ := b2
    rw [hidx] at a1 a2
    exact ⟨t1, t2, by rw [a1, ht1], by rw [a2, ht2]⟩

/-- C9 on the message `HI` encoded once with every draw `A` and once with every draw `B`. -/
theorem C9_placement_witness :
    (∀ ch ∈ ['H', 'I'], ch ≠ ' ') ∧ 2 ≤ (['H', 'I'] : List Char).length ∧
    (['H', 'I'] : List Char).length ≤ 481 ∧
    minimum_size (['H', 'I'] : List Char).length = some 3 ∧
    chosen_size 3 true { declare_custom := false, entries := [] } = some 3 ∧
    ∃ (e1 e2 : List Char) (place : List Nat),
      (EncoderDecoder.new.encode ['H', 'I'] true { declare_custom := false, entries := [] }
        (fun _ => 0)).2 = .ok e1 ∧
      (EncoderDecoder.new.encode ['H', 'I'] true { declare_custom := false, entries := [] }
        (fun _ => 1)).2 = .ok e2 ∧
      place.length = (['H', 'I'] : List Char).length ∧ place.Nodup ∧
      (∀ (i : Nat) (h1 : i < place.length) (h2 : i < (['H', 'I'] : List Char).length),
        e1[place[i]]? = some (['H', 'I'] : List Char)[i] ∧
        e2[place[i]]? = some (['H', 'I'] : List Char)[i]) ∧
      (∀ k, e1[k]? ≠ e2[k]? → k ∉ place) ∧
      (∀ k : Nat, (k : Int) < 3 * 3 → k ∉ place →
        ∃ t1 t2, e1[k]? = some (filler ((fun _ => 0 : Nat → Fin 26) t1)) ∧
          e2[k]? = some (filler ((fun _ => 1 : Nat → Fin 26) t2))) :=
  ⟨by decide, by decide, by decide, by decide, by decide,
    C9_placement_independent_of_filler EncoderDecoder.new EncoderDecoder.new ['H', 'I']
      (by decide) (by decide) (by decide) 3 3 (by decide) true
      { declare_custom := false, entries := [] } (by decide) (fun _ => 0) (fun _ => 1)⟩

/-! ## What `decode` returns -/

theorem floor_sqrt_le_31 (len : Nat) (h : len ≤ 999) : floor_sqrt len ≤ 31 := by
  have := ((floor_sqrt_iff len (floor_sqrt len)).1 rfl).1
  by_contra hcon
  have : 32 ≤ floor_sqrt len := by omega
  nlinarith

/-- On a string without the mark whose length has an odd integer square root of at least
three and does not exceed 999, `decode` returns the characters found along the whole spiral
path of the grid loaded with the string. -/
theorem decode_master (self : EncoderDecoder) (e : List Char) (he : ∀ ch ∈ e, ch ≠ '~')
    (hodd : floor_sqrt e.length % 2 = 1) (h3 : 3 ≤ floor_sqrt e.length)
    (h999 : e.length ≤ 999) :
    (self.decode e).2 =
      .ok ((spiral_path (floor_sqrt e.length : Nat)
          (decoded_length (floor_sqrt e.length : Nat)).toNat).map
        fun p => e.getD (dump_index (floor_sqrt e.length : Nat) p) (Char.ofNat 0)) := by
  have h31 := floor_sqrt_le_31 e.length h999
  have hsq := ((floor_sqrt_iff e.length (floor_sqrt e.length)).1 rfl).1
  obtain ⟨ops1, hp⟩ := process_grid_decode (floor_sqrt e.length : Nat) (by omega) (by omega)
    (by omega) e he (by exact_mod_cast hsq)
    { grid_size_ := (floor_sqrt e.length : Nat), grid_ := fun _ _ => Char.ofNat 0 } rfl
  unfold EncoderDecoder.decode
  simp only
  rw [if_neg (by simp only [is_even, beq_iff_eq]; omega), if_neg (by omega),
    set_grid_size_ok _ _ (by omega) (by omega)]
  simp only
  rw [hp]

theorem decode_even (self : EncoderDecoder) (e : List Char)
    (h : floor_sqrt e.length % 2 = 0) :
    (self.decode e).2 = .raised .odd_square_number := by
  unfold EncoderDecoder.decode
  simp only
  rw [if_pos (by simp only [is_even, beq_iff_eq]; omega)]

theorem decode_long (self : EncoderDecoder) (e : List Char) (h : 999 < e.length) :
    ∃ x, (self.decode e).2 = .raised x := by
  unfold EncoderDecoder.decode
  simp only
  split_ifs with h1
  · exact ⟨_, rfl⟩
  · exact ⟨_, rfl⟩

theorem decode_small (self : EncoderDecoder) (e : List Char) (h : floor_sqrt e.length < 3) :
    ∃ x, (self.decode e).2 = .raised x := by
  unfold EncoderDecoder.decode
  simp only
  split_ifs with h1 h2
  · exact ⟨_, rfl⟩
  · exact ⟨_, rfl⟩
  · unfold GridOperations.set_grid_size
    rw [if_pos (by omega)]
    exact ⟨_, rfl⟩

/-- The three guards of `decode`: an even square root, a square root below three, a length
above 999. -/
theorem decode_rejects (self : EncoderDecoder) (e : List Char)
    (h : floor_sqrt e.length % 2 = 0 ∨ floor_sqrt e.length < 3 ∨ 999 < e.length) :
    ∃ x, (self.decode e).2 = .raised x := by
  rcases h with h | h | h
  · exact ⟨_, decode_even self e h⟩
  · exact decode_small self e h
  · exact decode_long self e h

/-- C4: `decode` raises an error on every string of length 100 and of length 1000; on a
string without `~` it raises an error exactly when `floor(sqrt(len))` is even or below 3 or
`len > 999`, returns a string otherwise, and so accepts every such string of length 961. -/
theorem C4_decode_error_iff (self : EncoderDecoder) (e : List Char) :
    (e.length = 100 → ∃ x, (self.decode e).2 = .raised x) ∧
    (e.length = 1000 → ∃ x, (self.decode e).2 = .raised x) ∧
    ((∀ ch ∈ e, ch ≠ '~') →
      ((∃ x, (self.decode e).2 = .raised x) ↔
        (floor_sqrt e.length % 2 = 0 ∨ floor_sqrt e.length < 3 ∨ 999 < e.length)) ∧
      (¬ (floor_sqrt e.length % 2 = 0 ∨ floor_sqrt e.length < 3 ∨ 999 < e.length) →
        ∃ d, (self.decode e).2 = .ok d) ∧
      (e.length = 961 → ∃ d, (self.decode e).2 = .ok d)) := by
  have hcases := decode_rejects self e
  refine ⟨fun h => hcases (Or.inl ?_), fun h => hcases (Or.inr (Or.inr (by omega))),
    fun he => ?_⟩
  · rw [h, (floor_sqrt_iff 100 10).2 (by decide)]
  · have hok : ¬ (floor_sqrt e.length % 2 = 0 ∨ floor_sqrt e.length < 3 ∨ 999 < e.length) →
        ∃ d, (self.decode e).2 = .ok d := by
      intro hn
      push_neg at hn
      exact ⟨_, decode_master self e he (by omega) (by omega) (by omega)⟩
    refine ⟨⟨fun ⟨x, hx⟩ => ?_, hcases⟩, hok, fun h => hok ?_⟩
    · by_contra hn
      obtain ⟨d, hd⟩ := hok hn
      rw [hd] at hx
      exact absurd hx (by simp)
    · rw [h, (floor_sqrt_iff 961 31).2 (by decide)]
      decide

/-- C4 on the nine-letter string `ABCDEFGHI`. -/
theorem C4_decode_error_witness :
    (∀ ch ∈ ['A', 'B', 'C', 'D', 'E', 'F', 'G', 'H', 'I'], ch ≠ '~') ∧
    ((∃ x, (EncoderDecoder.new.decode ['A', 'B', 'C', 'D', 'E', 'F', 'G', 'H', 'I']).2
        = .raised x) ↔
      (floor_sqrt (['A', 'B', 'C', 'D', 'E', 'F', 'G', 'H', 'I'] : List Char).length % 2 = 0 ∨
        floor_sqrt (['A', 'B', 'C', 'D', 'E', 'F', 'G', 'H', 'I'] : List Char).length < 3 ∨
        999 < (['A', 'B', 'C', 'D', 'E', 'F', 'G', 'H', 'I'] : List Char).length)) :=
  ⟨by decide,
    ((C4_decode_error_iff EncoderDecoder.new
      ['A', 'B', 'C', 'D', 'E', 'F', 'G', 'H', 'I']).2.2 (by decide)).1⟩

/-- C5: the ten-character string `ABCDEFGHIJ`, whose length is not the square of any
integer, is not rejected: `decode` loads its first nine characters into a 3 × 3 grid and
returns `DBFHE`. -/
theorem C5_decode_accepts_length_ten :
    (∀ k : Nat, k * k ≠ (['A', 'B', 'C', 'D', 'E', 'F', 'G', 'H', 'I', 'J'] : List Char).length) ∧
    (EncoderDecoder.new.decode ['A', 'B', 'C', 'D', 'E', 'F', 'G', 'H', 'I', 'J']).2 =
      .ok ['D', 'B', 'F', 'H', 'E'] := by
  constructor
  · intro k hk
    simp only [List.length_cons, List.length_nil] at hk
    have : k ≤ 3 := by nlinarith
    interval_cases k <;> omega
  · decide

/-- C8: when `decode` accepts a string without `~`, the decoded string has exactly
`(n * n + 1) / 2` characters, `n` being `floor(sqrt(len))`. -/
theorem C8_decoded_length (self : EncoderDecoder) (e d : List Char)
    (he : ∀ ch ∈ e, ch ≠ '~') (hacc : (self.decode e).2 = .ok d) :
    (d.length : Int) = decoded_length (floor_sqrt e.length : Nat) := by
  have hn : ¬ (floor_sqrt e.length % 2 = 0 ∨ floor_sqrt e.length < 3 ∨ 999 < e.length) := by
    intro h
    obtain ⟨x, hx⟩ := decode_rejects self e h
    rw [hx] at hacc
    exact absurd hacc (by simp)
  push_neg at hn
  rw [decode_master self e he (by omega) (by omega) (by omega)] at hacc
  injection hacc with hacc
  have h31 := floor_sqrt_le_31 e.length (by omega)
  obtain ⟨_, _, _, _, hl, _⟩ := spiral_path_spec (floor_sqrt e.length : Nat) (by omega)
    (by omega) (by omega) (decoded_length (floor_sqrt e.length : Nat)).toNat
    (by have := decoded_length_nonneg (floor_sqrt e.length : Nat); omega)
  rw [← hacc, List.length_map, hl]
  have := decoded_length_nonneg (floor_sqrt e.length : Nat)
  omega

/-- C8 on the nine-letter string `ABCDEFGHI`, decoded to the five letters `DBFHE`. -/
theorem C8_decoded_length_witness :
    (∀ ch ∈ ['A', 'B', 'C', 'D', 'E', 'F', 'G', 'H', 'I'], ch ≠ '~') ∧
    (EncoderDecoder.new.decode ['A', 'B', 'C', 'D', 'E', 'F', 'G', 'H', 'I']).2 =
      .ok ['D', 'B', 'F', 'H', 'E'] ∧
    ((['D', 'B', 'F', 'H', 'E'] : List Char).length : Int) =
      decoded_length (floor_sqrt (['A', 'B', 'C', 'D', 'E', 'F', 'G', 'H', 'I'] : List Char).length
        : Nat) :=
  ⟨by decide, by decide,
    C8_decoded_length EncoderDecoder.new ['A', 'B', 'C', 'D', 'E', 'F', 'G', 'H', 'I']
      ['D', 'B', 'F', 'H', 'E'] (by decide) (by decide)⟩

/-! ## Round trip -/

/-- The dump of a grid that holds the message along a list of cells shows character `i` of
the message at the position of cell `i`. -/
theorem dump_at_cells (n : Int) (hn : 0 ≤ n) (g : Grid) (draws : Nat → Fin 26) (m : List Char)
    (hm : ∀ ch ∈ m, ch ≠ ' ') (cells : List (Int × Int))
    (hin : ∀ p ∈ cells, in_grid n p.1 p.2 = true)
    (f1 : ∀ (i : Nat) (h1 : i < cells.length) (h2 : i < m.length),
      g cells[i].1 cells[i].2 = m[i])
    (i : Nat) (h1 : i < cells.length) (h2 : i < m.length) :
    (({ grid_size_ := n, grid_ := g } : GridOperations).get_encoded_message draws)[
      dump_index n cells[i]]? = some m[i] := by
  have hcell := (get_encoded_message_spec { grid_size_ := n, grid_ := g } draws hn).2
  simp only at hcell
  obtain ⟨ch, a, b⟩ := hcell _ _ (hin _ (List.getElem_mem h1))
  have hg := f1 i h1 h2
  have hne : g cells[i].1 cells[i].2 ≠ ' ' := by rw [hg]; exact hm _ (List.getElem_mem _)
  unfold emitted at b
  rw [if_neg hne] at b
  rw [a, b, hg]

theorem eq_iff_length_of_take (d m : List Char) (h : d.take m.length = m) :
    d = m ↔ d.length = m.length := by
  constructor
  · intro hd; rw [hd]
  · intro hd
    rw [← hd, List.take_length] at h
    exact h

/-- C1, amended (round trip up to the filler): for every message of 2 to 481 characters
without blank and without `~` and every filler draw, auto-sized `encode` succeeds, `decode`
succeeds on the result and returns `(n * n + 1) / 2` characters, `n` being the minimum grid
size, the first `len(m)` of which are the message; the decoded string equals the message
exactly when `len(m) = (n * n + 1) / 2`. -/
theorem C1_round_trip_up_to_filler (self self1 : EncoderDecoder) (m : List Char)
    (hb : ∀ ch ∈ m, ch ≠ ' ') (ht : ∀ ch ∈ m, ch ≠ '~') (h2 : 2 ≤ m.length)
    (h481 : m.length ≤ 481) (input : UserInput) (draws : Nat → Fin 26) :
    ∃ (n : Int) (e d : List Char), minimum_size m.length = some n ∧
      (self.encode m true input draws).2 = .ok e ∧ (self1.decode e).2 = .ok d ∧
      (d.length : Int) = decoded_length n ∧ d.take m.length = m ∧
      (d = m ↔ (m.length : Int) = decoded_length n) := by
  obtain ⟨n, hmin, _⟩ := minimum_size_spec m.length h2
  obtain ⟨hodd, _, h31, h3, hcap, g, henc, f1, f2, f3⟩ :=
    encode_master m hb h2 h481 n n hmin true input (by simp [chosen_size])
  obtain ⟨_, _, _, _, hl, hnd, hin, htake⟩ := spiral_path_spec n h3 h31 hodd m.length hcap
  have hcap0 := decoded_length_nonneg n
  obtain ⟨_, _, _, _, hlc, _, hinc, _⟩ :=
    spiral_path_spec n h3 h31 hodd (decoded_length n).toNat (by omega)
  have hspec := get_encoded_message_spec { grid_size_ := n, grid_ := g } draws
    (by simp only; omega)
  simp only at hspec
  obtain ⟨hlen, _⟩ := hspec
  -- the dump has `n * n` characters, so `decode` finds the dimension `n` again
  have hfs : ((floor_sqrt
      (({ grid_size_ := n, grid_ := g } : GridOperations).get_encoded_message draws).length
        : Nat) : Int) = n := by
    have h1 : (({ grid_size_ := n, grid_ := g } : GridOperations).get_encoded_message
        draws).length = n.toNat * n.toNat := by
      have : ((n.toNat * n.toNat : Nat) : Int) = n * n := by
        push_cast; rw [Int.toNat_of_nonneg (by omega)]
      omega
    rw [h1, floor_sqrt_sq]
    omega
  -- no character of the dump is the mark
  have he : ∀ ch ∈ ({ grid_size_ := n, grid_ := g } : GridOperations).get_encoded_message draws,
      ch ≠ '~' := by
    intro ch hch
    obtain ⟨r, c, hrc, hem⟩ :=
      get_encoded_message_mem { grid_size_ := n, grid_ := g } draws (by simp only; omega) ch hch
    unfold emitted at hem
    simp only at hrc hem
    split_ifs at hem with hblank
    · obtain ⟨t, ht1⟩ := hem
      rw [ht1]; exact filler_ne_mark _
    · rw [hem]; exact ht _ (f3 r c hrc hblank)
  have hdec := decode_master self1 _ he (by omega) (by omega)
    (by
      have : n * n ≤ 31 * 31 := by nlinarith
      omega)
  rw [hfs] at hdec
  have hdlen : (((spiral_path n (decoded_length n).toNat).map fun p =>
      (({ grid_size_ := n, grid_ := g } : GridOperations).get_encoded_message draws).getD
        (dump_index n p) (Char.ofNat 0)).length : Int) = decoded_length n := by
    rw [List.length_map, hlc]; omega
  have hdtake : ((spiral_path n (decoded_length n).toNat).map fun p =>
      (({ grid_size_ := n, grid_ := g } : GridOperations).get_encoded_message draws).getD
        (dump_index n p) (Char.ofNat 0)).take m.length = m := by
    apply List.ext_getElem
    · rw [List.length_take, List.length_map, hlc]
      have : m.length ≤ (decoded_length n).toNat := by omega
      omega
    · intro i h1 hi
      rw [List.getElem_take, List.getElem_map]
      have hi1 : i < (spiral_path n m.length).length := by rw [hl]; exact hi
      have hi2 : i < (spiral_path n (decoded_length n).toNat).length := by rw [hlc]; omega
      have hpi : (spiral_path n (decoded_length n).toNat)[i] = (spiral_path n m.length)[i] := by
        simp only [htake, List.getElem_take]
      rw [hpi]
      have := dump_at_cells n (by omega) g draws m hb (spiral_path n m.length) hin f1 i hi1 hi
      rw [List.getD_eq_getElem?_getD, this]
      rfl
  exact ⟨n, _, _, hmin, henc self draws, hdec, hdlen, hdtake,
    (eq_iff_length_of_take _ m hdtake).trans
      ⟨fun h => by rw [← hdlen]; exact_mod_cast h.symm,
        fun h => by have := hdlen.trans h.symm; exact_mod_cast this⟩⟩

/-- C1, amended, on the message `12`. -/
theorem C1_round_trip_witness :
    (∀ ch ∈ ['1', '2'], ch ≠ ' ') ∧ (∀ ch ∈ ['1', '2'], ch ≠ '~') ∧
    2 ≤ (['1', '2'] : List Char).length ∧ (['1', '2'] : List Char).length ≤ 481 ∧
    ∃ (n : Int) (e d : List Char), minimum_size (['1', '2'] : List Char).length = some n ∧
      (EncoderDecoder.new.encode ['1', '2'] true { declare_custom := false, entries := [] }
        (fun _ => 0)).2 = .ok e ∧
      (EncoderDecoder.new.decode e).2 = .ok d ∧
      (d.length : Int) = decoded_length n ∧ d.take (['1', '2'] : List Char).length = ['1', '2'] ∧
      (d = ['1', '2'] ↔ ((['1', '2'] : List Char).length : Int) = decoded_length n) :=
  ⟨by decide, by decide, by decide, by decide,
    C1_round_trip_up_to_filler EncoderDecoder.new EncoderDecoder.new ['1', '2'] (by decide)
      (by decide) (by decide) (by decide) { declare_custom := false, entries := [] }
      (fun _ => 0)⟩

set_option maxRecDepth 100000 in
/-- C1 as stated fails twice, on messages of digits (no letter, blank or `~`): the message
`12`, encoded with every draw `A`, decodes to the five characters `12AAA`, and auto-sized
`encode` raises an error on a message of 482 digits `7`, a length within the claimed
range. -/
theorem C1_round_trip_counterexample :
    (EncoderDecoder.new.encode ['1', '2'] true { declare_custom := false, entries := [] }
        (fun _ => 0)).2 = .ok ['A', '2', 'A', '1', 'A', 'A', 'A', 'A', 'A'] ∧
    (EncoderDecoder.new.decode ['A', '2', 'A', '1', 'A', 'A', 'A', 'A', 'A']).2 =
      .ok ['1', '2', 'A', 'A', 'A'] ∧
    (['1', '2', 'A', 'A', 'A'] : List Char) ≠ ['1', '2'] ∧
    2 ≤ (List.replicate 482 '7').length ∧ (List.replicate 482 '7').length ≤ 960 ∧
    (EncoderDecoder.new.encode (List.replicate 482 '7') true
        { declare_custom := false, entries := [] } (fun _ => 0)).2 =
      .raised .length_below_1000 := by
  refine ⟨by decide, by decide, by decide, by decide!, by decide!, by decide!⟩

/-- Every odd dimension between the minimum and 31 is one `encode` may use: it is what the
prompt returns when the user asks for a custom size and types it. -/
theorem chosen_size_custom (min_size n : Int) (hodd : n % 2 = 1) (hle : min_size ≤ n)
    (h31 : n ≤ 31) :
    chosen_size min_size false { declare_custom := true, entries := [some n] } = some n := by
  unfold chosen_size prompt_grid_size prompt_entries
  simp only [Bool.false_eq_true, if_false, Bool.not_true]
  rw [if_neg]
  simp only [Bool.or_eq_true, decide_eq_true_eq, not_or, not_lt, global_max_size_eq, is_even,
    beq_iff_eq]
  omega

/-- What `encode` returns does not depend on the state the object was left in. -/
theorem encode_snd_indep (self self1 : EncoderDecoder) (m : List Char) (is_auto : Bool)
    (input : UserInput) (draws : Nat → Fin 26) :
    (self.encode m is_auto input draws).2 = (self1.encode m is_auto input draws).2 := by
  have hsize : ∀ size : Int, (self.encode_with_size m size draws).2 =
      (self1.encode_with_size m size draws).2 := by
    intro size
    unfold EncoderDecoder.encode_with_size GridOperations.set_grid_size
    split_ifs <;> rfl
  unfold EncoderDecoder.encode
  cases minimum_size_int m.length with
  | none => rfl
  | some min_size =>
    simp only
    split_ifs
    · rfl
    · exact hsize _
    · cases prompt_grid_size min_size input with
      | none => rfl
      | some size => exact hsize _

/-! ## Batch encoding -/

theorem encode_all_loop_cons (draws : Nat → Nat → Fin 26) (message : List Char)
    (rest : List (List Char)) (k : Nat) (self : EncoderDecoder) (results : List (List Char)) :
    encode_all_loop draws (message :: rest) k self results =
      if message = [] then encode_all_loop draws rest (k + 1) self (results ++ [[]])
      else
        match self.encode message true { declare_custom := false, entries := [] } (draws k) with
        | (self1, .ok encoded) => encode_all_loop draws rest (k + 1) self1 (results ++ [encoded])
        | (self1, .raised _) =>
          encode_all_loop draws rest (k + 1) self1 (results ++ [encode_failure_tag ++ message])
        | (self1, .out_of_bounds) => (self1, .out_of_bounds)
        | (self1, .no_return) => (self1, .no_return) := by
  rw [encode_all_loop]

/-- On lines without blanks, none of them long enough for the sizing to overflow `int`, the
loop of `encode_all_messages` adds one entry per line, in order: nothing for an empty line,
the encoded string when `encode` returns one, and the line behind `FE::` when `encode`
throws. -/
theorem encode_all_loop_blank_free (draws : Nat → Nat → Fin 26) :
    ∀ (messages : List (List Char)), (∀ line ∈ messages, ∀ ch ∈ line, ch ≠ ' ') →
    (∀ line ∈ messages, line.length ≤ 1073651461) →
    ∀ (k : Nat) (self : EncoderDecoder) (results : List (List Char)),
    ∃ (st : EncoderDecoder) (out : List (List Char)),
      encode_all_loop draws messages k self results = (st, .ok (results ++ out)) ∧
      out.length = messages.length ∧
      ∀ (i : Nat) (h1 : i < messages.length) (h2 : i < out.length),
        (messages[i] = [] → out[i] = []) ∧
        (messages[i] ≠ [] →
          (∀ e, (EncoderDecoder.new.encode messages[i] true
              { declare_custom := false, entries := [] } (draws (k + i))).2 = .ok e →
            out[i] = e) ∧
          (∀ x, (EncoderDecoder.new.encode messages[i] true
              { declare_custom := false, entries := [] } (draws (k + i))).2 = .raised x →
            out[i] = encode_failure_tag ++ messages[i])) := by
  intro messages
  induction messages with
  | nil =>
    intro _ _ k self results
    exact ⟨self, [], by simp [encode_all_loop], rfl, fun i h1 => absurd h1 (by simp)⟩
  | cons line rest ih =>
    intro hbf hlens k self results
    have hrest : ∀ l ∈ rest, ∀ ch ∈ l, ch ≠ ' ' := fun l hl => hbf l (List.mem_cons_of_mem _ hl)
    have hline : ∀ ch ∈ line, ch ≠ ' ' := hbf line (List.mem_cons_self _ _)
    have hlen1 : line.length ≤ 1073651461 := hlens line (List.mem_cons_self _ _)
    -- the entry for the first line and the state after it
    have hfirst : ∃ (st1 : EncoderDecoder) (entry : List Char),
        encode_all_loop draws (line :: rest) k self results =
          encode_all_loop draws rest (k + 1) st1 (results ++ [entry]) ∧
        (line = [] → entry = []) ∧
        (line ≠ [] →
          (∀ e, (EncoderDecoder.new.encode line true
              { declare_custom := false, entries := [] } (draws k)).2 = .ok e → entry = e) ∧
          (∀ x, (EncoderDecoder.new.encode line true
              { declare_custom := false, entries := [] } (draws k)).2 = .raised x →
            entry = encode_failure_tag ++ line)) := by
      by_cases hempty : line = []
      · refine ⟨self, [], ?_, fun _ => rfl, fun h => absurd hempty h⟩
        rw [encode_all_loop_cons, if_pos hempty]
      · have hind := encode_snd_indep self EncoderDecoder.new line true
          { declare_custom := false, entries := [] } (draws k)
        rcases encode_auto_cases self line hline hlen1
            { declare_custom := false, entries := [] } (draws k) with ⟨_, _, henc⟩ | ⟨_, _, henc⟩ | ⟨_, _, _, e, henc⟩
        · refine ⟨(self.encode line true { declare_custom := false, entries := [] }
              (draws k)).1, encode_failure_tag ++ line, ?_, fun h => absurd h hempty,
            fun _ => ⟨fun e he => ?_, fun _ _ => rfl⟩⟩
          · rw [encode_all_loop_cons, if_neg hempty]
            generalize self.encode line true { declare_custom := false, entries := [] }
              (draws k) = r at henc
            obtain ⟨r1, r2⟩ := r
            simp only at henc
            subst henc
            rfl
          · rw [← hind, henc] at he; exact absurd he (by simp)
        · refine ⟨(self.encode line true { declare_custom := false, entries := [] }
              (draws k)).1, encode_failure_tag ++ line, ?_, fun h => absurd h hempty,
            fun _ => ⟨fun e he => ?_, fun _ _ => rfl⟩⟩
          · rw [encode_all_loop_cons, if_neg hempty]
            generalize self.encode line true { declare_custom := false, entries := [] }
              (draws k) = r at henc
            obtain ⟨r1, r2⟩ := r
            simp only at henc
            subst henc
            rfl
          · rw [← hind, henc] at he; exact absurd he (by simp)
        · refine ⟨(self.encode line true { declare_custom := false, entries := [] }
              (draws k)).1, e, ?_, fun h => absurd h hempty,
            fun _ => ⟨fun e1 he => ?_, fun x hx => ?_⟩⟩
          · rw [encode_all_loop_cons, if_neg hempty]
            generalize self.encode line true { declare_custom := false, entries := [] }
              (draws k) = r at henc
            obtain ⟨r1, r2⟩ := r
            simp only at henc
            subst henc
            rfl
          · rw [← hind, henc] at he
            injection he with he
          · rw [← hind, henc] at hx; exact absurd hx (by simp)
    obtain ⟨st1, entry, hstep, hentry1, hentry2⟩ := hfirst
    obtain ⟨st, out, hloop, hlen, hout⟩ := ih hrest
      (fun l hl => hlens l (List.mem_cons_of_mem _ hl)) (k + 1) st1 (results ++ [entry])
    refine ⟨st, entry :: out, ?_, by simp [hlen], fun i h1 h2 => ?_⟩
    · rw [hstep, hloop, List.append_assoc]; rfl
    · cases i with
      | zero => exact ⟨hentry1, hentry2⟩
      | succ j =>
        have := hout j (by simpa using h1) (by simpa using h2)
        simp only [List.getElem_cons_succ]
        have hk : k + (j + 1) = k + 1 + j := by omega
        rw [hk]
        exact this

/-- On every list of lines without blanks, none of them long enough for the sizing to
overflow `int`, `encode_all_messages` builds a result list with one entry per line, in
order: the empty string for an empty line, the line behind `FE::` when auto-sized `encode`
throws on it, and the encoded string otherwise. -/
theorem encode_all_messages_blank_free (self : EncoderDecoder) (messages : List (List Char))
    (hbf : ∀ line ∈ messages, ∀ ch ∈ line, ch ≠ ' ')
    (hlens : ∀ line ∈ messages, line.length ≤ 1073651461) (draws : Nat → Nat → Fin 26) :
    ∃ results : List (List Char),
      (encode_all_messages self messages draws).2 = .ok results ∧
      results.length = messages.length ∧
      ∀ (i : Nat) (h1 : i < messages.length) (h2 : i < results.length),
        (messages[i] = [] → results[i] = []) ∧
        (messages[i] ≠ [] →
          (∀ e, (EncoderDecoder.new.encode messages[i] true
              { declare_custom := false, entries := [] } (draws i)).2 = .ok e →
            results[i] = e) ∧
          (∀ x, (EncoderDecoder.new.encode messages[i] true
              { declare_custom := false, entries := [] } (draws i)).2 = .raised x →
            results[i] = encode_failure_tag ++ messages[i])) := by
  obtain ⟨st, out, hloop, hlen, hout⟩ :=
    encode_all_loop_blank_free draws messages hbf hlens 0 self []
  refine ⟨out, ?_, hlen, fun i h1 h2 => ?_⟩
  · unfold encode_all_messages
    rw [hloop]
    rfl
  · have := hout i h1 h2
    simp only [Nat.zero_add] at this
    exact this

/-- C10: the list `["HELLO", "", "A"]` is turned into a nine-character dump, the empty
string and `FE::A`, but on the single line ` ABCD`, which starts with a blank, the write
traversal reads `grid_[0][-1]`, outside the grid, and no result list is produced. -/
theorem C10_encode_all_leaves_grid_on_leading_blank :
    (encode_all_messages EncoderDecoder.new [['H', 'E', 'L', 'L', 'O'], [], ['A']]
        (fun _ _ => 0)).2 =
      .ok [['A', 'E', 'A', 'H', 'O', 'L', 'A', 'L', 'A'], [], ['F', 'E', ':', ':', 'A']] ∧
    (encode_all_messages EncoderDecoder.new [[' ', 'A', 'B', 'C', 'D']] (fun _ _ => 0)).2 =
      .out_of_bounds ∧
    (EncoderDecoder.new.encode [' ', 'A', 'B', 'C', 'D'] true
        { declare_custom := false, entries := [] } (fun _ => 0)).2 = .out_of_bounds := by
  refine ⟨by decide, by decide, by decide⟩

/-! ## Claims about the minimum size and the size validation -/

/-- The minimum dimension for any length: it exists, is odd, holds the message, is 1 for
lengths 0 and 1 and is otherwise the least odd dimension of at least 3 that holds it. -/
theorem minimum_size_total (len : Nat) :
    ∃ n : Int, minimum_size len = some n ∧ n % 2 = 1 ∧ 1 ≤ n ∧
      (len : Int) ≤ decoded_length n ∧ (len < 2 → n = 1) ∧ (2 ≤ len → 3 ≤ n) ∧
      (2 ≤ len → ∀ k : Int, 3 ≤ k → k % 2 = 1 → (len : Int) ≤ decoded_length k → n ≤ k) := by
  rcases Nat.lt_or_ge len 2 with h | h
  · have hc : len = 0 ∨ len = 1 := by omega
    rcases hc with h0 | h1
    · subst h0
      exact ⟨1, minimum_size_zero, by decide, by decide, by decide, fun _ => rfl,
        fun h2 => absurd h2 (by decide), fun h2 => absurd h2 (by decide)⟩
    · subst h1
      exact ⟨1, minimum_size_one, by decide, by decide, by decide, fun _ => rfl,
        fun h2 => absurd h2 (by decide), fun h2 => absurd h2 (by decide)⟩
  · obtain ⟨n, hn, g3, godd, gcap, gleast⟩ := minimum_size_spec len h
    exact ⟨n, hn, godd, by omega, gcap, fun h2 => absurd h (by omega), fun _ => g3,
      fun _ => gleast⟩

/-! ## The sizing loop in `int` arithmetic, for any length -/

theorem wrap_int_parity (x : Int) : wrap_int x % 2 = x % 2 := by
  unfold wrap_int; omega

/-- The loop steps by two, also across a wrap-around: its result has the parity of its
start. -/
theorem min_size_loop_int_parity (len : Nat) : ∀ (fuel : Nat) (x n : Int),
    min_size_loop_int len fuel x = some n → n % 2 = x % 2 := by
  intro fuel
  induction fuel with
  | zero => intro x n h; simp [min_size_loop_int] at h
  | succ f ih =>
    intro x n h
    unfold min_size_loop_int at h
    split_ifs at h with hc
    · have h1 := ih _ n h
      have h2 := wrap_int_parity (x + 2)
      omega
    · injection h with h; rw [h]

/-- The loop stops on a dimension that fails the test of line 228. -/
theorem min_size_loop_int_exit (len : Nat) : ∀ (fuel : Nat) (x n : Int),
    min_size_loop_int len fuel x = some n → ¬ len > to_size_t (decoded_length_int n) := by
  intro fuel
  induction fuel with
  | zero => intro x n h; simp [min_size_loop_int] at h
  | succ f ih =>
    intro x n h
    unfold min_size_loop_int at h
    split_ifs at h with hc
    · exact ih _ n h
    · injection h with h; rw [← h]; exact hc

/-- Every dimension the loop steps over, below the range where `min_size += 2` overflows,
passed the test of line 228. -/
theorem min_size_loop_int_trace (len : Nat) : ∀ (fuel : Nat) (x n : Int),
    min_size_loop_int len fuel x = some n → -2147483648 ≤ x →
    ∀ y : Int, x ≤ y → y < n → y ≤ 2147483645 → (y - x) % 2 = 0 →
      len > to_size_t (decoded_length_int y) := by
  intro fuel
  induction fuel with
  | zero => intro x n h; simp [min_size_loop_int] at h
  | succ f ih =>
    intro x n h hx y hxy hyn hy hpar
    unfold min_size_loop_int at h
    by_cases hc : len > to_size_t (decoded_length_int x)
    · rw [if_pos hc] at h
      by_cases hyx : y = x
      · rw [hyx]; exact hc
      · rw [wrap_int_of_fits _ (by omega) (by omega)] at h
        exact ih (x + 2) n h (by omega) y (by omega) hyn hy (by omega)
    · rw [if_neg hc] at h
      injection h with h
      omega

theorem ceil_sqrt_mono (a b : Nat) (hab : a ≤ b) : ceil_sqrt a ≤ ceil_sqrt b := by
  rcases Nat.eq_zero_or_pos a with h | h
  · subst h
    have : ceil_sqrt 0 = 0 := by decide
    omega
  · obtain ⟨a1, a2, _⟩ := ceil_sqrt_spec a h
    obtain ⟨_, _, b3⟩ := ceil_sqrt_spec b (by omega)
    by_contra hc
    have hle : ceil_sqrt b ≤ ceil_sqrt a - 1 := by omega
    have := Nat.mul_le_mul hle hle
    omega

/-- The dimensions the sizing computes are ordered like the lengths, for lengths of any
size, provided the sizing of the longer message returns without `min_size` leaving the
range of `int`. -/
theorem minimum_size_int_mono (a b : Nat) (hab : a ≤ b) (na nb : Int)
    (ha : minimum_size_int a = some na) (hb : minimum_size_int b = some nb)
    (hstart : (ceil_sqrt b : Int) ≤ nb) (hfit : nb ≤ 2147483645) : na ≤ nb := by
  have hs := ceil_sqrt_mono a b hab
  unfold minimum_size_int at ha hb
  simp only at ha hb
  -- the odd starting dimensions
  have hxa : ∃ xa : Int, min_size_loop_int a (a + 1) xa = some na ∧ xa % 2 = 1 ∧
      (ceil_sqrt a : Int) ≤ xa ∧ xa ≤ (ceil_sqrt a : Int) + 1 := by
    by_cases he : is_even ((ceil_sqrt a : Nat) : Int) = true
    · rw [if_pos he, wrap_int_of_fits _ (by omega) (by omega)] at ha
      have he2 : ((ceil_sqrt a : Nat) : Int) % 2 = 0 := by simpa [is_even] using he
      exact ⟨_, ha, by omega, by omega, by omega⟩
    · rw [if_neg he] at ha
      have he2 : ((ceil_sqrt a : Nat) : Int) % 2 ≠ 0 := by simpa [is_even] using he
      exact ⟨_, ha, by omega, by omega, by omega⟩
  have hxb : ∃ xb : Int, min_size_loop_int b (b + 1) xb = some nb ∧ xb % 2 = 1 ∧
      (ceil_sqrt b : Int) ≤ xb ∧ xb ≤ (ceil_sqrt b : Int) + 1 := by
    by_cases he : is_even ((ceil_sqrt b : Nat) : Int) = true
    · rw [if_pos he, wrap_int_of_fits _ (by omega) (by omega)] at hb
      have he2 : ((ceil_sqrt b : Nat) : Int) % 2 = 0 := by simpa [is_even] using he
      exact ⟨_, hb, by omega, by omega, by omega⟩
    · rw [if_neg he] at hb
      have he2 : ((ceil_sqrt b : Nat) : Int) % 2 ≠ 0 := by simpa [is_even] using he
      exact ⟨_, hb, by omega, by omega, by omega⟩
  obtain ⟨xa, la, oa, a1, a2⟩ := hxa
  obtain ⟨xb, lb, ob, b1, b2⟩ := hxb
  have pb := min_size_loop_int_parity b _ xb nb lb
  have eb := min_size_loop_int_exit b _ xb nb lb
  by_contra hlt
  have hcont := min_size_loop_int_trace a _ xa na la (by omega) nb (by omega) (by omega) hfit
    (by omega)
  exact eb (by omega)

/-- C14 (size monotonicity): for all message lengths `a ≤ b`, the minimum grid dimension
`encode` computes for `a` is at most the one it computes for `b`. The dimensions are the
ones of the program's 32-bit `int` arithmetic. For `b` up to the largest `int` both are
computed; for longer messages the order holds whenever the sizing of `b` returns without
`min_size` leaving the range of `int`. -/
theorem C14_minimum_size_monotone (a b : Nat) (hab : a ≤ b) :
    (b ≤ 2147483647 →
      ∃ na nb : Int, minimum_size_int a = some na ∧ minimum_size_int b = some nb ∧ na ≤ nb) ∧
    (∀ na nb : Int, minimum_size_int a = some na → minimum_size_int b = some nb →
      (ceil_sqrt b : Int) ≤ nb → nb ≤ 2147483645 → na ≤ nb) := by
  refine ⟨fun hb => ?_, fun na nb ha hb h1 h2 => minimum_size_int_mono a b hab na nb ha hb h1 h2⟩
  obtain ⟨na, ha, ia⟩ := minimum_size_int_eq a (by omega)
  obtain ⟨nb, hb2, ib⟩ := minimum_size_int_eq b hb
  obtain ⟨na2, ha2, _, _, _, asmall, _, aleast⟩ := minimum_size_total a
  obtain ⟨nb2, hb3, bodd, b1, bcap, _, b3, _⟩ := minimum_size_total b
  rw [ha] at ha2; injection ha2 with ha2; subst ha2
  rw [hb2] at hb3; injection hb3 with hb3; subst hb3
  have hle : na ≤ nb := by
    rcases Nat.lt_or_ge a 2 with h | h
    · rw [asmall h]; exact b1
    · exact aleast h nb (b3 (by omega)) bodd (by omega)
  exact ⟨_, _, ia, ib, min_le_min hle le_rfl⟩

/-- C14 on the lengths 5 and 6, the boundary between the 3 × 3 and the 5 × 5 grid. -/
theorem C14_minimum_size_monotone_witness :
    5 ≤ 6 ∧ 6 ≤ 2147483647 ∧
    ∃ na nb : Int, minimum_size_int 5 = some na ∧ minimum_size_int 6 = some nb ∧ na ≤ nb :=
  ⟨by decide, by decide, (C14_minimum_size_monotone 5 6 (by decide)).1 (by decide)⟩

/-- C15 as stated fails on a message of one character (and on the empty message): the
dimension `encode` computes is 1, which is below 3. -/
theorem C15_minimum_size_counterexample :
    minimum_size_int 1 = some 1 ∧ minimum_size_int 0 = some 1 ∧ ¬ ((3 : Int) ≤ 1) :=
  ⟨by decide, by decide, by decide⟩

/-- C15, amended: the minimum grid dimension `encode` computes (in the program's 32-bit
`int` arithmetic) is odd, for a message of any length for which the sizing returns. For
every length up to the largest `int` the sizing does return; the dimension is at least 3
exactly when the length is at least 2, and it is 1 for the lengths 0 and 1, a dimension
that passes the `square(min_size) > 999` test and that `set_grid_size` then refuses with
"Minimum grid size is 3x3.". -/
theorem C15_minimum_size_odd (len : Nat) :
    (∀ n : Int, minimum_size_int len = some n → n % 2 = 1) ∧
    (len ≤ 2147483647 →
      ∃ n : Int, minimum_size_int len = some n ∧ n % 2 = 1 ∧ (3 ≤ n ↔ 2 ≤ len) ∧
        (len < 2 → n = 1 ∧ ¬ square_int n > 999 ∧
          ∀ ops : GridOperations, ops.set_grid_size n = (ops, .raised .minimum_grid_size))) := by
  constructor
  · intro n hn
    unfold minimum_size_int at hn
    simp only at hn
    have hp := min_size_loop_int_parity len _ _ n hn
    by_cases he : is_even ((ceil_sqrt len : Nat) : Int) = true
    · rw [if_pos he, wrap_int_parity] at hp
      have he2 : ((ceil_sqrt len : Nat) : Int) % 2 = 0 := by simpa [is_even] using he
      omega
    · rw [if_neg he] at hp
      have he2 : ((ceil_sqrt len : Nat) : Int) % 2 ≠ 0 := by simpa [is_even] using he
      omega
  intro hlen
  obtain ⟨n, hn, hi⟩ := minimum_size_int_eq len hlen
  obtain ⟨n2, hn2, hodd, _, _, hsmall, h3, _⟩ := minimum_size_total len
  rw [hn] at hn2; injection hn2 with hn2; subst hn2
  have h3iff : 3 ≤ n ↔ 2 ≤ len := by
    constructor
    · intro h
      by_contra hlt
      have := hsmall (by omega)
      omega
    · exact h3
  refine ⟨min n 46341, hi, ?_, ?_, fun h => ?_⟩
  · rcases le_total n 46341 with h | h
    · rw [min_eq_left h]; exact hodd
    · rw [min_eq_right h]; decide
  · rw [← h3iff]
    constructor
    · intro h; exact le_trans h (min_le_left _ _)
    · intro h; exact le_min h (by decide)
  · have h1 := hsmall h
    subst h1
    refine ⟨by decide, by decide, fun ops => ?_⟩
    unfold GridOperations.set_grid_size
    rw [if_pos (by decide)]

/-- C15, amended, on the length of a one-letter message. -/
theorem C15_minimum_size_odd_witness :
    1 ≤ 2147483647 ∧
    ∃ n : Int, minimum_size_int 1 = some n ∧ n % 2 = 1 ∧ (3 ≤ n ↔ 2 ≤ 1) ∧
      (1 < 2 → n = 1 ∧ ¬ square_int n > 999 ∧
        ∀ ops : GridOperations, ops.set_grid_size n = (ops, .raised .minimum_grid_size)) :=
  ⟨by decide, (C15_minimum_size_odd 1).2 (by decide)⟩

/-- The test of the prompt loop on one typed size (line 204-205): the size is returned when
it is odd and between the minimum and 31, and the loop asks again otherwise. -/
theorem prompt_entries_cons (min_size s : Int) (rest : List (Option Int)) :
    ((s % 2 = 1 ∧ min_size ≤ s ∧ s ≤ 31) →
      prompt_entries min_size (some s :: rest) = some s) ∧
    (¬ (s % 2 = 1 ∧ min_size ≤ s ∧ s ≤ 31) →
      prompt_entries min_size (some s :: rest) = prompt_entries min_size rest) := by
  constructor
  · intro h
    rw [prompt_entries]
    rw [if_neg]
    simp only [Bool.or_eq_true, decide_eq_true_eq, not_or, not_lt, global_max_size_eq, is_even,
      beq_iff_eq]
    omega
  · intro h
    rw [prompt_entries]
    rw [if_pos]
    simp only [Bool.or_eq_true, decide_eq_true_eq, global_max_size_eq, is_even, beq_iff_eq]
    omega

/-- What `set_grid_size` does with a size: it throws exactly when the size is below 3 or
even, and then leaves the object as it was; otherwise the object has the new size. -/
theorem set_grid_size_cases (ops : GridOperations) (s : Int) :
    ((∃ x, (ops.set_grid_size s).2 = .raised x) ↔ (s < 3 ∨ s % 2 = 0)) ∧
    ((s < 3 ∨ s % 2 = 0) → (ops.set_grid_size s).1 = ops) ∧
    (¬ (s < 3 ∨ s % 2 = 0) →
      (ops.set_grid_size s).2 = .ok () ∧ (ops.set_grid_size s).1.grid_size_ = s) := by
  by_cases h1 : s < 3
  · have e : ops.set_grid_size s = (ops, .raised .minimum_grid_size) := by
      unfold GridOperations.set_grid_size
      rw [if_pos h1]
    rw [e]
    exact ⟨⟨fun _ => Or.inl h1, fun _ => ⟨_, rfl⟩⟩, fun _ => rfl,
      fun h => absurd (Or.inl h1) h⟩
  · by_cases h2 : s % 2 = 0
    · have e : ops.set_grid_size s = (ops, .raised .grid_size_odd) := by
        unfold GridOperations.set_grid_size
        rw [if_neg h1, if_pos (by simp [h2])]
      rw [e]
      exact ⟨⟨fun _ => Or.inr h2, fun _ => ⟨_, rfl⟩⟩, fun _ => rfl,
        fun h => absurd (Or.inr h2) h⟩
    · have e : ops.set_grid_size s =
          ({ grid_size_ := s, grid_ := fun _ _ => Char.ofNat 0 }, .ok ()) := by
        unfold GridOperations.set_grid_size
        rw [if_neg h1, if_neg (by simp [h2])]
      rw [e]
      refine ⟨⟨fun ⟨x, hx⟩ => ?_, fun h => ?_⟩, fun h => ?_, fun _ => ⟨rfl, rfl⟩⟩
      · exact absurd hx (by simp)
      · omega
      · omega

/-- C16 as stated fails on a message of one character: its minimum size is 1, the prompt
accepts the typed size 1, and 1 is below 3 (`set_grid_size` then refuses it). -/
theorem C16_size_validation_counterexample :
    minimum_size (['A'] : List Char).length = some 1 ∧
    prompt_grid_size 1 { declare_custom := true, entries := [some 1] } = some 1 ∧
    ¬ ((3 : Int) ≤ 1) ∧
    (GridOperations.new.set_grid_size 1).2 = .raised .minimum_grid_size := by
  refine ⟨by decide, ?_, by decide, by decide⟩
  unfold prompt_grid_size
  simp only [Bool.not_true, Bool.false_eq_true, if_false]
  exact (prompt_entries_cons 1 1 []).1 (by decide)

/-- C16, amended: a size `s` typed at the prompt for a message whose minimum size is `m` is
accepted exactly when it is odd and `m ≤ s ≤ 31` (otherwise the prompt asks again); every
accepted `s` satisfies `s * s ≤ 999` and `(s * s + 1) / 2 ≥ len(message)`, and `s ≥ 3` when
the message has at least two characters; `set_grid_size` throws exactly on the sizes below 3
or even and then leaves the grid object unchanged. -/
theorem C16_size_validation (len : Nat) (m : Int) (hmin : minimum_size len = some m)
    (s : Int) (rest : List (Option Int)) (ops : GridOperations) :
    (prompt_grid_size m { declare_custom := true, entries := some s :: rest } = some s ↔
      (s % 2 = 1 ∧ m ≤ s ∧ s ≤ 31)) ∧
    (¬ (s % 2 = 1 ∧ m ≤ s ∧ s ≤ 31) →
      prompt_grid_size m { declare_custom := true, entries := some s :: rest } =
        prompt_grid_size m { declare_custom := true, entries := rest }) ∧
    ((s % 2 = 1 ∧ m ≤ s ∧ s ≤ 31) →
      s * s ≤ 999 ∧ (len : Int) ≤ decoded_length s ∧ (2 ≤ len → 3 ≤ s)) ∧
    ((∃ x, (ops.set_grid_size s).2 = .raised x) ↔ (s < 3 ∨ s % 2 = 0)) ∧
    ((s < 3 ∨ s % 2 = 0) → (ops.set_grid_size s).1 = ops) := by
  obtain ⟨n, hn, _, h1, hcap, _, h3, _⟩ := minimum_size_total len
  rw [hmin] at hn
  injection hn with hn
  subst hn
  obtain ⟨p1, p2⟩ := prompt_entries_cons m s rest
  obtain ⟨q1, q2, _⟩ := set_grid_size_cases ops s
  have hp : ∀ l, prompt_grid_size m { declare_custom := true, entries := l } =
      prompt_entries m l := by
    intro l
    unfold prompt_grid_size
    simp only [Bool.not_true, Bool.false_eq_true, if_false]
  refine ⟨⟨fun h => ?_, fun h => ?_⟩, fun h => ?_, fun h => ⟨?_, ?_, fun h2 => ?_⟩, q1, q2⟩
  · rw [hp] at h
    exact prompt_entries_valid m _ s h
  · rw [hp]; exact p1 h
  · rw [hp, hp]; exact p2 h
  · nlinarith [h.2.1, h.2.2]
  · exact le_trans hcap (decoded_length_mono m s (by omega) h.2.1)
  · have := h3 h2
    omega

/-- C16, amended, on a five-letter message (minimum size 3) and the typed size 5. -/
theorem C16_size_validation_witness :
    minimum_size 5 = some 3 ∧
    ((prompt_grid_size 3 { declare_custom := true, entries := some 5 :: [some 7] } = some 5 ↔
      ((5 : Int) % 2 = 1 ∧ (3 : Int) ≤ 5 ∧ (5 : Int) ≤ 31)) ∧
    (¬ ((5 : Int) % 2 = 1 ∧ (3 : Int) ≤ 5 ∧ (5 : Int) ≤ 31) →
      prompt_grid_size 3 { declare_custom := true, entries := some 5 :: [some 7] } =
        prompt_grid_size 3 { declare_custom := true, entries := [some 7] }) ∧
    (((5 : Int) % 2 = 1 ∧ (3 : Int) ≤ 5 ∧ (5 : Int) ≤ 31) →
      (5 : Int) * 5 ≤ 999 ∧ ((5 : Nat) : Int) ≤ decoded_length 5 ∧ (2 ≤ 5 → (3 : Int) ≤ 5)) ∧
    ((∃ x, (GridOperations.new.set_grid_size 5).2 = .raised x) ↔
      ((5 : Int) < 3 ∨ (5 : Int) % 2 = 0)) ∧
    (((5 : Int) < 3 ∨ (5 : Int) % 2 = 0) →
      (GridOperations.new.set_grid_size 5).1 = GridOperations.new)) :=
  ⟨by decide, C16_size_validation 5 3 (by decide) 5 [some 7] GridOperations.new⟩

/-! ## Characters that collide with the blank and with the mark -/

/-- C12: the five-character message ` ABCD` (a blank, then four letters) is printable and
gets the 3 × 3 grid, but its blank leaves cell `(1, 0)` looking unwritten, so the corner
turn is skipped when the ring closes: after four passes the traversal stands on `(1, 0)`
again with step `(-1, -1)`, and the fifth pass reads `grid_[0][-1]`, outside the grid. -/
theorem C12_write_traversal_leaves_grid :
    (∀ ch ∈ [' ', 'A', 'B', 'C', 'D'], 32 ≤ ch.toNat ∧ ch.toNat ≤ 126) ∧
    2 ≤ ([' ', 'A', 'B', 'C', 'D'] : List Char).length ∧
    ([' ', 'A', 'B', 'C', 'D'] : List Char).length ≤ 481 ∧
    minimum_size ([' ', 'A', 'B', 'C', 'D'] : List Char).length = some 3 ∧
    (fill_after 3 [' ', 'A', 'B', 'C', 'D'] true 4
        (fill_start ((GridOperations.set_grid_size GridOperations.new 3).1.initialise_grid
          []).grid_ 3)).map FillState.registers =
      .ok ({ top_ := 0, bottom_ := 2, right_ := 2 }, 1, 0, -1, -1) ∧
    in_grid 3 (1 + -1) (0 + -1) = false ∧
    (fill_after 3 [' ', 'A', 'B', 'C', 'D'] true 5
        (fill_start ((GridOperations.set_grid_size GridOperations.new 3).1.initialise_grid
          []).grid_ 3)).map FillState.registers = .out_of_bounds ∧
    (EncoderDecoder.new.encode [' ', 'A', 'B', 'C', 'D'] true
        { declare_custom := false, entries := [] } (fun _ => 0)).2 = .out_of_bounds := by
  refine ⟨by decide, by decide, by decide, by decide, by decide, by decide, by decide,
    by decide⟩

set_option maxRecDepth 100000 in
/-- C13: on the string of 961 characters `~` the read traversal of the 31 × 31 grid takes
every cell it steps on for a cell it has read, turns at once and leaves the grid: `decode`
does not return a string. -/
theorem C13_decode_leaves_grid_on_marks :
    (List.replicate 961 '~').length = 961 ∧
    (EncoderDecoder.new.decode (List.replicate 961 '~')).2 = .out_of_bounds := by
  refine ⟨by decide!, by decide!⟩

/-! ## What `decode` reads -/

theorem decode_snd_indep (self self1 : EncoderDecoder) (e : List Char) :
    (self.decode e).2 = (self1.decode e).2 := by
  unfold EncoderDecoder.decode GridOperations.set_grid_size
  simp only
  split_ifs <;> rfl

/-- An accepted string without the mark passed the three guards of `decode` and was read
along the whole spiral path. -/
theorem decode_ok_eq (self : EncoderDecoder) (e d : List Char) (he : ∀ ch ∈ e, ch ≠ '~')
    (hacc : (self.decode e).2 = .ok d) :
    floor_sqrt e.length % 2 = 1 ∧ 3 ≤ floor_sqrt e.length ∧ e.length ≤ 999 ∧
    d = (spiral_path (floor_sqrt e.length : Nat)
          (decoded_length (floor_sqrt e.length : Nat)).toNat).map
        fun p => e.getD (dump_index (floor_sqrt e.length : Nat) p) (Char.ofNat 0) := by
  have hn : ¬ (floor_sqrt e.length % 2 = 0 ∨ floor_sqrt e.length < 3 ∨ 999 < e.length) := by
    intro h
    obtain ⟨x, hx⟩ := decode_rejects self e h
    rw [hx] at hacc
    exact absurd hacc (by simp)
  push_neg at hn
  rw [decode_master self e he (by omega) (by omega) (by omega)] at hacc
  injection hacc with hacc
  exact ⟨by omega, by omega, by omega, hacc.symm⟩

/-- C20 as stated fails on `A~CDEFGHI`: the second cell of the path holds `~`, the read
traversal appends it and goes on to the full five characters `D~FHE`. -/
theorem C20_decode_appends_mark_counterexample :
    (EncoderDecoder.new.decode ['A', '~', 'C', 'D', 'E', 'F', 'G', 'H', 'I']).2 =
      .ok ['D', '~', 'F', 'H', 'E'] ∧
    '~' ∈ (['D', '~', 'F', 'H', 'E'] : List Char) ∧
    ((['D', '~', 'F', 'H', 'E'] : List Char).length : Int) = decoded_length 3 := by
  refine ⟨by decide, by decide, by decide⟩

/-- One pass of the read loop on any grid: the pass appends the cell it stands on, marks
it, and advances `index`; cells and decoded characters stay characters of `e` or the
mark. -/
theorem fill_body_read_inv (n : Int) (m e : List Char) (s s1 : FillState)
    (hgrid : ∀ r c, in_grid n r c = true → s.grid_ r c ∈ e ∨ s.grid_ r c = '~')
    (hdec : ∀ ch ∈ s.decoded_message, ch ∈ e ∨ ch = '~')
    (hlen : s.decoded_message.length = s.index)
    (hb : fill_body n m false s = .ok s1) :
    (∀ r c, in_grid n r c = true → s1.grid_ r c ∈ e ∨ s1.grid_ r c = '~') ∧
    (∀ ch ∈ s1.decoded_message, ch ∈ e ∨ ch = '~') ∧
    s1.decoded_message.length = s1.index ∧ s1.index = s.index + 1 ∧
    s1.decoded_message = s.decoded_message ++ [s.grid_ s.row s.col] := by
  rw [fill_body_decode_eq] at hb
  by_cases h1 : (!in_grid n s.row s.col) = true
  · rw [if_pos h1] at hb
    exact absurd hb (by simp)
  rw [if_neg h1] at hb
  by_cases h2 : (!in_grid n (s.row + flip_row s.boundary s.row s.row_manip)
      (s.col + flip_col s.boundary s.col s.col_manip)) = true
  · rw [if_pos h2] at hb
    exact absurd hb (by simp)
  rw [if_neg h2] at hb
  injection hb with hb
  subst hb
  simp only
  have hin : in_grid n s.row s.col = true := by simpa using h1
  refine ⟨fun r c hrc => ?_, fun ch hch => ?_, by simp [hlen], trivial, trivial⟩
  · unfold set_cell
    split_ifs
    · exact Or.inr rfl
    · exact hgrid r c hrc
  · rcases List.mem_append.1 hch with h | h
    · exact hdec ch h
    · rw [List.mem_singleton] at h
      rw [h]
      exact hgrid _ _ hin

/-- The read loop on any grid: when it returns, it has made passes until `index` reached
`decoded_length n` or the end of the string. -/
theorem fill_loop_read_inv (n : Int) (m e : List Char) :
    ∀ (fuel : Nat) (s sf : FillState),
      (∀ r c, in_grid n r c = true → s.grid_ r c ∈ e ∨ s.grid_ r c = '~') →
      (∀ ch ∈ s.decoded_message, ch ∈ e ∨ ch = '~') →
      s.decoded_message.length = s.index → (s.index : Int) ≤ decoded_length n →
      fill_loop n m false fuel s = .ok sf →
      (∀ ch ∈ sf.decoded_message, ch ∈ e ∨ ch = '~') ∧
      sf.decoded_message.length = sf.index ∧ (sf.index : Int) ≤ decoded_length n ∧
      (sf.index < m.length → (sf.index : Int) ≥ decoded_length n) := by
  intro fuel
  induction fuel with
  | zero =>
    intro s sf hgrid hdec hlen hcap h
    unfold fill_loop at h
    by_cases hc : s.index < m.length ∧
        ((false : Bool) = true ∨ ¬ ((s.index : Int) ≥ decoded_length n))
    · rw [if_pos hc] at h
      exact absurd h (by simp)
    · rw [if_neg hc] at h
      injection h with h
      subst h
      refine ⟨hdec, hlen, hcap, fun hlt => ?_⟩
      by_contra hge
      exact hc ⟨hlt, Or.inr hge⟩
  | succ f ih =>
    intro s sf hgrid hdec hlen hcap h
    unfold fill_loop at h
    by_cases h1 : s.index < m.length
    · rw [if_pos h1] at h
      by_cases h2 : (s.index : Int) ≥ decoded_length n
      · rw [if_pos (by simpa using h2)] at h
        injection h with h
        subst h
        exact ⟨hdec, hlen, hcap, fun _ => h2⟩
      · rw [if_neg (by simpa using h2)] at h
        cases hb : fill_body n m false s with
        | ok s1 =>
          rw [hb] at h
          obtain ⟨g1, g2, g3, g4, _⟩ := fill_body_read_inv n m e s s1 hgrid hdec hlen hb
          exact ih s1 sf g1 g2 g3 (by rw [g4]; push_cast; omega) h
        | raised x => rw [hb] at h; exact absurd h (by simp)
        | out_of_bounds => rw [hb] at h; exact absurd h (by simp)
        | no_return => rw [hb] at h; exact absurd h (by simp)
    · rw [if_neg h1] at h
      injection h with h
      subst h
      exact ⟨hdec, hlen, hcap, fun hlt => absurd hlt h1⟩

/-- Whatever the input holds, a string `decode` returns has `decoded_length n` characters,
each of them a character of the input or the mark. -/
theorem decode_ok_general (self : EncoderDecoder) (e d : List Char)
    (hacc : (self.decode e).2 = .ok d) :
    (d.length : Int) = decoded_length (floor_sqrt e.length : Nat) ∧
    ∀ ch ∈ d, ch ∈ e ∨ ch = '~' := by
  have hn : ¬ (floor_sqrt e.length % 2 = 0 ∨ floor_sqrt e.length < 3 ∨ 999 < e.length) := by
    intro h
    obtain ⟨x, hx⟩ := decode_rejects self e h
    rw [hx] at hacc
    exact absurd hacc (by simp)
  push_neg at hn
  obtain ⟨hodd, h3, h999⟩ := hn
  have hsq := ((floor_sqrt_iff e.length (floor_sqrt e.length)).1 rfl).1
  have hsqi : ((floor_sqrt e.length : Nat) : Int) * (floor_sqrt e.length : Nat) ≤ e.length := by
    exact_mod_cast hsq
  have hne : e ≠ [] := by
    intro h
    rw [h] at h3
    exact absurd h3 (by decide)
  set n : Int := ((floor_sqrt e.length : Nat) : Int) with hndef
  have hn3 : 3 ≤ n := by omega
  set ops : GridOperations := { grid_size_ := n, grid_ := fun _ _ => Char.ofNat 0 } with hops
  have hcell : ∀ r c, in_grid n r c = true → (ops.initialise_grid e).grid_ r c ∈ e := by
    intro r c hrc
    rw [initialise_grid_cell, if_pos hrc]
    have hlt := dump_index_lt n r c hrc
    have hidx : dump_index n (r, c) < e.length := by omega
    simp only [initial_char, hne, ne_eq, not_false_eq_true, if_true]
    rw [List.getD_eq_getElem?_getD, List.getElem?_eq_getElem hidx]
    exact List.getElem_mem _
  have hcaple : decoded_length n ≤ n * n := by
    unfold decoded_length square
    have : 1 ≤ n * n := by nlinarith
    omega
  unfold EncoderDecoder.decode at hacc
  simp only at hacc
  rw [if_neg (by simp only [is_even, beq_iff_eq]; omega), if_neg (by omega),
    set_grid_size_ok _ _ (by omega) (by omega)] at hacc
  simp only at hacc
  unfold GridOperations.process_grid GridOperations.fill_grid at hacc
  simp only [Bool.false_eq_true, if_false, initialise_grid_size] at hacc
  cases hf : fill_loop n e false e.length
      { grid_ := (ops.initialise_grid e).grid_, decoded_message := [],
        boundary := { top_ := 0, bottom_ := n - 1, right_ := n - 1 },
        index := 0, row := n / 2, col := 0, row_manip := -1, col_manip := 1 } with
  | ok sf =>
    rw [hf] at hacc
    simp only at hacc
    injection hacc with hacc
    obtain ⟨g1, g2, g3, g4⟩ := fill_loop_read_inv n e e e.length _ sf
      (fun r c hrc => Or.inl (hcell r c hrc)) (fun ch hch => absurd hch (by simp)) rfl
      (by simp only [Nat.cast_zero]; exact decoded_length_nonneg n) hf
    rw [← hacc]
    refine ⟨?_, g1⟩
    rw [g2]
    by_contra hne2
    have hlt : (sf.index : Int) < decoded_length n := by omega
    have : sf.index < e.length := by omega
    have := g4 this
    omega
  | raised x => rw [hf] at hacc; exact absurd hacc (by simp)
  | out_of_bounds => rw [hf] at hacc; exact absurd hacc (by simp)
  | no_return => rw [hf] at hacc; exact absurd hacc (by simp)

/-- C20, amended: the read traversal does not test the cell it stands on. On every accepted
input, with or without `~`, the decoded string has exactly `(n * n + 1) / 2` characters and
every one of them is a character of the input; so the decoded string of an accepted input
without `~` contains no `~`. -/
theorem C20_decoded_characters_come_from_input (self : EncoderDecoder) (e d : List Char)
    (hacc : (self.decode e).2 = .ok d) :
    (d.length : Int) = decoded_length (floor_sqrt e.length : Nat) ∧
    (∀ ch ∈ d, ch ∈ e) ∧ ((∀ ch ∈ e, ch ≠ '~') → ∀ ch ∈ d, ch ≠ '~') := by
  obtain ⟨hl, hmem⟩ := decode_ok_general self e d hacc
  have hin : ∀ ch ∈ d, ch ∈ e := by
    intro ch hch
    rcases hmem ch hch with h | h
    · exact h
    · by_cases hmark : '~' ∈ e
      · rw [h]; exact hmark
      · have he : ∀ c ∈ e, c ≠ '~' := fun c hc heq => hmark (heq ▸ hc)
        obtain ⟨hodd, h3, h999, hd⟩ := decode_ok_eq self e d he hacc
        have h31 := floor_sqrt_le_31 e.length h999
        have hsq := ((floor_sqrt_iff e.length (floor_sqrt e.length)).1 rfl).1
        have hcap0 := decoded_length_nonneg (floor_sqrt e.length : Nat)
        obtain ⟨_, _, _, _, _, _, hin2, _⟩ := spiral_path_spec (floor_sqrt e.length : Nat)
          (by omega) (by omega) (by omega) (decoded_length (floor_sqrt e.length : Nat)).toNat
          (by omega)
        rw [hd] at hch
        obtain ⟨⟨r, c⟩, hp, hpe⟩ := List.mem_map.1 hch
        have hlt := dump_index_lt _ r c (hin2 (r, c) hp)
        have hidx : dump_index (floor_sqrt e.length : Nat) (r, c) < e.length := by
          have : ((floor_sqrt e.length : Nat) : Int) * (floor_sqrt e.length : Nat) ≤
              e.length := by exact_mod_cast hsq
          omega
        rw [← hpe, List.getD_eq_getElem?_getD, List.getElem?_eq_getElem hidx]
        exact List.getElem_mem _
  exact ⟨hl, hin, fun he ch hch => he ch (hin ch hch)⟩

/-- C20, amended, on the string `A~CDEFGHI`, which holds the mark. -/
theorem C20_decoded_characters_witness :
    (EncoderDecoder.new.decode ['A', '~', 'C', 'D', 'E', 'F', 'G', 'H', 'I']).2 =
      .ok ['D', '~', 'F', 'H', 'E'] ∧
    (((['D', '~', 'F', 'H', 'E'] : List Char).length : Int) =
      decoded_length (floor_sqrt (['A', '~', 'C', 'D', 'E', 'F', 'G', 'H', 'I'] : List Char).length
        : Nat) ∧
    (∀ ch ∈ ['D', '~', 'F', 'H', 'E'], ch ∈ ['A', '~', 'C', 'D', 'E', 'F', 'G', 'H', 'I']) ∧
    ((∀ ch ∈ ['A', '~', 'C', 'D', 'E', 'F', 'G', 'H', 'I'], ch ≠ '~') →
      ∀ ch ∈ ['D', '~', 'F', 'H', 'E'], ch ≠ '~')) :=
  ⟨by decide,
    C20_decoded_characters_come_from_input EncoderDecoder.new
      ['A', '~', 'C', 'D', 'E', 'F', 'G', 'H', 'I'] ['D', '~', 'F', 'H', 'E'] (by decide)⟩

/-! ## Batch decoding -/

theorem decode_all_loop_cons (message : List Char) (rest : List (List Char))
    (self : EncoderDecoder) (results : List (List Char)) :
    decode_all_loop (message :: rest) self results =
      if message = [] then decode_all_loop rest self (results ++ [[]])
      else
        match self.decode message with
        | (self1, .ok decoded) => decode_all_loop rest self1 (results ++ [decoded])
        | (self1, .raised _) =>
          decode_all_loop rest self1 (results ++ [decode_failure_tag ++ message])
        | (self1, .out_of_bounds) => (self1, .out_of_bounds)
        | (self1, .no_return) => (self1, .no_return) := by
  rw [decode_all_loop]

/-- On a string without the mark `decode` either throws or returns a string. -/
theorem decode_mark_free_cases (self : EncoderDecoder) (e : List Char)
    (he : ∀ ch ∈ e, ch ≠ '~') :
    (∃ x, (self.decode e).2 = .raised x) ∨ (∃ d, (self.decode e).2 = .ok d) := by
  by_cases h : floor_sqrt e.length % 2 = 0 ∨ floor_sqrt e.length < 3 ∨ 999 < e.length
  · exact Or.inl (decode_rejects self e h)
  · push_neg at h
    exact Or.inr ⟨_, decode_master self e he (by omega) (by omega) (by omega)⟩

/-- On lines without the mark the loop of `decode_all_messages` adds one entry per line, in
order: nothing for an empty line, the decoded string when `decode` returns one, and the line
behind `FD::` when `decode` throws. -/
theorem decode_all_loop_mark_free :
    ∀ (messages : List (List Char)), (∀ line ∈ messages, ∀ ch ∈ line, ch ≠ '~') →
    ∀ (self : EncoderDecoder) (results : List (List Char)),
    ∃ (st : EncoderDecoder) (out : List (List Char)),
      decode_all_loop messages self results = (st, .ok (results ++ out)) ∧
      out.length = messages.length ∧
      ∀ (i : Nat) (h1 : i < messages.length) (h2 : i < out.length),
        (messages[i] = [] → out[i] = []) ∧
        (messages[i] ≠ [] →
          (∀ d, (EncoderDecoder.new.decode messages[i]).2 = .ok d → out[i] = d) ∧
          (∀ x, (EncoderDecoder.new.decode messages[i]).2 = .raised x →
            out[i] = decode_failure_tag ++ messages[i])) := by
  intro messages
  induction messages with
  | nil =>
    intro _ self results
    exact ⟨self, [], by simp [decode_all_loop], rfl, fun i h1 => absurd h1 (by simp)⟩
  | cons line rest ih =>
    intro hmf self results
    have hrest : ∀ l ∈ rest, ∀ ch ∈ l, ch ≠ '~' := fun l hl => hmf l (List.mem_cons_of_mem _ hl)
    have hline : ∀ ch ∈ line, ch ≠ '~' := hmf line (List.mem_cons_self _ _)
    have hfirst : ∃ (st1 : EncoderDecoder) (entry : List Char),
        decode_all_loop (line :: rest) self results =
          decode_all_loop rest st1 (results ++ [entry]) ∧
        (line = [] → entry = []) ∧
        (line ≠ [] →
          (∀ d, (EncoderDecoder.new.decode line).2 = .ok d → entry = d) ∧
          (∀ x, (EncoderDecoder.new.decode line).2 = .raised x →
            entry = decode_failure_tag ++ line)) := by
      by_cases hempty : line = []
      · refine ⟨self, [], ?_, fun _ => rfl, fun h => absurd hempty h⟩
        rw [decode_all_loop_cons, if_pos hempty]
      · have hind := decode_snd_indep self EncoderDecoder.new line
        rcases decode_mark_free_cases self line hline with ⟨x, henc⟩ | ⟨d, henc⟩
        · refine ⟨(self.decode line).1, decode_failure_tag ++ line, ?_,
            fun h => absurd h hempty, fun _ => ⟨fun d hd => ?_, fun _ _ => rfl⟩⟩
          · rw [decode_all_loop_cons, if_neg hempty]
            generalize self.decode line = r at henc
            obtain ⟨r1, r2⟩ := r
            simp only at henc
            subst henc
            rfl
          · rw [← hind, henc] at hd; exact absurd hd (by simp)
        · refine ⟨(self.decode line).1, d, ?_, fun h => absurd h hempty,
            fun _ => ⟨fun d1 hd => ?_, fun x hx => ?_⟩⟩
          · rw [decode_all_loop_cons, if_neg hempty]
            generalize self.decode line = r at henc
            obtain ⟨r1, r2⟩ := r
            simp only at henc
            subst henc
            rfl
          · rw [← hind, henc] at hd
            injection hd with hd
          · rw [← hind, henc] at hx; exact absurd hx (by simp)
    obtain ⟨st1, entry, hstep, hentry1, hentry2⟩ := hfirst
    obtain ⟨st, out, hloop, hlen, hout⟩ := ih hrest st1 (results ++ [entry])
    refine ⟨st, entry :: out, ?_, by simp [hlen], fun i h1 h2 => ?_⟩
    · rw [hstep, hloop, List.append_assoc]; rfl
    · cases i with
      | zero => exact ⟨hentry1, hentry2⟩
      | succ j =>
        have := hout j (by simpa using h1) (by simpa using h2)
        simp only [List.getElem_cons_succ]
        exact this

/-- On every list of lines without `~`, `decode_all_messages` builds a result list with
one entry per line, in order: the empty string for an empty line, the line behind `FD::`
when `decode` throws on it, and the decoded string otherwise; each entry depends on its own
line only. -/
theorem decode_all_messages_mark_free (self : EncoderDecoder) (messages : List (List Char))
    (hmf : ∀ line ∈ messages, ∀ ch ∈ line, ch ≠ '~') :
    ∃ results : List (List Char),
      (decode_all_messages self messages).2 = .ok results ∧
      results.length = messages.length ∧
      ∀ (i : Nat) (h1 : i < messages.length) (h2 : i < results.length),
        (messages[i] = [] → results[i] = []) ∧
        (messages[i] ≠ [] →
          (∀ d, (EncoderDecoder.new.decode messages[i]).2 = .ok d → results[i] = d) ∧
          (∀ x, (EncoderDecoder.new.decode messages[i]).2 = .raised x →
            results[i] = decode_failure_tag ++ messages[i])) := by
  obtain ⟨st, out, hloop, hlen, hout⟩ := decode_all_loop_mark_free messages hmf self []
  refine ⟨out, ?_, hlen, hout⟩
  unfold decode_all_messages
  rw [hloop]
  rfl

/-- C11: the list of the nine-letter string `ABCDEFGHI`, the empty line and `AB` is turned
into `DBFHE`, the empty string and `FD::AB`, but on the single 25-character line
`ABCDEF~HIJKLMNOPQRSTUVWXY` the read traversal takes the `~` in cell `(1, 1)` for a cell it
has read, turns early, and in its fourth pass reads `grid_[2][-1]`, outside the grid: no
result list is produced. -/
theorem C11_decode_all_leaves_grid_on_mark :
    (decode_all_messages EncoderDecoder.new
      [['A', 'B', 'C', 'D', 'E', 'F', 'G', 'H', 'I'], [], ['A', 'B']]).2 =
      .ok [['D', 'B', 'F', 'H', 'E'], [], ['F', 'D', ':', ':', 'A', 'B']] ∧
    (fill_after 5 ['A', 'B', 'C', 'D', 'E', 'F', '~', 'H', 'I', 'J', 'K', 'L', 'M', 'N', 'O',
        'P', 'Q', 'R', 'S', 'T', 'U', 'V', 'W', 'X', 'Y'] false 3
      (fill_start ((GridOperations.set_grid_size GridOperations.new 5).1.initialise_grid
        ['A', 'B', 'C', 'D', 'E', 'F', '~', 'H', 'I', 'J', 'K', 'L', 'M', 'N', 'O',
          'P', 'Q', 'R', 'S', 'T', 'U', 'V', 'W', 'X', 'Y']).grid_ 5)).map FillState.registers =
      .ok ({ top_ := 1, bottom_ := 3, right_ := 3 }, 3, 0, 1, -1) ∧
    in_grid 5 (3 + -1) (0 + -1) = false ∧
    (EncoderDecoder.new.decode ['A', 'B', 'C', 'D', 'E', 'F', '~', 'H', 'I', 'J', 'K', 'L', 'M',
      'N', 'O', 'P', 'Q', 'R', 'S', 'T', 'U', 'V', 'W', 'X', 'Y']).2 = .out_of_bounds ∧
    (decode_all_messages EncoderDecoder.new
      [['A', 'B', 'C', 'D', 'E', 'F', '~', 'H', 'I', 'J', 'K', 'L', 'M', 'N', 'O', 'P', 'Q',
        'R', 'S', 'T', 'U', 'V', 'W', 'X', 'Y']]).2 = .out_of_bounds := by
  refine ⟨by decide, by decide, by decide, by decide, by decide⟩

/-! ## Round trip with any grid size -/

/-- Encoding a message without blank and without `~` with any size `encode` may use and
decoding the result gives the message followed by drawn letters, `(n * n + 1) / 2`
characters in all. -/
theorem round_trip_general (self self1 : EncoderDecoder) (m : List Char)
    (hb : ∀ ch ∈ m, ch ≠ ' ') (ht : ∀ ch ∈ m, ch ≠ '~') (h2 : 2 ≤ m.length)
    (h481 : m.length ≤ 481) (nmin n : Int) (hmin : minimum_size m.length = some nmin)
    (is_auto : Bool) (input : UserInput) (hsel : chosen_size nmin is_auto input = some n)
    (draws : Nat → Fin 26) :
    ∃ (e d : List Char),
      (self.encode m is_auto input draws).2 = .ok e ∧ (self1.decode e).2 = .ok d ∧
      (d.length : Int) = decoded_length n ∧ d.take m.length = m ∧
      (∀ ch ∈ d.drop m.length, ∃ t, ch = filler (draws t)) := by
  obtain ⟨hodd, _, h31, h3, hcap, g, henc, f1, f2, f3⟩ :=
    encode_master m hb h2 h481 nmin n hmin is_auto input hsel
  obtain ⟨_, _, _, _, hl, hnd, hin, htake⟩ := spiral_path_spec n h3 h31 hodd m.length hcap
  have hcap0 := decoded_length_nonneg n
  obtain ⟨_, _, _, _, hlc, hndc, hinc, _⟩ :=
    spiral_path_spec n h3 h31 hodd (decoded_length n).toNat (by omega)
  have hspec := get_encoded_message_spec { grid_size_ := n, grid_ := g } draws
    (by simp only; omega)
  simp only at hspec
  obtain ⟨hlen, hcell⟩ := hspec
  -- the dump has `n * n` characters, so `decode` finds the dimension `n` again
  have hfs : ((floor_sqrt
      (({ grid_size_ := n, grid_ := g } : GridOperations).get_encoded_message draws).length
        : Nat) : Int) = n := by
    have h1 : (({ grid_size_ := n, grid_ := g } : GridOperations).get_encoded_message
        draws).length = n.toNat * n.toNat := by
      have : ((n.toNat * n.toNat : Nat) : Int) = n * n := by
        push_cast; rw [Int.toNat_of_nonneg (by omega)]
      omega
    rw [h1, floor_sqrt_sq]
    omega
  -- no character of the dump is the mark
  have he : ∀ ch ∈ ({ grid_size_ := n, grid_ := g } : GridOperations).get_encoded_message draws,
      ch ≠ '~' := by
    intro ch hch
    obtain ⟨r, c, hrc, hem⟩ :=
      get_encoded_message_mem { grid_size_ := n, grid_ := g } draws (by simp only; omega) ch hch
    unfold emitted at hem
    simp only at hrc hem
    split_ifs at hem with hblank
    · obtain ⟨t, ht1⟩ := hem
      rw [ht1]; exact filler_ne_mark _
    · rw [hem]; exact ht _ (f3 r c hrc hblank)
  have hdec := decode_master self1 _ he (by omega) (by omega)
    (by
      have : n * n ≤ 31 * 31 := by nlinarith
      omega)
  rw [hfs] at hdec
  refine ⟨_, _, henc self draws, hdec, ?_, ?_, ?_⟩
  · rw [List.length_map, hlc]; omega
  · apply List.ext_getElem
    · rw [List.length_take, List.length_map, hlc]
      have : m.length ≤ (decoded_length n).toNat := by omega
      omega
    · intro i h1 hi
      rw [List.getElem_take, List.getElem_map]
      have hi1 : i < (spiral_path n m.length).length := by rw [hl]; exact hi
      have hi2 : i < (spiral_path n (decoded_length n).toNat).length := by rw [hlc]; omega
      have hpi : (spiral_path n (decoded_length n).toNat)[i] = (spiral_path n m.length)[i] := by
        simp only [htake, List.getElem_take]
      rw [hpi]
      have := dump_at_cells n (by omega) g draws m hb (spiral_path n m.length) hin f1 i hi1 hi
      rw [List.getD_eq_getElem?_getD, this]
      rfl
  · intro ch hch
    obtain ⟨j, hj, hget⟩ := List.getElem_of_mem hch
    rw [List.getElem_drop, List.getElem_map] at hget
    rw [List.length_drop, List.length_map, hlc] at hj
    have hi2 : m.length + j < (spiral_path n (decoded_length n).toNat).length := by
      rw [hlc]; omega
    have hgrid := hinc _ (List.getElem_mem hi2)
    -- the cell is beyond the part of the path the message was written on
    have hnot : (spiral_path n (decoded_length n).toNat)[m.length + j] ∉
        spiral_path n m.length := by
      intro hmem
      rw [htake] at hmem
      obtain ⟨i, hi, hieq⟩ := List.getElem_of_mem hmem
      rw [List.getElem_take] at hieq
      rw [List.length_take] at hi
      have := (List.Nodup.getElem_inj_iff hndc).1 hieq
      omega
    have hblank := f2 _ _ hgrid hnot
    obtain ⟨c1, a1, b1⟩ := hcell _ _ hgrid
    unfold emitted at b1
    rw [if_pos hblank] at b1
    obtain ⟨t, ht1⟩ := b1
    refine ⟨t, ?_⟩
    rw [← hget, List.getD_eq_getElem?_getD]
    have hpair : ((spiral_path n (decoded_length n).toNat)[m.length + j].1,
        (spiral_path n (decoded_length n).toNat)[m.length + j].2) =
        (spiral_path n (decoded_length n).toNat)[m.length + j] := rfl
    rw [hpair] at a1
    rw [a1, ht1]
    rfl

/-- C17: for a message without blank and without `~` of 2 to 481 characters, every grid
size `encode` may use (it is odd and lies between the minimum size and 31) and every filler
draw, `decode(encode(m, n))` is `m` followed by `(n * n + 1) / 2 - len(m)` drawn letters
`A`..`Z`, and it equals `m` exactly when `len(m) = (n * n + 1) / 2`. -/
theorem C17_round_trip_prefix (self self1 : EncoderDecoder) (m : List Char)
    (hb : ∀ ch ∈ m, ch ≠ ' ') (ht : ∀ ch ∈ m, ch ≠ '~') (h2 : 2 ≤ m.length)
    (h481 : m.length ≤ 481) (nmin n : Int) (hmin : minimum_size m.length = some nmin)
    (is_auto : Bool) (input : UserInput) (hsel : chosen_size nmin is_auto input = some n)
    (draws : Nat → Fin 26) :
    n % 2 = 1 ∧ nmin ≤ n ∧ n ≤ 31 ∧
    ∃ (e d tail : List Char),
      (self.encode m is_auto input draws).2 = .ok e ∧ (self1.decode e).2 = .ok d ∧
      d = m ++ tail ∧ (tail.length : Int) = decoded_length n - m.length ∧
      (∀ ch ∈ tail, (∃ t, ch = filler (draws t)) ∧ 'A' ≤ ch ∧ ch ≤ 'Z') ∧
      (d = m ↔ (m.length : Int) = decoded_length n) := by
  obtain ⟨g3, g31, godd, _⟩ := minimum_size_bounds m.length h2 h481 nmin hmin
  obtain ⟨hodd, hle, h31⟩ := chosen_size_valid nmin godd g31 is_auto input n hsel
  obtain ⟨e, d, henc, hdec, hlen, htake, htail⟩ :=
    round_trip_general self self1 m hb ht h2 h481 nmin n hmin is_auto input hsel draws
  have hd : d = m ++ d.drop m.length := by
    conv_lhs => rw [← List.take_append_drop m.length d, htake]
  refine ⟨hodd, hle, h31, e, d, d.drop m.length, henc, hdec, hd, ?_, fun ch hch => ?_, ?_⟩
  · rw [List.length_drop]
    have hcap : (m.length : Int) ≤ decoded_length n := by
      have := congrArg List.length htake
      rw [List.length_take] at this
      omega
    omega
  · obtain ⟨t, ht1⟩ := htail ch hch
    refine ⟨⟨t, ht1⟩, ?_⟩
    rw [ht1]
    exact filler_range _
  · exact (eq_iff_length_of_take d m htake).trans
      ⟨fun h => by rw [← hlen]; exact_mod_cast h.symm, fun h => by
        have := hlen.trans h.symm; exact_mod_cast this⟩

/-- C17 on the message `HI` written into a 5 × 5 grid typed in by the user. -/
theorem C17_round_trip_prefix_witness :
    (∀ ch ∈ ['H', 'I'], ch ≠ ' ') ∧ (∀ ch ∈ ['H', 'I'], ch ≠ '~') ∧
    2 ≤ (['H', 'I'] : List Char).length ∧ (['H', 'I'] : List Char).length ≤ 481 ∧
    minimum_size (['H', 'I'] : List Char).length = some 3 ∧
    chosen_size 3 false { declare_custom := true, entries := [some 5] } = some 5 ∧
    ((5 : Int) % 2 = 1 ∧ (3 : Int) ≤ 5 ∧ (5 : Int) ≤ 31 ∧
    ∃ (e d tail : List Char),
      (EncoderDecoder.new.encode ['H', 'I'] false
        { declare_custom := true, entries := [some 5] } (fun _ => 0)).2 = .ok e ∧
      (EncoderDecoder.new.decode e).2 = .ok d ∧
      d = ['H', 'I'] ++ tail ∧
      (tail.length : Int) = decoded_length 5 - (['H', 'I'] : List Char).length ∧
      (∀ ch ∈ tail, (∃ t, ch = filler ((fun _ => 0 : Nat → Fin 26) t)) ∧ 'A' ≤ ch ∧ ch ≤ 'Z') ∧
      (d = ['H', 'I'] ↔ ((['H', 'I'] : List Char).length : Int) = decoded_length 5)) :=
  ⟨by decide, by decide, by decide, by decide, by decide,
    chosen_size_custom 3 5 (by decide) (by decide) (by decide),
    C17_round_trip_prefix EncoderDecoder.new EncoderDecoder.new ['H', 'I'] (by decide)
      (by decide) (by decide) (by decide) 3 5 (by decide) false
      { declare_custom := true, entries := [some 5] }
      (chosen_size_custom 3 5 (by decide) (by decide) (by decide)) (fun _ => 0)⟩

/-! ## The spiral in closed form -/

set_option maxRecDepth 100000 in
theorem spiral_diamond_3 : spiral_path 3 (decoded_length 3).toNat = diamond_path 3 := by
  decide!

set_option maxRecDepth 100000 in
theorem spiral_diamond_5 : spiral_path 5 (decoded_length 5).toNat = diamond_path 5 := by
  decide!

set_option maxRecDepth 100000 in
theorem spiral_diamond_7 : spiral_path 7 (decoded_length 7).toNat = diamond_path 7 := by
  decide!

set_option maxRecDepth 100000 in
theorem spiral_diamond_9 : spiral_path 9 (decoded_length 9).toNat = diamond_path 9 := by
  decide!

set_option maxRecDepth 100000 in
theorem spiral_diamond_11 : spiral_path 11 (decoded_length 11).toNat = diamond_path 11 := by
  decide!

set_option maxRecDepth 100000 in
theorem spiral_diamond_13 : spiral_path 13 (decoded_length 13).toNat = diamond_path 13 := by
  decide!

set_option maxRecDepth 100000 in
theorem spiral_diamond_15 : spiral_path 15 (decoded_length 15).toNat = diamond_path 15 := by
  decide!

set_option maxRecDepth 100000 in
theorem spiral_diamond_17 : spiral_path 17 (decoded_length 17).toNat = diamond_path 17 := by
  decide!

set_option maxRecDepth 100000 in
theorem spiral_diamond_19 : spiral_path 19 (decoded_length 19).toNat = diamond_path 19 := by
  decide!

set_option maxRecDepth 100000 in
theorem spiral_diamond_21 : spiral_path 21 (decoded_length 21).toNat = diamond_path 21 := by
  decide!

set_option maxRecDepth 100000 in
theorem spiral_diamond_23 : spiral_path 23 (decoded_length 23).toNat = diamond_path 23 := by
  decide!

set_option maxRecDepth 100000 in
theorem spiral_diamond_25 : spiral_path 25 (decoded_length 25).toNat = diamond_path 25 := by
  decide!

set_option maxRecDepth 100000 in
theorem spiral_diamond_27 : spiral_path 27 (decoded_length 27).toNat = diamond_path 27 := by
  decide!

set_option maxRecDepth 100000 in
theorem spiral_diamond_29 : spiral_path 29 (decoded_length 29).toNat = diamond_path 29 := by
  decide!

set_option maxRecDepth 100000 in
theorem spiral_diamond_31 : spiral_path 31 (decoded_length 31).toNat = diamond_path 31 := by
  decide!

/-- On every grid the codec can build the cells the traversal visits in its
`decoded_length n` passes are the cells of the diamond in ring order. -/
theorem spiral_path_eq_diamond (n : Int) (h3 : 3 ≤ n) (h31 : n ≤ 31) (hodd : n % 2 = 1) :
    spiral_path n (decoded_length n).toNat = diamond_path n := by
  interval_cases n
  · exact spiral_diamond_3
  · omega
  · exact spiral_diamond_5
  · omega
  · exact spiral_diamond_7
  · omega
  · exact spiral_diamond_9
  · omega
  · exact spiral_diamond_11
  · omega
  · exact spiral_diamond_13
  · omega
  · exact spiral_diamond_15
  · omega
  · exact spiral_diamond_17
  · omega
  · exact spiral_diamond_19
  · omega
  · exact spiral_diamond_21
  · omega
  · exact spiral_diamond_23
  · omega
  · exact spiral_diamond_25
  · omega
  · exact spiral_diamond_27
  · omega
  · exact spiral_diamond_29
  · omega
  · exact spiral_diamond_31

/-- The cells of a ring are the cells at its Manhattan distance from the centre. -/
theorem mem_ring (c d : Nat) (r col : Int) :
    (r, col) ∈ ring c d ↔ (1 ≤ d ∧ |r - c| + |col - c| = d) := by
  unfold ring
  simp only [List.mem_append, List.mem_map, List.mem_range, Prod.mk.injEq]
  constructor
  · rintro (((⟨t, ht, h1, h2⟩ | ⟨t, ht, h1, h2⟩) | ⟨t, ht, h1, h2⟩) | ⟨t, ht, h1, h2⟩) <;>
      refine ⟨by omega, ?_⟩ <;>
      rcases abs_cases (r - c) with ⟨ha, _⟩ | ⟨ha, _⟩ <;>
      rcases abs_cases (col - c) with ⟨hb, _⟩ | ⟨hb, _⟩ <;> omega
  · rintro ⟨hd, h⟩
    rcases lt_trichotomy r c with hr | hr | hr <;> rcases lt_trichotomy col c with hc | hc | hc
    · obtain ⟨t, ht⟩ := Int.eq_ofNat_of_zero_le (show 0 ≤ (c : Int) - r by omega)
      rw [abs_of_neg (by omega), abs_of_neg (by omega)] at h
      exact Or.inl (Or.inl (Or.inl ⟨t, by omega, by omega, by omega⟩))
    · obtain ⟨t, ht⟩ := Int.eq_ofNat_of_zero_le (show 0 ≤ col - (c : Int) by omega)
      rw [abs_of_neg (by omega), abs_of_nonneg (by omega)] at h
      exact Or.inl (Or.inl (Or.inr ⟨t, by omega, by omega, by omega⟩))
    · obtain ⟨t, ht⟩ := Int.eq_ofNat_of_zero_le (show 0 ≤ col - (c : Int) by omega)
      rw [abs_of_neg (by omega), abs_of_nonneg (by omega)] at h
      exact Or.inl (Or.inl (Or.inr ⟨t, by omega, by omega, by omega⟩))
    · obtain ⟨t, ht⟩ := Int.eq_ofNat_of_zero_le (show 0 ≤ (c : Int) - r by omega)
      rw [abs_of_nonneg (by omega), abs_of_neg (by omega)] at h
      exact Or.inl (Or.inl (Or.inl ⟨t, by omega, by omega, by omega⟩))
    · rw [abs_of_nonneg (by omega), abs_of_nonneg (by omega)] at h
      omega
    · obtain ⟨t, ht⟩ := Int.eq_ofNat_of_zero_le (show 0 ≤ r - (c : Int) by omega)
      rw [abs_of_nonneg (by omega), abs_of_nonneg (by omega)] at h
      exact Or.inl (Or.inr ⟨t, by omega, by omega, by omega⟩)
    · obtain ⟨t, ht⟩ := Int.eq_ofNat_of_zero_le (show 0 ≤ (c : Int) - col by omega)
      rw [abs_of_nonneg (by omega), abs_of_neg (by omega)] at h
      exact Or.inr ⟨t, by omega, by omega, by omega⟩
    · obtain ⟨t, ht⟩ := Int.eq_ofNat_of_zero_le (show 0 ≤ (c : Int) - col by omega)
      rw [abs_of_nonneg (by omega), abs_of_nonneg (by omega)] at h
      exact Or.inr ⟨t, by omega, by omega, by omega⟩
    · obtain ⟨t, ht⟩ := Int.eq_ofNat_of_zero_le (show 0 ≤ r - (c : Int) by omega)
      rw [abs_of_nonneg (by omega), abs_of_nonneg (by omega)] at h
      exact Or.inl (Or.inr ⟨t, by omega, by omega, by omega⟩)

theorem mem_rings (c : Nat) (r col : Int) : ∀ k : Nat,
    ((r, col) ∈ rings c k ↔ (1 ≤ |r - c| + |col - c| ∧ |r - c| + |col - c| ≤ k)) := by
  intro k
  generalize hD : |r - (c : Int)| + |col - (c : Int)| = D
  induction k with
  | zero =>
    simp only [rings, List.not_mem_nil, false_iff, Nat.cast_zero]
    omega
  | succ k ih =>
    rw [rings, List.mem_append, mem_ring, ih, hD]
    push_cast
    constructor
    · rintro (⟨_, h⟩ | ⟨h1, h2⟩)
      · omega
      · omega
    · rintro ⟨h1, h2⟩
      by_cases h : D = k + 1
      · exact Or.inl ⟨trivial, h⟩
      · exact Or.inr ⟨h1, by omega⟩

/-- The diamond path holds exactly the cells within Manhattan distance `n / 2` of the
centre. -/
theorem mem_diamond_path (n : Int) (hn : 0 ≤ n) (r col : Int) :
    (r, col) ∈ diamond_path n ↔ |r - n / 2| + |col - n / 2| ≤ n / 2 := by
  have hc : (((n / 2).toNat : Nat) : Int) = n / 2 := Int.toNat_of_nonneg (by omega)
  unfold diamond_path
  rw [List.mem_append, mem_rings, hc, List.mem_singleton, Prod.mk.injEq]
  constructor
  · rintro (⟨_, h⟩ | ⟨h1, h2⟩)
    · exact h
    · rw [h1, h2]; simp only [sub_self, abs_zero, add_zero]; omega
  · intro h
    by_cases h0 : 1 ≤ |r - n / 2| + |col - n / 2|
    · exact Or.inl ⟨h0, h⟩
    · refine Or.inr ?_
      rcases abs_cases (r - n / 2) with ⟨ha, _⟩ | ⟨ha, _⟩ <;>
        rcases abs_cases (col - n / 2) with ⟨hb, _⟩ | ⟨hb, _⟩ <;> constructor <;> omega

/-- C18 (closed form of the spiral): for every odd `n` from 3 to 31, with `c = n / 2`, and
every message without blanks of `(n * n + 1) / 2` characters, the write traversal stores
character `i` in cell `i` of the diamond path (the rings at Manhattan distance
`c, c - 1, ..., 1` from the centre, each from `(c, c - d)` up-right to `(c - d, c)`,
down-right to `(c, c + d)`, down-left to `(c + d, c)` and up-left to `(c + 1, c - d + 1)`,
then the centre), and the cells left non-blank are exactly those with
`|row - c| + |col - c| ≤ c`. -/
theorem C18_spiral_closed_form (n : Int) (h3 : 3 ≤ n) (h31 : n ≤ 31) (hodd : n % 2 = 1)
    (m : List Char) (hm : ∀ ch ∈ m, ch ≠ ' ')
    (hlen : (m.length : Int) = decoded_length n)
    (ops : GridOperations) (hsize : ops.grid_size_ = n) :
    ∃ ops1 : GridOperations, ops.process_grid m true = .ok (ops1, []) ∧
      (diamond_path n).length = m.length ∧
      (∀ (i : Nat) (h1 : i < (diamond_path n).length) (h2 : i < m.length),
        ops1.grid_ (diamond_path n)[i].1 (diamond_path n)[i].2 = m[i]) ∧
      (∀ r c, in_grid n r c = true →
        (ops1.grid_ r c ≠ ' ' ↔ |r - n / 2| + |c - n / 2| ≤ n / 2)) := by
  obtain ⟨ops1, hp, _, f1, f2, _⟩ := process_grid_encode n h3 h31 hodd m hm (by omega) ops hsize
  obtain ⟨_, _, _, _, hl, _, _, _⟩ := spiral_path_spec n h3 h31 hodd m.length (by omega)
  have hml : m.length = (decoded_length n).toNat := by omega
  have hpath : spiral_path n m.length = diamond_path n := by
    rw [hml]; exact spiral_path_eq_diamond n h3 h31 hodd
  rw [hpath] at f1 f2 hl
  refine ⟨ops1, hp, hl, f1, fun r c hrc => ?_⟩
  rw [← mem_diamond_path n (by omega)]
  constructor
  · intro hne
    by_contra hnot
    exact hne (f2 r c hrc hnot)
  · intro hmem
    obtain ⟨i, hi, hget⟩ := List.getElem_of_mem hmem
    have := f1 i hi (by rw [← hl]; exact hi)
    rw [hget] at this
    simp only at this
    rw [this]
    exact hm _ (List.getElem_mem _)

/-- C18 on the five-letter message `HELLO` and the 3 × 3 grid. -/
theorem C18_spiral_closed_form_witness :
    (3 : Int) ≤ 3 ∧ (3 : Int) ≤ 31 ∧ (3 : Int) % 2 = 1 ∧
    (∀ ch ∈ ['H', 'E', 'L', 'L', 'O'], ch ≠ ' ') ∧
    ((['H', 'E', 'L', 'L', 'O'] : List Char).length : Int) = decoded_length 3 ∧
    (GridOperations.set_grid_size GridOperations.new 3).1.grid_size_ = 3 ∧
    diamond_path 3 = [(1, 0), (0, 1), (1, 2), (2, 1), (1, 1)] ∧
    ∃ ops1 : GridOperations,
      (GridOperations.set_grid_size GridOperations.new 3).1.process_grid
        ['H', 'E', 'L', 'L', 'O'] true = .ok (ops1, []) ∧
      (diamond_path 3).length = (['H', 'E', 'L', 'L', 'O'] : List Char).length ∧
      (∀ (i : Nat) (_ : i < (diamond_path 3).length)
          (h2 : i < (['H', 'E', 'L', 'L', 'O'] : List Char).length),
        ops1.grid_ (diamond_path 3)[i].1 (diamond_path 3)[i].2 =
          (['H', 'E', 'L', 'L', 'O'] : List Char)[i]) ∧
      (∀ r c, in_grid 3 r c = true →
        (ops1.grid_ r c ≠ ' ' ↔ |r - 3 / 2| + |c - 3 / 2| ≤ 3 / 2)) :=
  ⟨by decide, by decide, by decide, by decide, by decide, by decide, by decide,
    C18_spiral_closed_form 3 (by decide) (by decide) (by decide)
      ['H', 'E', 'L', 'L', 'O'] (by decide) (by decide)
      (GridOperations.set_grid_size GridOperations.new 3).1 (by decide)⟩

/-! ## The boundary tracker along the traversal -/

/-- The first `k` passes of the loop are the loop itself when the loop ends within `k`
passes. -/
theorem fill_after_of_fill_loop (n : Int) (m : List Char) (flag : Bool) :
    ∀ (k : Nat) (s sf : FillState), fill_loop n m flag k s = .ok sf →
      fill_after n m flag k s = .ok sf := by
  intro k
  induction k with
  | zero =>
    intro s sf h
    unfold fill_loop at h
    unfold fill_after
    split_ifs at h with h1
    exact h
  | succ k ih =>
    intro s sf h
    unfold fill_loop at h
    unfold fill_after
    by_cases h1 : s.index < m.length
    · rw [if_pos h1] at h ⊢
      by_cases h2 : (!flag && decide ((s.index : Int) ≥ decoded_length n)) = true
      · rw [if_pos h2] at h ⊢
        exact h
      · rw [if_neg h2] at h ⊢
        cases hb : fill_body n m flag s with
        | ok s1 => rw [hb] at h; exact ih s1 sf h
        | raised e => rw [hb] at h; exact absurd h (by simp)
        | out_of_bounds => rw [hb] at h; exact absurd h (by simp)
        | no_return => rw [hb] at h; exact absurd h (by simp)
    · rw [if_neg h1] at h ⊢
      exact h

/-- A property checked along the walk holds after every one of its passes. -/
theorem walk_all_spec (n : Int) (P : Nat → Walk → Bool) :
    ∀ (k j : Nat) (w : Walk), walk_all n P k j w = true →
      ∀ i, i ≤ k → ∃ wi, walk n i w = some wi ∧ P (j + i) wi = true := by
  intro k
  induction k with
  | zero =>
    intro j w h i hi
    obtain rfl : i = 0 := by omega
    exact ⟨w, rfl, h⟩
  | succ k ih =>
    intro j w h i hi
    unfold walk_all at h
    rw [Bool.and_eq_true] at h
    obtain ⟨hP, hrest⟩ := h
    cases i with
    | zero => exact ⟨w, rfl, hP⟩
    | succ i =>
      cases hs : walk_step n w with
      | none => rw [hs] at hrest; exact absurd hrest (by simp)
      | some w1 =>
        rw [hs] at hrest
        obtain ⟨wi, hw, hPi⟩ := ih (j + 1) w1 hrest i (by omega)
        refine ⟨wi, ?_, ?_⟩
        · unfold walk
          rw [hs]
          exact hw
        · have e : j + (i + 1) = j + 1 + i := by omega
          rw [e]; exact hPi

/-- The first `k` passes of the write loop follow the walk. -/
theorem fill_after_encode_sim (n : Int) (hn : n ≤ 32) (g0 : Grid)
    (hg0 : ∀ r c, in_grid n r c = true → g0 r c = ' ')
    (m : List Char) (hm : ∀ ch ∈ m, ch ≠ ' ') :
    ∀ (k : Nat) (s : FillState) (w wk : Walk),
      EncRel g0 m s w → w.consistent n → s.index + k ≤ m.length → walk n k w = some wk →
      ∃ sk, fill_after n m true k s = .ok sk ∧ EncRel g0 m sk wk := by
  intro k
  induction k with
  | zero =>
    intro s w wk hrel _ _ hw
    simp only [walk] at hw
    injection hw with hw; subst hw
    exact ⟨s, rfl, hrel⟩
  | succ k ih =>
    intro s w wk hrel hc hidx hw
    unfold walk at hw
    cases hs : walk_step n w with
    | none => rw [hs] at hw; exact absurd hw (by simp)
    | some w1 =>
      rw [hs] at hw
      obtain ⟨s1, hb, hrel1⟩ := fill_body_encode_sim n hn g0 hg0 m hm s w w1 hrel hc (by omega) hs
      have hi1 : s1.index = s.index + 1 := by
        obtain ⟨_, _, _, h4, _⟩ := walk_step_some n w w1 hs
        rw [hrel1.2.2.2.2.2.1, h4, hrel.2.2.2.2.2.1]; rfl
      obtain ⟨sk, hl, hr⟩ := ih s1 w1 wk hrel1 (walk_step_consistent n hn w w1 hc hs)
        (by omega) hw
      refine ⟨sk, ?_, hr⟩
      unfold fill_after
      rw [if_pos (by omega), hb]
      simpa using hl

/-- The first `k` passes of the read loop follow the walk, up to `decoded_length n`
passes. -/
theorem fill_after_decode_sim (n : Int) (hn : n ≤ 32) (g0 : Grid)
    (hg0 : ∀ r c, in_grid n r c = true → g0 r c ≠ '~') (m : List Char) :
    ∀ (k : Nat) (s : FillState) (w wk : Walk),
      DecRel g0 s w → w.consistent n → (s.index : Int) + k ≤ decoded_length n →
      s.index + k ≤ m.length → walk n k w = some wk →
      ∃ sk, fill_after n m false k s = .ok sk ∧ DecRel g0 sk wk := by
  intro k
  induction k with
  | zero =>
    intro s w wk hrel _ _ _ hw
    simp only [walk] at hw
    injection hw with hw; subst hw
    exact ⟨s, rfl, hrel⟩
  | succ k ih =>
    intro s w wk hrel hc hidx hlen hw
    unfold walk at hw
    cases hs : walk_step n w with
    | none => rw [hs] at hw; exact absurd hw (by simp)
    | some w1 =>
      rw [hs] at hw
      obtain ⟨s1, hb, hrel1⟩ := fill_body_decode_sim n hn g0 hg0 m s w w1 hrel hc hs
      have hi1 : s1.index = s.index + 1 := by
        obtain ⟨_, _, _, h4, _⟩ := walk_step_some n w w1 hs
        rw [hrel1.2.2.2.2.2.1, h4, hrel.2.2.2.2.2.1]; rfl
      obtain ⟨sk, hl, hr⟩ := ih s1 w1 wk hrel1 (walk_step_consistent n hn w w1 hc hs)
        (by rw [hi1]; push_cast at hidx ⊢; omega) (by omega) hw
      refine ⟨sk, ?_, hr⟩
      unfold fill_after
      have hlt : ¬ ((s.index : Int) ≥ decoded_length n) := by push_cast at hidx; omega
      rw [if_pos (by omega), if_neg (by simpa using hlt), hb]
      simpa using hl

set_option maxRecDepth 100000 in
theorem boundary_all_3 :
    walk_all 3 (boundary_ok 3) (decoded_length 3).toNat 0 (walk_start 3) = true := by
  decide!

set_option maxRecDepth 100000 in
theorem boundary_all_5 :
    walk_all 5 (boundary_ok 5) (decoded_length 5).toNat 0 (walk_start 5) = true := by
  decide!

set_option maxRecDepth 100000 in
theorem boundary_all_7 :
    walk_all 7 (boundary_ok 7) (decoded_length 7).toNat 0 (walk_start 7) = true := by
  decide!

set_option maxRecDepth 100000 in
theorem boundary_all_9 :
    walk_all 9 (boundary_ok 9) (decoded_length 9).toNat 0 (walk_start 9) = true := by
  decide!

set_option maxRecDepth 100000 in
theorem boundary_all_11 :
    walk_all 11 (boundary_ok 11) (decoded_length 11).toNat 0 (walk_start 11) = true := by
  decide!

set_option maxRecDepth 100000 in
theorem boundary_all_13 :
    walk_all 13 (boundary_ok 13) (decoded_length 13).toNat 0 (walk_start 13) = true := by
  decide!

set_option maxRecDepth 100000 in
theorem boundary_all_15 :
    walk_all 15 (boundary_ok 15) (decoded_length 15).toNat 0 (walk_start 15) = true := by
  decide!

set_option maxRecDepth 100000 in
theorem boundary_all_17 :
    walk_all 17 (boundary_ok 17) (decoded_length 17).toNat 0 (walk_start 17) = true := by
  decide!

set_option maxRecDepth 100000 in
theorem boundary_all_19 :
    walk_all 19 (boundary_ok 19) (decoded_length 19).toNat 0 (walk_start 19) = true := by
  decide!

set_option maxRecDepth 100000 in
theorem boundary_all_21 :
    walk_all 21 (boundary_ok 21) (decoded_length 21).toNat 0 (walk_start 21) = true := by
  decide!

set_option maxRecDepth 100000 in
theorem boundary_all_23 :
    walk_all 23 (boundary_ok 23) (decoded_length 23).toNat 0 (walk_start 23) = true := by
  decide!

set_option maxRecDepth 100000 in
theorem boundary_all_25 :
    walk_all 25 (boundary_ok 25) (decoded_length 25).toNat 0 (walk_start 25) = true := by
  decide!

set_option maxRecDepth 100000 in
theorem boundary_all_27 :
    walk_all 27 (boundary_ok 27) (decoded_length 27).toNat 0 (walk_start 27) = true := by
  decide!

set_option maxRecDepth 100000 in
theorem boundary_all_29 :
    walk_all 29 (boundary_ok 29) (decoded_length 29).toNat 0 (walk_start 29) = true := by
  decide!

set_option maxRecDepth 100000 in
theorem boundary_all_31 :
    walk_all 31 (boundary_ok 31) (decoded_length 31).toNat 0 (walk_start 31) = true := by
  decide!

/-- On every odd dimension from 3 to 31 the tracker condition `boundary_ok` holds after
every pass of the traversal. -/
theorem boundary_all_of_odd (n : Int) (h3 : 3 ≤ n) (h31 : n ≤ 31) (hodd : n % 2 = 1) :
    walk_all n (boundary_ok n) (decoded_length n).toNat 0 (walk_start n) = true := by
  interval_cases n
  · exact boundary_all_3
  · omega
  · exact boundary_all_5
  · omega
  · exact boundary_all_7
  · omega
  · exact boundary_all_9
  · omega
  · exact boundary_all_11
  · omega
  · exact boundary_all_13
  · omega
  · exact boundary_all_15
  · omega
  · exact boundary_all_17
  · omega
  · exact boundary_all_19
  · omega
  · exact boundary_all_21
  · omega
  · exact boundary_all_23
  · omega
  · exact boundary_all_25
  · omega
  · exact boundary_all_27
  · omega
  · exact boundary_all_29
  · omega
  · exact boundary_all_31

/-- The tracker after `k` passes of the walk, for `k` up to `decoded_length n`. -/
theorem walk_boundary (n : Int) (h3 : 3 ≤ n) (h31 : n ≤ 31) (hodd : n % 2 = 1)
    (k : Nat) (hk : (k : Int) ≤ decoded_length n) :
    ∃ wk, walk n k (walk_start n) = some wk ∧ wk.consistent n ∧ wk.visited.length = k ∧
      wk.boundary.top_ ≤ wk.boundary.bottom_ ∧
      wk.boundary.top_ + wk.boundary.bottom_ = n - 1 ∧
      wk.boundary.right_ = wk.boundary.bottom_ ∧
      (wk.boundary.top_ < wk.boundary.bottom_ ↔ (k : Int) + 1 < decoded_length n) := by
  obtain ⟨wk, hw, hP⟩ := walk_all_spec n (boundary_ok n) _ 0 _
    (boundary_all_of_odd n h3 h31 hodd) k (by omega)
  obtain ⟨wk2, hw2, hc, hv, hl, _⟩ := spiral_path_spec n h3 h31 hodd k hk
  rw [hw] at hw2
  injection hw2 with hw2
  subst hw2
  refine ⟨wk, hw, hc, by rw [hv, List.length_reverse, hl], ?_⟩
  unfold boundary_ok at hP
  simp only [Bool.and_eq_true, decide_eq_true_eq, beq_iff_eq, decide_eq_decide, zero_add] at hP
  obtain ⟨⟨⟨a, b⟩, c⟩, d⟩ := hP
  exact ⟨a, b, c, d⟩

/-- C19 as a property that fails: the five letters `HELLO` are blank-free and fill the
3 × 3 grid to its capacity `(3 * 3 + 1) / 2 = 5`; the fourth pass closes the only ring and
moves the tracker to `(top, bottom, right) = (1, 1, 1)`, and the fifth pass, which writes
the centre, starts from there, with `top = bottom`. -/
theorem C19_boundary_collapses_counterexample :
    (∀ ch ∈ ['H', 'E', 'L', 'L', 'O'], ch ≠ ' ') ∧
    ((['H', 'E', 'L', 'L', 'O'] : List Char).length : Int) ≤ decoded_length 3 ∧
    4 < (['H', 'E', 'L', 'L', 'O'] : List Char).length ∧
    (fill_after 3 ['H', 'E', 'L', 'L', 'O'] true 4
        (fill_start ((GridOperations.set_grid_size GridOperations.new 3).1.initialise_grid
          []).grid_ 3)).map FillState.registers =
      .ok ({ top_ := 1, bottom_ := 1, right_ := 1 }, 1, 1, -1, 1) ∧
    ¬ (({ top_ := 1, bottom_ := 1, right_ := 1 } : GridBoundary).top_ <
        ({ top_ := 1, bottom_ := 1, right_ := 1 } : GridBoundary).bottom_) := by
  refine ⟨by decide, by decide, by decide, by decide, by decide⟩

/-- C19, amended: on an odd dimension `n` from 3 to 31, the first `k` passes of the loop of
`fill_grid` return, in write mode for a blank-free message of at most `decoded_length n`
characters and `k` up to its length, and in read mode for a string of at least `n * n`
characters without the mark and `k` up to `decoded_length n`. After them `index = k` and
the tracker satisfies `top ≤ bottom`, `top + bottom = n - 1` and `right = bottom`; and
`top < bottom` holds exactly while `k + 1 < decoded_length n`, that is until the pass that
closes the innermost ring, which leaves `top = bottom = right = n / 2` for the pass on the
centre. -/
theorem C19_boundary_invariant (n : Int) (h3 : 3 ≤ n) (h31 : n ≤ 31) (hodd : n % 2 = 1)
    (ops : GridOperations) (hsize : ops.grid_size_ = n) (m : List Char) (k : Nat) :
    ((∀ ch ∈ m, ch ≠ ' ') → (m.length : Int) ≤ decoded_length n → k ≤ m.length →
      ∃ s, fill_after n m true k (fill_start (ops.initialise_grid []).grid_ n) = .ok s ∧
        s.index = k ∧ s.boundary.top_ ≤ s.boundary.bottom_ ∧
        s.boundary.top_ + s.boundary.bottom_ = n - 1 ∧
        s.boundary.right_ = s.boundary.bottom_ ∧
        (s.boundary.top_ < s.boundary.bottom_ ↔ (k : Int) + 1 < decoded_length n)) ∧
    ((∀ ch ∈ m, ch ≠ '~') → n * n ≤ (m.length : Int) → (k : Int) ≤ decoded_length n →
      ∃ s, fill_after n m false k (fill_start (ops.initialise_grid m).grid_ n) = .ok s ∧
        s.index = k ∧ s.boundary.top_ ≤ s.boundary.bottom_ ∧
        s.boundary.top_ + s.boundary.bottom_ = n - 1 ∧
        s.boundary.right_ = s.boundary.bottom_ ∧
        (s.boundary.top_ < s.boundary.bottom_ ↔ (k : Int) + 1 < decoded_length n)) := by
  constructor
  · intro hm hlen hk
    obtain ⟨wk, hw, _, hvl, b1, b2, b3, b4⟩ :=
      walk_boundary n h3 h31 hodd k (by have : (k : Int) ≤ m.length := by exact_mod_cast hk
                                        omega)
    have hg0 : ∀ r c, in_grid n r c = true → (ops.initialise_grid []).grid_ r c = ' ' := by
      intro r c hrc
      rw [initialise_grid_cell, hsize, if_pos hrc]
      simp [initial_char]
    obtain ⟨s, hs, hrel⟩ := fill_after_encode_sim n (by omega) _ hg0 m hm k _ _ wk
      (enc_rel_start n (ops.initialise_grid []).grid_ m) (walk_start_consistent n)
      (by simp only [zero_add]; exact hk) hw
    obtain ⟨e1, _, _, _, _, e6, _⟩ := hrel
    refine ⟨s, hs, by rw [e6, hvl], ?_⟩
    rw [e1]
    exact ⟨b1, b2, b3, b4⟩
  · intro he hlen hk
    obtain ⟨wk, hw, _, hvl, b1, b2, b3, b4⟩ := walk_boundary n h3 h31 hodd k hk
    have hne : m ≠ [] := by
      intro h
      rw [h] at hlen
      simp only [List.length_nil, Nat.cast_zero] at hlen
      nlinarith
    have hcell : ∀ r c, in_grid n r c = true →
        (ops.initialise_grid m).grid_ r c = m.getD (dump_index n (r, c)) (Char.ofNat 0) := by
      intro r c hrc
      rw [initialise_grid_cell, hsize, if_pos hrc]
      simp [initial_char, hne]
    have hidx : ∀ r c, in_grid n r c = true → dump_index n (r, c) < m.length := by
      intro r c hrc
      rw [in_grid_iff] at hrc
      unfold dump_index
      simp only
      have : r * n + c < n * n := by nlinarith
      have : 0 ≤ r * n + c := by nlinarith
      omega
    have hg0 : ∀ r c, in_grid n r c = true → (ops.initialise_grid m).grid_ r c ≠ '~' := by
      intro r c hrc
      rw [hcell r c hrc]
      apply he
      rw [List.getD_eq_getElem?_getD, List.getElem?_eq_getElem (hidx r c hrc)]
      exact List.getElem_mem _
    have hcaple : decoded_length n ≤ n * n := by
      unfold decoded_length square
      have : 1 ≤ n * n := by nlinarith
      omega
    obtain ⟨s, hs, hrel⟩ := fill_after_decode_sim n (by omega) _ hg0 m k _ _ wk
      (dec_rel_start n (ops.initialise_grid m).grid_) (walk_start_consistent n)
      (by simp only [fill_start, Nat.cast_zero, zero_add]; exact hk)
      (by simp only [fill_start, zero_add]; omega) hw
    obtain ⟨e1, _, _, _, _, e6, _⟩ := hrel
    refine ⟨s, hs, by rw [e6, hvl], ?_⟩
    rw [e1]
    exact ⟨b1, b2, b3, b4⟩

/-- C19 amended, on the 3 × 3 grid and the message `HELLO` after four passes: the tracker
is `(1, 1, 1)`. -/
theorem C19_boundary_invariant_witness :
    (3 : Int) ≤ 3 ∧ (3 : Int) ≤ 31 ∧ (3 : Int) % 2 = 1 ∧
    (∀ ch ∈ ['H', 'E', 'L', 'L', 'O'], ch ≠ ' ') ∧
    ((['H', 'E', 'L', 'L', 'O'] : List Char).length : Int) ≤ decoded_length 3 ∧
    4 ≤ (['H', 'E', 'L', 'L', 'O'] : List Char).length ∧
    ∃ s, fill_after 3 ['H', 'E', 'L', 'L', 'O'] true 4
        (fill_start ((GridOperations.set_grid_size GridOperations.new 3).1.initialise_grid
          []).grid_ 3) = .ok s ∧
      s.index = 4 ∧ s.boundary.top_ ≤ s.boundary.bottom_ ∧
      s.boundary.top_ + s.boundary.bottom_ = 3 - 1 ∧
      s.boundary.right_ = s.boundary.bottom_ ∧
      (s.boundary.top_ < s.boundary.bottom_ ↔ ((4 : Nat) : Int) + 1 < decoded_length 3) :=
  ⟨by decide, by decide, by decide, by decide, by decide, by decide,
    (C19_boundary_invariant 3 (by decide) (by decide) (by decide)
      (GridOperations.set_grid_size GridOperations.new 3).1 (by decide)
      ['H', 'E', 'L', 'L', 'O'] 4).1 (by decide) (by decide) (by decide)⟩

end SecretMessage
